import Mathlib

set_option linter.unusedVariables false

/-!
# Worker pool of `search-radius/pkg/common/workerpool`

A shallow embedding of the binary search primitive (`pkg/algorithm/search.go`), of the two idle
queues (`fifo_queue.go`, `lifo_queue.go`), of the pool core (`pool_common.go`, `pool.go`,
`pool_func.go`, `worker.go`) and of the multi-pool (`multipool_common.go`, `multipool.go`).

Conventions of the embedding:

* Go `int` values are `Int`; `time.Time` and `time.Duration` are `Int` (nanoseconds); the 32-bit
  fields are `Int` as well, and every store into one is cut to 32 bits (`int32`, `% 2 ^ 32`);
* a `Worker` interface value that may be nil is an `Option Worker`, `none` being nil;
* a function whose Go body can panic (index out of range, nil dereference, division by zero) or
  loop returns an `Option`, `none` standing for "does not return normally";
* pointer receivers become explicit state passing: a method returns its result together with the
  receiver after the call.
-/

/-! ## Go slices and time -/

/-- The method `t.Before(u)` of `time.Time`. -/
def Time.Before (t u : Int) : Bool := decide (t < u)

/-- The method `t.Add(d)` of `time.Time`. -/
def Time.Add (t : Int) (d : Int) : Int := t + d

/-- The read `xs[i]` of a Go slice; `none` is the index-out-of-range panic. -/
def index? {α : Type} (xs : List α) (i : Int) : Option α :=
  if 0 ≤ i then xs[i.toNat]? else none

/-- The slice expression `xs[lo:hi]` on a slice whose capacity equals its length; `none` is the
slice-bounds panic. -/
def slice? {α : Type} (xs : List α) (lo hi : Int) : Option (List α) :=
  if 0 ≤ lo ∧ lo ≤ hi ∧ hi ≤ xs.length then some ((xs.take hi.toNat).drop lo.toNat) else none

/-- The assignment `xs[i] = v` on a Go slice; `none` is the index-out-of-range panic. -/
def assign? {α : Type} (xs : List α) (i : Int) (v : α) : Option (List α) :=
  if 0 ≤ i ∧ i < xs.length then some (xs.set i.toNat v) else none

/-- The builtin `copy(dst, src)`: the first `min (len dst) (len src)` elements of `dst` are
replaced by those of `src`. -/
def goCopy {α : Type} (dst src : List α) : List α :=
  src.take dst.length ++ dst.drop src.length

/-! ## Binary search (`pkg/algorithm/search.go`) -/

/-- The loop of `BinarySearch` on mathematical integers, without the wrap-around of Go's `int`:
it is the loop of Go, `BinarySearch.loopInt64`, whenever the range lies strictly inside the 64-bit
integers and is less than `2^63` wide (`BinarySearch.loopInt64_eq_loop`), which is so for the
ranges `[0, len - 1]` that `refresh` searches. The Go loop carries no bound of its own, so the
number of iterations still allowed is passed as fuel; `none` means that the fuel ran out or that
the predicate `f` did not return. -/
def BinarySearch.loop (f : Int → Option Bool) : Nat → Int → Int → Option Int
  | fuel, l, r =>
    if l ≤ r then
      match fuel with
      | 0 => none
      | fuel + 1 =>
        let mid := l + ((r - l) >>> (1 : Nat))
        match f mid with
        | none => none
        | some true => BinarySearch.loop f fuel l (mid - 1)
        | some false => BinarySearch.loop f fuel (mid + 1) r
    else some l

/-- The function `BinarySearch(l, r, f)` on mathematical integers, run with `r + 1 - l`
iterations of fuel; this is what the idle queues call, on ranges `[0, len - 1]`. -/
def BinarySearch (l r : Int) (f : Int → Option Bool) : Option Int :=
  BinarySearch.loop f (r + 1 - l).toNat l r

/-- The value that a Go `int` holds after an arithmetic operation whose mathematical result is
`x`: 64 bits, two's complement, wrapping around. -/
def int64 (x : Int) : Int := (x + 2 ^ 63) % 2 ^ 64 - 2 ^ 63

/-- The loop of `BinarySearch` with the arithmetic of Go's `int`: the subtraction `r - l`, the
addition `l + ...` and the updates `mid - 1` and `mid + 1` wrap around at 64 bits. The Go loop
carries no bound of its own, so the number of iterations still allowed is passed as fuel; `none`
means that the fuel ran out or that the predicate `f` did not return. -/
def BinarySearch.loopInt64 (f : Int → Option Bool) : Nat → Int → Int → Option Int
  | fuel, l, r =>
    if l ≤ r then
      match fuel with
      | 0 => none
      | fuel + 1 =>
        let mid := int64 (l + ((int64 (r - l)) >>> (1 : Nat)))
        match f mid with
        | none => none
        | some true => BinarySearch.loopInt64 f fuel l (int64 (mid - 1))
        | some false => BinarySearch.loopInt64 f fuel (int64 (mid + 1)) r
    else some l

/-! ## Workers and errors -/

/-- A worker as the idle queues see it: `id` stands for the identity of the Go pointer and
`lastUsed` is the field of `workerCommon`. -/
structure Worker where
  id : Nat
  lastUsed : Int
deriving DecidableEq, Repr

/-- The method `lastUsedTime()` of `workerCommon`. -/
def Worker.lastUsedTime (w : Worker) : Int := w.lastUsed

/-- The method `setLastUsedTime(t)` of `workerCommon`. -/
def Worker.setLastUsedTime (w : Worker) (t : Int) : Worker := { w with lastUsed := t }

/-- The call `w.lastUsedTime()` on an interface value that may be nil; `none` is the nil
dereference panic. -/
def lastUsedTime? (w : Option Worker) : Option Int := w.map Worker.lastUsedTime

/-- The sentinel errors of `errors.go`. -/
inductive PoolError where
  | ErrPoolClosed
  | ErrPoolOverload
  | ErrLackPoolFunc
  | ErrInvalidMultiPoolSize
  | ErrInvalidLoadBalancingStrategy
  | ErrInvalidPoolIndex
  | ErrQueueIsFull
  | ErrInvalidPreAllocSize
  | ErrTimeout
  | ErrInvalidPoolSize
deriving DecidableEq, Repr

/-! ## LIFO stack (`lifo_queue.go`) -/

/-- The struct `lifoQueue`. Only the first `len(items)` slots of the backing array are ever read,
so `items` is the list of the workers in the slice. -/
structure lifoQueue where
  items : List Worker
  expiry : List Worker
deriving DecidableEq, Repr

/-- The constructor `newLIFOQueue(size)`. The capacity hint `size` (which `make` wants
non-negative; the pool passes 0) leaves no trace in the embedding. -/
def newLIFOQueue (_size : Int) : lifoQueue :=
  { items := [], expiry := [] }

/-- The method `len()` of the LIFO stack. -/
def lifoQueue.len (ws : lifoQueue) : Int := ws.items.length

/-- The method `isEmpty()` of the LIFO stack. -/
def lifoQueue.isEmpty (ws : lifoQueue) : Bool := decide ((ws.items.length : Int) = 0)

/-- The method `insert(w)` of the LIFO stack: the returned error is always nil. -/
def lifoQueue.insert (ws : lifoQueue) (w : Worker) : Option PoolError × lifoQueue :=
  (none, { ws with items := ws.items ++ [w] })

/-- The method `detach()` of the LIFO stack: the returned worker is nil on an empty stack. -/
def lifoQueue.detach (ws : lifoQueue) : Option Worker × lifoQueue :=
  let l := ws.len
  if l = 0 then (none, ws)
  else (index? ws.items (l - 1), { ws with items := ws.items.take (l - 1).toNat })

/-- The method `refresh(duration)` of the LIFO stack, `now` being the value of `time.Now()`. -/
def lifoQueue.refresh (ws : lifoQueue) (now : Int) (duration : Int) :
    Option (List Worker × lifoQueue) :=
  let n := ws.len
  if n = 0 then some ([], ws)
  else
    let expiryTime := Time.Add now (-duration)
    match BinarySearch 0 (n - 1)
        (fun i => (index? ws.items i).map (fun w => Time.Before expiryTime w.lastUsedTime)) with
    | none => none
    | some index =>
      let lastExpiredIndex := index - 1
      if lastExpiredIndex < 0 then some ([], ws)
      else
        match slice? ws.items 0 (lastExpiredIndex + 1),
              slice? ws.items (lastExpiredIndex + 1) n with
        | some expired, some rest =>
          let expiry := [] ++ expired
          let items := goCopy ws.items rest
          let newLen := n - (lastExpiredIndex + 1)
          some (expiry, { items := items.take newLen.toNat, expiry := expiry })
        | _, _ => none

/-- The method `reset()` of the LIFO stack: every worker is finished and the stack is emptied. The
result lists the workers whose `finish()` was called, in call order. -/
def lifoQueue.reset (ws : lifoQueue) : List Worker × lifoQueue :=
  (ws.items, { ws with items := [] })

/-! ## FIFO ring (`fifo_queue.go`) -/

/-- The struct `fifoQueue`; a free slot of `items` holds nil. -/
structure fifoQueue where
  items : List (Option Worker)
  expiry : List (Option Worker)
  head : Int
  tail : Int
  size : Int
  isFull : Bool
deriving DecidableEq, Repr

/-- The constructor `newFIFOQueue(size)`; `none` is the nil pointer returned when `size ≤ 0`. -/
def newFIFOQueue (size : Int) : Option fifoQueue :=
  if size ≤ 0 then none
  else some
    { items := List.replicate size.toNat none, expiry := [], head := 0, tail := 0, size := size,
      isFull := false }

/-- The method `isEmpty()` of the FIFO ring. -/
def fifoQueue.isEmpty (wq : fifoQueue) : Bool :=
  decide (wq.head = wq.tail) && !wq.isFull

/-- The method `len()` of the FIFO ring. -/
def fifoQueue.len (wq : fifoQueue) : Int :=
  if wq.size = 0 ∨ wq.isEmpty = true then 0
  else if wq.head = wq.tail ∧ wq.isFull = true then wq.size
  else if wq.tail > wq.head then wq.tail - wq.head
  else wq.size - wq.head + wq.tail

/-- The method `insert(w)` of the FIFO ring: the result is the returned error (nil when the worker
was stored) and the ring after the call. -/
def fifoQueue.insert (wq : fifoQueue) (w : Worker) : Option (Option PoolError × fifoQueue) :=
  if wq.size = 0 then some (none, wq)
  else if wq.isFull then some (some PoolError.ErrQueueIsFull, wq)
  else
    match assign? wq.items wq.tail (some w) with
    | none => none
    | some items =>
      let tail := Int.tmod (wq.tail + 1) wq.size
      some (none, { wq with items := items, tail := tail,
                            isFull := if tail = wq.head then true else wq.isFull })

/-- The method `detach()` of the FIFO ring: the result is the returned worker (nil on an empty
ring) and the ring after the call. -/
def fifoQueue.detach (wq : fifoQueue) : Option (Option Worker × fifoQueue) :=
  if wq.isEmpty then some (none, wq)
  else
    match index? wq.items wq.head with
    | none => none
    | some w =>
      match assign? wq.items wq.head none with
      | none => none
      | some items =>
        if wq.size = 0 then none
        else some (w, { wq with items := items, head := Int.tmod (wq.head + 1) wq.size,
                                isFull := false })

/-- The method `indexExpired(expiryTime)` of the FIFO ring. -/
def fifoQueue.indexExpired (wq : fifoQueue) (expiryTime : Int) : Option Int :=
  if wq.isEmpty then some (-1)
  else
    match (index? wq.items wq.head).bind lastUsedTime? with
    | none => none
    | some t =>
      if Time.Before expiryTime t then some (-1)
      else
        let nlen : Int := wq.items.length
        match BinarySearch 0 (wq.len - 1) (fun i =>
            let pi := Int.tmod (wq.head + i) nlen
            ((index? wq.items pi).bind lastUsedTime?).map (fun t => Time.Before expiryTime t)) with
        | none => none
        | some firstValid =>
          if firstValid = 0 then some (-1)
          else some (Int.tmod (wq.head + (firstValid - 1)) nlen)

/-- The loop `for i := lo; i < hi; i++ { items[i] = nil }`, with the number of iterations left as
its first argument. -/
def nilLoop : Nat → Int → List (Option Worker) → Option (List (Option Worker))
  | 0, _, items => some items
  | n + 1, i, items => (assign? items i none).bind (nilLoop n (i + 1))

/-- The loop `for i := lo; i < hi; i++ { items[i] = nil }`. -/
def nilRange (items : List (Option Worker)) (lo hi : Int) : Option (List (Option Worker)) :=
  nilLoop (hi - lo).toNat lo items

/-- The body of the `if wq.head <= index { ... } else { ... }` statement of `refresh`: the expired
segment, contiguous or wrapped around the end of the buffer, is appended to the emptied `expiry`
buffer and its slots are set to nil. The result is the new `expiry` and the new `items`. -/
def fifoQueue.extractExpired (wq : fifoQueue) (index : Int) :
    Option (List (Option Worker) × List (Option Worker)) :=
  if wq.head ≤ index then
    match slice? wq.items wq.head (index + 1), nilRange wq.items wq.head (index + 1) with
    | some seg, some items => some ([] ++ seg, items)
    | _, _ => none
  else
    match slice? wq.items wq.head wq.items.length, slice? wq.items 0 (index + 1) with
    | some seg1, some seg2 =>
      match (nilRange wq.items 0 (index + 1)).bind
          (fun items => nilRange items wq.head wq.size) with
      | some items => some (([] ++ seg1) ++ seg2, items)
      | none => none
    | _, _ => none

/-- The method `refresh(duration)` of the FIFO ring, `now` being the value of `time.Now()`: the
result is the returned slice (nil is the empty list) and the ring after the call. -/
def fifoQueue.refresh (wq : fifoQueue) (now : Int) (duration : Int) :
    Option (List (Option Worker) × fifoQueue) :=
  let expiryTime := Time.Add now (-duration)
  match wq.indexExpired expiryTime with
  | none => none
  | some index =>
    if index = -1 then some ([], wq)
    else
      match wq.extractExpired index with
      | none => none
      | some (expiry, items) =>
        if wq.size = 0 then none
        else
          let head := Int.tmod (index + 1) wq.size
          some (expiry, { wq with items := items, expiry := expiry, head := head,
                                  isFull := if expiry.length > 0 then false else wq.isFull })

/-- The workers finished by `reset()`: the ring is drained by `detach()` until it returns nil, with
the number of iterations left as fuel. -/
def fifoQueue.drain : Nat → fifoQueue → Option (List Worker × fifoQueue)
  | 0, _ => none
  | fuel + 1, wq =>
    match wq.detach with
    | none => none
    | some (none, wq1) => some ([], wq1)
    | some (some w, wq1) =>
      match fifoQueue.drain fuel wq1 with
      | none => none
      | some (ws, wq2) => some (w :: ws, wq2)

/-- The method `reset()` of the FIFO ring: the result lists the workers whose `finish()` was
called, in call order. -/
def fifoQueue.reset (wq : fifoQueue) : Option (List Worker × fifoQueue) :=
  if wq.isEmpty then some ([], wq)
  else
    match fifoQueue.drain (wq.len.toNat + 1) wq with
    | none => none
    | some (ws, wq1) => some (ws, { wq1 with head := 0, tail := 0 })

/-- The workers of a FIFO ring in logical order: logical index `i` is the physical slot
`(head + i) mod size`. -/
def fifoQueue.workers (wq : fifoQueue) : List Worker :=
  (List.range wq.len.toNat).filterMap
    (fun (i : Nat) => (index? wq.items ((wq.head + (i : Int)) % wq.size)).join)

/-! ## Options (`options.go`) -/

/-- The struct `Options`. Of `PanicHandler` only whether a handler is configured is kept. -/
structure Options where
  ExpiryDuration : Int
  PreAlloc : Bool
  MaxBlockingTasks : Int
  Nonblocking : Bool
  PanicHandler : Bool
  DisablePurge : Bool
deriving DecidableEq, Repr

/-- The type `Option` of `options.go`, a function that edits the options. -/
abbrev PoolOption := Options → Options

/-- The function `loadOptions`: the options are applied, in order, to the zero value. -/
def loadOptions (options : List PoolOption) : Options :=
  options.foldl (fun opts o => o opts)
    { ExpiryDuration := 0, PreAlloc := false, MaxBlockingTasks := 0, Nonblocking := false,
      PanicHandler := false, DisablePurge := false }

/-- The option `WithExpiryDuration`. -/
def WithExpiryDuration (expiryDuration : Int) : PoolOption :=
  fun opts => { opts with ExpiryDuration := expiryDuration }

/-- The option `WithPreAlloc`. -/
def WithPreAlloc (preAlloc : Bool) : PoolOption :=
  fun opts => { opts with PreAlloc := preAlloc }

/-- The option `WithMaxBlockingTasks`. -/
def WithMaxBlockingTasks (maxBlockingTasks : Int) : PoolOption :=
  fun opts => { opts with MaxBlockingTasks := maxBlockingTasks }

/-- The option `WithNonblocking`. -/
def WithNonblocking (nonblocking : Bool) : PoolOption :=
  fun opts => { opts with Nonblocking := nonblocking }

/-- The option `WithPanicHandler`, given whether the handler is non-nil. -/
def WithPanicHandler (panicHandler : Bool) : PoolOption :=
  fun opts => { opts with PanicHandler := panicHandler }

/-- The option `WithDisablePurge`. -/
def WithDisablePurge (disable : Bool) : PoolOption :=
  fun opts => { opts with DisablePurge := disable }

/-! ## The queue interface (`queue.go`) -/

/-- The type `QueueType`. -/
inductive QueueType where
  | QueueTypeFIFO
  | QueueTypeLIFO
deriving DecidableEq, Repr

/-- A value of the interface `Queue`: a `*fifoQueue`, which is nil when `newFIFOQueue` rejected
the size, or a `*lifoQueue`. -/
inductive Queue where
  | fifo (wq : Option fifoQueue)
  | lifo (ws : lifoQueue)
deriving DecidableEq, Repr

/-- The function `newQueue`. -/
def newQueue (qType : QueueType) (size : Int) : Queue :=
  match qType with
  | QueueType.QueueTypeLIFO => Queue.lifo (newLIFOQueue size)
  | QueueType.QueueTypeFIFO => Queue.fifo (newFIFOQueue size)

/-- The interface method `insert`; `none` is a panic (a nil receiver included). -/
def Queue.insert (q : Queue) (w : Worker) : Option (Option PoolError × Queue) :=
  match q with
  | Queue.fifo none => none
  | Queue.fifo (some wq) => (wq.insert w).map (fun r => (r.1, Queue.fifo (some r.2)))
  | Queue.lifo ws => some ((ws.insert w).1, Queue.lifo (ws.insert w).2)

/-- The interface method `detach`; `none` is a panic (a nil receiver included). -/
def Queue.detach (q : Queue) : Option (Option Worker × Queue) :=
  match q with
  | Queue.fifo none => none
  | Queue.fifo (some wq) => (wq.detach).map (fun r => (r.1, Queue.fifo (some r.2)))
  | Queue.lifo ws => some (ws.detach.1, Queue.lifo ws.detach.2)

/-- The workers of a queue in logical order, oldest first. -/
def Queue.workers (q : Queue) : List Worker :=
  match q with
  | Queue.fifo none => []
  | Queue.fifo (some wq) => wq.workers
  | Queue.lifo ws => ws.items

/-! ## The pool (`pool_common.go`, `pool.go`) -/

/-- The pool state `OPENED`. -/
def OPENED : Int := 0

/-- The pool state `CLOSED`. -/
def CLOSED : Int := 1

/-- The flag value `NOT_DONE`. -/
def NOT_DONE : Int := 0

/-- The flag value `DONE`. -/
def DONE : Int := 1

/-- The constant `DefaultCleanIntervalTime`, one second. -/
def DefaultCleanIntervalTime : Int := 1000000000

/-- The constant `nowTimeUpdateInterval`, 500 milliseconds. -/
def nowTimeUpdateInterval : Int := 500000000

/-- The conversion `int32(x)` of a Go `int`. -/
def int32 (x : Int) : Int := (x + 2 ^ 31) % 2 ^ 32 - 2 ^ 31

/-- The struct `poolCommon`. The lock, the condition variable and the worker cache carry no data
of their own; `stopPurge` and `stopTicktock` say whether the cancel function is non-nil, `allDone`
whether the channel is closed and `once` whether the `sync.Once` has fired. -/
structure poolCommon where
  capacity : Int
  running : Int
  state : Int
  waiting : Int
  purgeDone : Int
  stopPurge : Bool
  ticktockDone : Int
  stopTicktock : Bool
  now : Int
  workers : Queue
  allDone : Bool
  options : Options
  once : Bool
deriving DecidableEq, Repr

/-- The method `goPurge`: unless purging is disabled, the purge goroutine is started. -/
def poolCommon.goPurge (p : poolCommon) : poolCommon :=
  if p.options.DisablePurge then p else { p with stopPurge := true }

/-- The method `goTicktock`, `clock` being the value of `time.Now()`. -/
def poolCommon.goTicktock (p : poolCommon) (clock : Int) : poolCommon :=
  { p with now := clock, stopTicktock := true }

/-- The function `newPoolCommon(size, options...)`, `clock` being the value of `time.Now()`. -/
def newPoolCommon (size : Int) (options : List PoolOption) (clock : Int) :
    Except PoolError poolCommon :=
  let opts := loadOptions options
  if size ≤ 0 ∧ size ≠ -1 then Except.error PoolError.ErrInvalidPoolSize
  else
    let opts := if opts.ExpiryDuration ≤ 0 then
        { opts with ExpiryDuration := DefaultCleanIntervalTime } else opts
    let p (workers : Queue) : poolCommon :=
      ({ capacity := int32 size, running := 0, state := OPENED, waiting := 0,
         purgeDone := NOT_DONE, stopPurge := false, ticktockDone := NOT_DONE,
         stopTicktock := false, now := 0, workers := workers, allDone := false,
         options := opts, once := false } : poolCommon).goPurge.goTicktock clock
    if opts.PreAlloc then
      if size = -1 then Except.error PoolError.ErrInvalidPreAllocSize
      else Except.ok (p (newQueue QueueType.QueueTypeFIFO size))
    else Except.ok (p (newQueue QueueType.QueueTypeLIFO 0))

/-- The struct `Pool`, which embeds a `*poolCommon`. -/
structure Pool where
  poolCommon : poolCommon
deriving DecidableEq, Repr

/-- The function `NewPool(size, options...)`, `clock` being the value of `time.Now()`. -/
def NewPool (size : Int) (options : List PoolOption) (clock : Int) : Except PoolError Pool :=
  match newPoolCommon size options clock with
  | Except.error _ => Except.error PoolError.ErrInvalidPoolSize
  | Except.ok pc => Except.ok { poolCommon := pc }

/-- The method `Running()`. -/
def poolCommon.Running (p : poolCommon) : Int := p.running

/-- The method `Cap()`. -/
def poolCommon.Cap (p : poolCommon) : Int := p.capacity

/-- The method `Waiting()`. -/
def poolCommon.Waiting (p : poolCommon) : Int := p.waiting

/-- The method `IsClosed()`. -/
def poolCommon.IsClosed (p : poolCommon) : Bool := decide (p.state = CLOSED)

/-- The method `incRunning()`, an atomic 32-bit addition. -/
def poolCommon.incRunning (p : poolCommon) : poolCommon :=
  { p with running := int32 (p.running + 1) }

/-- The method `addWaiting(delta)`, an atomic 32-bit addition. -/
def poolCommon.addWaiting (p : poolCommon) (delta : Int) : poolCommon :=
  { p with waiting := int32 (p.waiting + int32 delta) }

/-- The method `nowTime()`: the cached clock. -/
def poolCommon.nowTime (p : poolCommon) : Int := p.now

/-- One round of the loop of `ticktock` after the ticker fired, `clock` being the value of
`time.Now()`: on a closed pool the goroutine leaves the loop and marks itself done, otherwise the
cached clock is refreshed. -/
def poolCommon.ticktock (p : poolCommon) (clock : Int) : poolCommon :=
  if p.IsClosed then { p with ticktockDone := DONE } else { p with now := clock }

/-- What a call of `retrieveWorker` comes to before it returns or blocks. -/
inductive Retrieved where
  | detached (w : Worker)
  | spawned (w : Worker)
  | failed (err : PoolError)
  | parked
deriving DecidableEq, Repr

/-- The method `retrieveWorker()` from its entry up to its first return or to the wait on the
condition variable; `cached` is the worker that `workerCache.Get()` hands out, and starting it
(`w.run()`) increments `running`. -/
def poolCommon.retrieveWorker (p : poolCommon) (cached : Worker) :
    Option (Retrieved × poolCommon) :=
  match p.workers.detach with
  | none => none
  | some (some w, q) => some (Retrieved.detached w, { p with workers := q })
  | some (none, q) =>
    let p := { p with workers := q }
    let capacity := p.Cap
    if capacity = -1 ∨ capacity > p.Running then
      some (Retrieved.spawned cached, p.incRunning)
    else if p.options.Nonblocking = true ∨
        (p.options.MaxBlockingTasks ≠ 0 ∧ p.Waiting ≥ p.options.MaxBlockingTasks) then
      some (Retrieved.failed PoolError.ErrPoolOverload, p)
    else some (Retrieved.parked, p.addWaiting 1)

/-- The method `Submit(task)` of `Pool`, up to its return or to the wait inside
`retrieveWorker`. The task itself is handed to the worker that was retrieved. -/
def Pool.Submit (p : Pool) (cached : Worker) : Option (Retrieved × Pool) :=
  if p.poolCommon.IsClosed then some (Retrieved.failed PoolError.ErrPoolClosed, p)
  else (p.poolCommon.retrieveWorker cached).map (fun r => (r.1, { poolCommon := r.2 }))

/-- The part of `revertWorker(worker)` that runs before the lock is taken: the capacity and
closed checks and the stamping of `lastUsedTime` with the cached clock. The result is nil when
`revertWorker` returns false at once. -/
def poolCommon.revertWorkerStamp (p : poolCommon) (worker : Worker) : Option Worker :=
  if (p.Cap > 0 ∧ p.Running > p.Cap) ∨ p.IsClosed = true then none
  else some (worker.setLastUsedTime p.nowTime)

/-- The part of `revertWorker(worker)` that runs under the pool lock: the second closed check and
the insertion into the idle queue. The result is the returned boolean and the pool afterwards. -/
def poolCommon.revertWorkerLocked (p : poolCommon) (worker : Worker) :
    Option (Bool × poolCommon) :=
  if p.IsClosed then some (false, p)
  else
    match p.workers.insert worker with
    | none => none
    | some (some _, q) => some (false, { p with workers := q })
    | some (none, q) => some (true, { p with workers := q })

/-- The method `revertWorker(worker)` when nothing else runs between its two parts. -/
def poolCommon.revertWorker (p : poolCommon) (worker : Worker) : Option (Bool × poolCommon) :=
  match p.revertWorkerStamp worker with
  | none => some (false, p)
  | some w => p.revertWorkerLocked w

/-! ## Notions used by the statements -/

/-- A worker is expired at time `now` for the idle span `duration` when the expiry time
`now - duration` is not before the moment it was last used: the negation of the predicate that
`refresh` hands to `BinarySearch`. -/
def expired (now : Int) (duration : Int) (w : Worker) : Bool :=
  !(Time.Before (Time.Add now (-duration)) w.lastUsedTime)

/-- The workers of a list are in ascending order of `lastUsedTime`. -/
def Ordered (ws : List Worker) : Prop :=
  List.Pairwise (fun a b => a.lastUsedTime ≤ b.lastUsedTime) ws

/-- The ring `wq` is well formed and holds exactly the workers `ws`, oldest first: logical index
`i` is read from the physical slot `(head + i) mod size`. -/
structure fifoQueue.Holds (wq : fifoQueue) (ws : List Worker) : Prop where
  size_pos : 0 < wq.size
  length_items : (wq.items.length : Int) = wq.size
  head_nonneg : 0 ≤ wq.head
  head_lt : wq.head < wq.size
  length_le : (ws.length : Int) ≤ wq.size
  tail_eq : wq.tail = (wq.head + ws.length) % wq.size
  isFull_iff : wq.isFull = true ↔ (ws.length : Int) = wq.size
  slot : ∀ i : Nat, i < ws.length →
    wq.items[((wq.head + (i : Int)) % wq.size).toNat]? = some ws[i]?

/-- The states of a FIFO ring that are reachable from `newFIFOQueue(size)` by `insert`, `detach`
and `refresh`. -/
inductive fifoQueue.Reachable : fifoQueue → Prop
  | new (size : Int) (wq : fifoQueue) : newFIFOQueue size = some wq → fifoQueue.Reachable wq
  | insert (wq wq' : fifoQueue) (w : Worker) (r : Option PoolError) :
      fifoQueue.Reachable wq → wq.insert w = some (r, wq') → fifoQueue.Reachable wq'
  | detach (wq wq' : fifoQueue) (r : Option Worker) :
      fifoQueue.Reachable wq → wq.detach = some (r, wq') → fifoQueue.Reachable wq'
  | refresh (wq wq' : fifoQueue) (now d : Int) (r : List (Option Worker)) :
      fifoQueue.Reachable wq → wq.refresh now d = some (r, wq') → fifoQueue.Reachable wq'

/-- The number of workers of a list that are expired at time `now` for the idle span `d`: those
with `lastUsedTime ≤ now - d`. -/
def expiredCount (now d : Int) (ws : List Worker) : Nat :=
  (ws.filter (fun w => decide (w.lastUsedTime ≤ now - d))).length

/-- A FIFO ring is well formed when it holds, slot by slot, the workers read off it in logical
order. -/
def fifoQueue.WellFormed (wq : fifoQueue) : Prop := wq.Holds wq.workers

/-- A queue value is well formed when it is a LIFO stack or a non-nil, well-formed FIFO ring. -/
def Queue.WellFormed (q : Queue) : Prop :=
  match q with
  | Queue.fifo none => False
  | Queue.fifo (some wq) => wq.WellFormed
  | Queue.lifo _ => True

/-- A schedule of two workers that hand themselves back around a tick of the cached clock, on a
fresh pool of capacity 2 (LIFO idle queue, clock at 0). Two tasks are submitted, which starts
the workers `a` and `b`. Worker `a` finishes first and runs `revertWorker` up to the stamping of
its `lastUsedTime`, before the lock. The clock goroutine then stores time 500. Worker `b`
finishes and runs the whole of `revertWorker`. Last, `a` takes the lock and runs the rest of
`revertWorker`. The result is what that last call returns and the pool it leaves. -/
def staleStampRun : Option (Bool × poolCommon) :=
  match NewPool 2 [] 0 with
  | Except.error _ => none
  | Except.ok p0 =>
    match p0.Submit ⟨1, 0⟩ with
    | some (Retrieved.spawned a, p1) =>
      match p1.Submit ⟨2, 0⟩ with
      | some (Retrieved.spawned b, p2) =>
        match p2.poolCommon.revertWorkerStamp a with
        | some a' =>
          match (p2.poolCommon.ticktock 500).revertWorker b with
          | some (true, p3) => p3.revertWorkerLocked a'
          | _ => none
        | none => none
      | _ => none
    | _ => none

/-! ## The rest of the pool: workers, tuning, shutdown (`worker.go`, `pool_common.go`) -/

/-- The interface method `refresh`; `none` is a panic (a nil receiver included). The LIFO stack
hands out workers, the FIFO ring the slots it copied. -/
def Queue.refresh (q : Queue) (now : Int) (duration : Int) :
    Option (List (Option Worker) × Queue) :=
  match q with
  | Queue.fifo none => none
  | Queue.fifo (some wq) => (wq.refresh now duration).map (fun r => (r.1, Queue.fifo (some r.2)))
  | Queue.lifo ws => (ws.refresh now duration).map (fun r => (r.1.map some, Queue.lifo r.2))

/-- The interface method `reset`; `none` is a panic (a nil receiver included). The result lists
the workers whose `finish()` was called. -/
def Queue.reset (q : Queue) : Option (List Worker × Queue) :=
  match q with
  | Queue.fifo none => none
  | Queue.fifo (some wq) => (wq.reset).map (fun r => (r.1, Queue.fifo (some r.2)))
  | Queue.lifo ws => some (ws.reset.1, Queue.lifo ws.reset.2)

/-- The loop `for i := range expiredWorkers { expiredWorkers[i].finish() }`: the workers that were
told to exit; `none` is the nil dereference panic. -/
def finishAll : List (Option Worker) → Option (List Worker)
  | [] => some []
  | none :: _ => none
  | some w :: rest => (finishAll rest).map (fun ws => w :: ws)

/-- The method `decRunning()`, an atomic 32-bit addition. -/
def poolCommon.decRunning (p : poolCommon) : poolCommon :=
  { p with running := int32 (p.running - 1) }

/-- The call `p.once.Do(func() { close(p.allDone) })`. -/
def poolCommon.onceCloseAllDone (p : poolCommon) : poolCommon :=
  if p.once then p else { p with once := true, allDone := true }

/-- The method `Tune(size)`. -/
def poolCommon.Tune (p : poolCommon) (size : Int) : poolCommon :=
  let capacity := p.Cap
  if capacity = -1 ∨ size ≤ 0 ∨ size = capacity ∨ p.options.PreAlloc = true then p
  else { p with capacity := int32 size }

/-- The method `Release()`: the result lists the idle workers that `reset` told to exit. -/
def poolCommon.Release (p : poolCommon) : Option (List Worker × poolCommon) :=
  if p.state = OPENED then
    let p := { p with state := CLOSED, stopPurge := false, stopTicktock := false }
    match p.workers.reset with
    | none => none
    | some (finished, q) => some (finished, { p with workers := q })
  else some ([], p)

/-- The method `ReleaseTimeout(timeout)` up to its wait loop: the result is the error returned at
once (`ErrPoolClosed`), or nil when the pool was released and the call went on to wait for the
workers, together with the workers that `reset` told to exit. -/
def poolCommon.ReleaseTimeout (p : poolCommon) :
    Option (Option PoolError × List Worker × poolCommon) :=
  if p.IsClosed = true ∨ (p.options.DisablePurge = false ∧ p.stopPurge = false) ∨
      p.stopTicktock = false then
    some (some PoolError.ErrPoolClosed, [], p)
  else
    match p.Release with
    | none => none
    | some (finished, p) =>
      some (none, finished, if p.Running = 0 then p.onceCloseAllDone else p)

/-- The method `Reboot()`, `clock` being the value of `time.Now()`. -/
def poolCommon.Reboot (p : poolCommon) (clock : Int) : poolCommon :=
  if p.state = CLOSED then
    let p := ({ p with state := OPENED, purgeDone := NOT_DONE }).goPurge
    let p := ({ p with ticktockDone := NOT_DONE }).goTicktock clock
    { p with allDone := false, once := false }
  else p

/-- One round of the loop of `purgeStaleWorkers` after the ticker fired, `now` being the value of
`time.Now()` inside `refresh`: on a closed pool the goroutine leaves the loop and marks itself
done; otherwise the expired workers are taken out of the idle queue under the lock and told to
exit. The result lists these workers. -/
def poolCommon.purgeStaleWorkers (p : poolCommon) (now : Int) :
    Option (List Worker × poolCommon) :=
  if p.IsClosed then some ([], { p with purgeDone := DONE })
  else
    match p.workers.refresh now p.options.ExpiryDuration with
    | none => none
    | some (expiredWorkers, q) =>
      (finishAll expiredWorkers).map (fun ws => (ws, { p with workers := q }))

/-- The method `retrieveWorker()` from the moment a parked caller is woken up to its next return
or wait. -/
def poolCommon.retrieveWorkerWake (p : poolCommon) (cached : Worker) :
    Option (Retrieved × poolCommon) :=
  let p := p.addWaiting (-1)
  if p.IsClosed then some (Retrieved.failed PoolError.ErrPoolClosed, p)
  else p.retrieveWorker cached

/-- The worker that `retrieveWorker` returned, nil when it returned an error or is parked. -/
def Retrieved.worker (r : Retrieved) : Option Worker :=
  match r with
  | Retrieved.detached w => some w
  | Retrieved.spawned w => some w
  | Retrieved.failed _ => none
  | Retrieved.parked => none

/-- The error that `retrieveWorker` returned, nil when it returned a worker or is parked. -/
def Retrieved.err (r : Retrieved) : Option PoolError :=
  match r with
  | Retrieved.failed e => some e
  | _ => none

/-- What a call of `Submit` or `Invoke` has done when it returns or parks: `err` is the returned
error, `sentTo` lists the workers whose channel received the task (`w.inputFunc(task)` runs when
the retrieved worker is not nil), `parked` says that the call is blocked and has not returned. -/
structure Submitted where
  err : Option PoolError
  sentTo : List Worker
  parked : Bool
deriving DecidableEq, Repr

/-- The tail of `Submit` and `Invoke` after `retrieveWorker`: the task goes to the worker when
there is one, and the error is returned. -/
def Retrieved.submitted (r : Retrieved) : Submitted :=
  { err := r.err,
    sentTo := match r.worker with
      | some w => [w]
      | none => [],
    parked := decide (r = Retrieved.parked) }

/-- The method `Submit(task)` of `Pool` from the moment its parked caller is woken up. -/
def Pool.SubmitWake (p : Pool) (cached : Worker) : Option (Retrieved × Pool) :=
  (p.poolCommon.retrieveWorkerWake cached).map (fun r => (r.1, { poolCommon := r.2 }))

/-- The struct `GenericPool`; its function `fn` is not nil. -/
structure GenericPool where
  poolCommon : poolCommon
deriving DecidableEq, Repr

/-- The function `NewGenericPool(size, pf, options...)`; `pf` says whether the function is not
nil, `clock` is the value of `time.Now()`. -/
def NewGenericPool (size : Int) (pf : Bool) (options : List PoolOption) (clock : Int) :
    Except PoolError GenericPool :=
  if pf = false then Except.error PoolError.ErrLackPoolFunc
  else if size ≤ 0 then Except.error PoolError.ErrInvalidPoolSize
  else
    match newPoolCommon size options clock with
    | Except.error _ => Except.error PoolError.ErrInvalidPoolSize
    | Except.ok pc => Except.ok { poolCommon := pc }

/-- The method `Invoke(arg)` of `GenericPool`, up to its return or to the wait inside
`retrieveWorker`. -/
def GenericPool.Invoke (p : GenericPool) (cached : Worker) : Option (Retrieved × GenericPool) :=
  if p.poolCommon.IsClosed then some (Retrieved.failed PoolError.ErrPoolClosed, p)
  else (p.poolCommon.retrieveWorker cached).map (fun r => (r.1, { poolCommon := r.2 }))

/-- The method `Invoke(arg)` of `GenericPool` from the moment its parked caller is woken up. -/
def GenericPool.InvokeWake (p : GenericPool) (cached : Worker) :
    Option (Retrieved × GenericPool) :=
  (p.poolCommon.retrieveWorkerWake cached).map (fun r => (r.1, { poolCommon := r.2 }))

/-- How the call of a task ends inside a worker: it returns, or it panics with a value. -/
inductive TaskEnd where
  | returned
  | panicked (v : Nat)
deriving DecidableEq, Repr

/-- The deferred function of `worker.run` and `genericWorker.run`, which runs when the goroutine
of a worker ends; `recovered` is what `recover()` returns, nil when the goroutine ends without a
panic. The result is the pool afterwards and the values the panic handler was called with. (The
worker struct goes back to the cache and the condition variable is signalled.) -/
def poolCommon.workerExit (p : poolCommon) (recovered : Option Nat) : poolCommon × List Nat :=
  let p := p.decRunning
  let p := if p.running = 0 ∧ p.IsClosed = true then p.onceCloseAllDone else p
  (p, match recovered with
      | some v => if p.options.PanicHandler then [v] else []
      | none => [])

/-- One round of the loop of a worker that received a task (not nil) whose call ends as `e`. A
task that returns is followed by `revertWorker`; when that fails, and when the task panics, the
goroutine ends. The result says whether the worker is still alive, and gives the pool and the
values the panic handler was called with. -/
def poolCommon.workerTask (p : poolCommon) (w : Worker) (e : TaskEnd) :
    Option (Bool × poolCommon × List Nat) :=
  match e with
  | TaskEnd.panicked v => some (false, p.workerExit (some v))
  | TaskEnd.returned =>
    match p.revertWorker w with
    | none => none
    | some (true, p) => some (true, p, [])
    | some (false, p) => some (false, p.workerExit none)

/-- A worker that receives the exit signal (a nil task, or a value on the exit channel of a
generic worker) leaves its loop. -/
def poolCommon.workerStop (p : poolCommon) : poolCommon × List Nat :=
  p.workerExit none

/-! ## The pool as a transition system -/

/-- The operations on a pool, each taken as one step. -/
inductive PoolOp where
  | submit (cached : Worker)
  | wake (cached : Worker)
  | task (w : Worker) (e : TaskEnd)
  | stop (w : Worker)
  | purge (now : Int)
  | tick (clock : Int)
  | tune (size : Int)
  | release
  | releaseTimeout
  | reboot (clock : Int)
deriving DecidableEq, Repr

/-- A pool together with the workers that are started, are not in the idle queue and have not
ended yet: those that hold a task and those that were told to exit. -/
structure PoolState where
  pool : poolCommon
  busy : List Worker
deriving DecidableEq, Repr

/-- A retrieved worker leaves the cache or the idle queue and holds a task from then on. A new
worker is only started while the 32-bit counter `running` has room for it. -/
def PoolState.afterRetrieve (s : PoolState) (r : Retrieved × poolCommon) : Option PoolState :=
  match r.1 with
  | Retrieved.spawned w =>
    if s.pool.running + 1 < 2 ^ 31 then some { pool := r.2, busy := w :: s.busy } else none
  | Retrieved.detached w => some { pool := r.2, busy := w :: s.busy }
  | Retrieved.failed _ => some { pool := r.2, busy := s.busy }
  | Retrieved.parked => some { pool := r.2, busy := s.busy }

/-- One step of the pool; `none` when the operation is not possible in the state or panics.
A caller is only woken up when one is parked, only a worker that is started and not idle can end
a task or receive the exit signal, and the purge goroutine only exists when purging is not
disabled. -/
def PoolState.step (s : PoolState) (op : PoolOp) : Option PoolState :=
  match op with
  | PoolOp.submit cached =>
    ((Pool.mk s.pool).Submit cached).bind (fun r => s.afterRetrieve (r.1, r.2.poolCommon))
  | PoolOp.wake cached =>
    if 0 < s.pool.waiting then
      ((Pool.mk s.pool).SubmitWake cached).bind (fun r => s.afterRetrieve (r.1, r.2.poolCommon))
    else none
  | PoolOp.task w e =>
    if w ∈ s.busy then
      (s.pool.workerTask w e).map (fun r => { pool := r.2.1, busy := s.busy.erase w })
    else none
  | PoolOp.stop w =>
    if w ∈ s.busy then some { pool := s.pool.workerStop.1, busy := s.busy.erase w }
    else none
  | PoolOp.purge now =>
    if s.pool.options.DisablePurge then none
    else (s.pool.purgeStaleWorkers now).map (fun r => { pool := r.2, busy := r.1 ++ s.busy })
  | PoolOp.tick clock => some { s with pool := s.pool.ticktock clock }
  | PoolOp.tune size => some { s with pool := s.pool.Tune size }
  | PoolOp.release => (s.pool.Release).map (fun r => { pool := r.2, busy := r.1 ++ s.busy })
  | PoolOp.releaseTimeout =>
    (s.pool.ReleaseTimeout).map (fun r => { pool := r.2.2, busy := r.2.1 ++ s.busy })
  | PoolOp.reboot clock => some { s with pool := s.pool.Reboot clock }

/-- The run of a list of operations, one after the other. -/
def PoolState.run (s : PoolState) : List PoolOp → Option PoolState
  | [] => some s
  | op :: ops => (s.step op).bind (fun s' => s'.run ops)

/-- The state `s'` is reached from `s` by steps each of which the guard `g` allows. -/
inductive PoolState.Steps (g : PoolState → PoolOp → Prop) : PoolState → PoolState → Prop
  | refl (s : PoolState) : PoolState.Steps g s s
  | tail (s s1 s2 : PoolState) (op : PoolOp) :
      PoolState.Steps g s s1 → g s1 op → s1.step op = some s2 → PoolState.Steps g s s2

/-- The state of a pool that `NewPool` has just built: no worker is started. -/
def PoolState.init (size : Int) (options : List PoolOption) (clock : Int) : Option PoolState :=
  match NewPool size options clock with
  | Except.error _ => none
  | Except.ok p => some { pool := p.poolCommon, busy := [] }

/-- The states that a pool built by `NewPool` reaches by steps that the guard `g` allows. -/
def PoolState.ReachableBy (g : PoolState → PoolOp → Prop) (s : PoolState) : Prop :=
  ∃ size options clock s0, PoolState.init size options clock = some s0 ∧ PoolState.Steps g s0 s

/-- The states that a pool built by `NewPool` reaches by any steps. -/
def PoolState.Reachable (s : PoolState) : Prop :=
  PoolState.ReachableBy (fun _ _ => True) s

/-- The guard that allows every operation but `Reboot`. -/
def noReboot (_ : PoolState) (op : PoolOp) : Prop :=
  ∀ clock, op ≠ PoolOp.reboot clock

/-- The guard that allows every operation but a `Tune` that sets the capacity below
`running`. -/
def noShrinkBelowRunning (s : PoolState) (op : PoolOp) : Prop :=
  ∀ size, op = PoolOp.tune size →
    (s.pool.Tune size).capacity = s.pool.capacity ∨ s.pool.running ≤ (s.pool.Tune size).capacity

/-- The bookkeeping of a pool state adds up: the idle queue is well formed, the state is `OPENED`
or `CLOSED`, and `running` counts exactly the workers that are started and have not ended, those
in the idle queue and the others; the 32-bit counter has not wrapped around. -/
structure PoolState.Sound (s : PoolState) : Prop where
  queue_wf : s.pool.workers.WellFormed
  state_ok : s.pool.state = OPENED ∨ s.pool.state = CLOSED
  running_eq : s.pool.running = (s.pool.workers.workers.length : Int) + (s.busy.length : Int)
  running_lt : s.pool.running < 2 ^ 31


/-- The interface method `len`; `none` is a panic (a nil receiver). -/
def Queue.len (q : Queue) : Option Int :=
  match q with
  | Queue.fifo none => none
  | Queue.fifo (some wq) => some wq.len
  | Queue.lifo ws => some ws.len

/-- The part of `retrieveWorker()` that runs under the pool lock, up to the `Unlock`. When a new
worker is to be started the lock is released before `w.run()` is called, so the result is
`spawned` and `running` is still what it was. -/
def poolCommon.retrieveWorkerLocked (p : poolCommon) (cached : Worker) :
    Option (Retrieved × poolCommon) :=
  match p.workers.detach with
  | none => none
  | some (some w, q) => some (Retrieved.detached w, { p with workers := q })
  | some (none, q) =>
    let p := { p with workers := q }
    let capacity := p.Cap
    if capacity = -1 ∨ capacity > p.Running then some (Retrieved.spawned cached, p)
    else if p.options.Nonblocking = true ∨
        (p.options.MaxBlockingTasks ≠ 0 ∧ p.Waiting ≥ p.options.MaxBlockingTasks) then
      some (Retrieved.failed PoolError.ErrPoolOverload, p)
    else some (Retrieved.parked, p.addWaiting 1)

/-- The part of `retrieveWorker()` that follows the `Unlock`: a worker that is to be started is
started (`w.run()`, which calls `incRunning()`). -/
def poolCommon.retrieveWorkerUnlocked (p : poolCommon) (r : Retrieved) : poolCommon :=
  match r with
  | Retrieved.spawned _ => p.incRunning
  | _ => p

/-- A schedule of two callers of `Submit` on a fresh pool of capacity 1. Both run the locked part
of `retrieveWorker`, one after the other, before either has started its worker; then both start
their workers. The result is the pool afterwards. -/
def overCapacityRun : Option poolCommon :=
  match NewPool 1 [] 0 with
  | Except.error _ => none
  | Except.ok p0 =>
    match p0.poolCommon.retrieveWorkerLocked ⟨1, 0⟩ with
    | some (Retrieved.spawned a, p1) =>
      match p1.retrieveWorkerLocked ⟨2, 0⟩ with
      | some (Retrieved.spawned b, p2) =>
        some ((p2.retrieveWorkerUnlocked (Retrieved.spawned a)).retrieveWorkerUnlocked
          (Retrieved.spawned b))
      | _ => none
    | _ => none

/-! ## The multi-pool (`multipool_common.go`, `multipool.go`) -/

/-- The strategy `RoundRobin`: `1 << iota` at the first line of the constant block. -/
def RoundRobin : Int := 1

/-- The strategy `LeastTasks`: `1 << iota` at the second line of the constant block. -/
def LeastTasks : Int := 2

/-- The constant `math.MaxUint32`. -/
def MaxUint32 : Int := 2 ^ 32 - 1

/-- The constant `math.MaxInt` of a 64-bit platform. -/
def MaxInt : Int := 2 ^ 63 - 1

/-- The method `Free()` of a pool. -/
def poolCommon.Free (p : poolCommon) : Int :=
  let c := p.Cap
  if c < 0 then -1 else c - p.Running

/-- The struct `multiPoolCommon`, at the type of the pools of a `MultiPool`: `pools` are the
shards, `index` is the 32-bit unsigned round-robin counter, `lbs` the strategy. -/
structure multiPoolCommon where
  pools : List poolCommon
  index : Int
  state : Int
  lbs : Int
deriving DecidableEq, Repr

/-- The loop of `next(LeastTasks)` over the shards that are left, `i` being the index of the first
of them, `leastTasks` and `idx` the variables of the loop. The result is `idx` at the end. -/
def leastTasksLoop : List poolCommon → Int → Int → Int → Int
  | [], _, _, idx => idx
  | p :: ps, i, leastTasks, idx =>
    if p.Running < leastTasks then leastTasksLoop ps (i + 1) p.Running i
    else leastTasksLoop ps (i + 1) leastTasks idx

/-- The method `next(lbs)`: the result is the returned index and the multi-pool afterwards;
`none` is the integer-divide-by-zero panic of `%`. -/
def multiPoolCommon.next (mp : multiPoolCommon) (lbs : Int) : Option (Int × multiPoolCommon) :=
  if lbs = RoundRobin then
    let index := (mp.index + 1) % 2 ^ 32
    let n := (mp.pools.length : Int) % 2 ^ 32
    if n = 0 then none else some (index % n, { mp with index := index })
  else if lbs = LeastTasks then some (leastTasksLoop mp.pools 0 MaxInt 0, mp)
  else some (-1, mp)

/-- The method `Running()` of a multi-pool. -/
def multiPoolCommon.Running (mp : multiPoolCommon) : Int :=
  mp.pools.foldl (fun n p => n + p.Running) 0

/-- The method `Free()` of a multi-pool. -/
def multiPoolCommon.Free (mp : multiPoolCommon) : Int :=
  mp.pools.foldl (fun n p => n + p.Free) 0

/-- The method `Waiting()` of a multi-pool. -/
def multiPoolCommon.Waiting (mp : multiPoolCommon) : Int :=
  mp.pools.foldl (fun n p => n + p.Waiting) 0

/-- The method `Cap()` of a multi-pool. -/
def multiPoolCommon.Cap (mp : multiPoolCommon) : Int :=
  mp.pools.foldl (fun n p => n + p.Cap) 0

/-- The method `Tune(size)` of a multi-pool. -/
def multiPoolCommon.Tune (mp : multiPoolCommon) (size : Int) : multiPoolCommon :=
  { mp with pools := mp.pools.map (fun p => p.Tune size) }

/-- The method `IsClosed()` of a multi-pool. -/
def multiPoolCommon.IsClosed (mp : multiPoolCommon) : Bool := decide (mp.state = CLOSED)

/-- The loop `for i := range mp.pools { mp.pools[i].Release() }`; `none` is a panic in one of
the calls. -/
def releaseEach : List poolCommon → Option (List poolCommon)
  | [] => some []
  | p :: ps =>
    match p.Release with
    | none => none
    | some (_, p') =>
      match releaseEach ps with
      | none => none
      | some ps' => some (p' :: ps')

/-- The method `Release()` of a multi-pool. -/
def multiPoolCommon.Release (mp : multiPoolCommon) : Option multiPoolCommon :=
  if mp.state = OPENED then
    (releaseEach mp.pools).map (fun ps => { mp with state := CLOSED, pools := ps })
  else some mp

/-- The calls `p.ReleaseTimeout(timeout)` that `ReleaseTimeout` of a multi-pool starts, one per
shard, each up to its wait loop. The result is the first error that a shard returned at once,
nil when every shard went on to wait, and the shards afterwards. -/
def releaseTimeoutEach : List poolCommon → Option (Option PoolError × List poolCommon)
  | [] => some (none, [])
  | p :: ps =>
    match p.ReleaseTimeout with
    | none => none
    | some (e, _, p') =>
      match releaseTimeoutEach ps with
      | none => none
      | some (e', ps') =>
        some (match e with
              | some err => some err
              | none => e', p' :: ps')

/-- The method `ReleaseTimeout(timeout)` of a multi-pool up to `wg.Wait()`: the result is the
error that is known at once (`ErrPoolClosed`), or nil when the call goes on to wait for the
shards, and the multi-pool afterwards. -/
def multiPoolCommon.ReleaseTimeout (mp : multiPoolCommon) :
    Option (Option PoolError × multiPoolCommon) :=
  if mp.state = OPENED then
    (releaseTimeoutEach mp.pools).map
      (fun r => (r.1, { mp with state := CLOSED, pools := r.2 }))
  else some (some PoolError.ErrPoolClosed, mp)

/-- The loop `for i := range mp.pools { mp.pools[i].Reboot() }` over the shards that are left,
`i` being the index of the first of them and `clock i` the value of `time.Now()` in its
`Reboot`. -/
def rebootEach (clock : Nat → Int) : List poolCommon → Nat → List poolCommon
  | [], _ => []
  | p :: ps, i => p.Reboot (clock i) :: rebootEach clock ps (i + 1)

/-- The method `Reboot()` of a multi-pool. -/
def multiPoolCommon.Reboot (mp : multiPoolCommon) (clock : Nat → Int) : multiPoolCommon :=
  if mp.state = CLOSED then
    { mp with state := OPENED, index := 0, pools := rebootEach clock mp.pools 0 }
  else mp

/-- The struct `MultiPool`, which embeds a `*multiPoolCommon[*Pool]`. -/
structure MultiPool where
  multiPoolCommon : multiPoolCommon
deriving DecidableEq, Repr

/-- The loop of `NewMultiPool` that builds the shards: `n` shards are still to be built, the next
one has index `i`, and `clock i` is the value of `time.Now()` in its `NewPool`. -/
def newPoolsLoop (sizePerPool : Int) (options : List PoolOption) (clock : Nat → Int) :
    Nat → Nat → Except PoolError (List poolCommon)
  | 0, _ => Except.ok []
  | n + 1, i =>
    match NewPool sizePerPool options (clock i) with
    | Except.error err => Except.error err
    | Except.ok pool =>
      match newPoolsLoop sizePerPool options clock n (i + 1) with
      | Except.error err => Except.error err
      | Except.ok pools => Except.ok (pool.poolCommon :: pools)

/-- The function `NewMultiPool(size, sizePerPool, lbs, options...)`; the field `state` is left at
its zero value, which is `OPENED`. -/
def NewMultiPool (size sizePerPool : Int) (lbs : Int) (options : List PoolOption)
    (clock : Nat → Int) : Except PoolError MultiPool :=
  if size ≤ 0 then Except.error PoolError.ErrInvalidPoolSize
  else if lbs ≠ RoundRobin ∧ lbs ≠ LeastTasks then
    Except.error PoolError.ErrInvalidLoadBalancingStrategy
  else
    match newPoolsLoop sizePerPool options clock size.toNat 0 with
    | Except.error err => Except.error err
    | Except.ok pools =>
      Except.ok { multiPoolCommon := { pools := pools, index := MaxUint32, state := OPENED, lbs := lbs } }

/-- What a call of `MultiPool.Submit` has done when it returns or parks: `err` is the returned
error, `calls` lists the shard submissions `mp.pools[i].Submit(task)` that were made, in order,
each with the index of the shard and what the submission came to, and `parked` says that the call
is blocked inside the last of them and has not returned. -/
structure MultiSubmitted where
  err : Option PoolError
  calls : List (Int × Retrieved)
  parked : Bool
deriving DecidableEq, Repr

/-- The call `mp.pools[i].Submit(task)`, or its resumption after a wait when `wake` is set; `none`
is a panic (index out of range included). -/
def MultiPool.submitAt (mp : MultiPool) (i : Int) (cached : Worker) (wake : Bool) :
    Option (Retrieved × MultiPool) :=
  match index? mp.multiPoolCommon.pools i with
  | none => none
  | some p =>
    match (if wake then (Pool.mk p).SubmitWake cached else (Pool.mk p).Submit cached) with
    | none => none
    | some (r, p') =>
      (assign? mp.multiPoolCommon.pools i p'.poolCommon).map
        (fun ps => (r, { multiPoolCommon := { mp.multiPoolCommon with pools := ps } }))

/-- The rest of `MultiPool.Submit` once the first shard submission, to shard `i`, has come to
`r`. -/
def MultiPool.afterFirst (mp : MultiPool) (cached : Worker) (i : Int) (r : Retrieved) :
    Option (MultiSubmitted × MultiPool) :=
  if r = Retrieved.parked then some ({ err := none, calls := [(i, r)], parked := true }, mp)
  else if r.err = none then some ({ err := none, calls := [(i, r)], parked := false }, mp)
  else if r.err = some PoolError.ErrPoolOverload ∧ mp.multiPoolCommon.lbs = RoundRobin then
    match mp.multiPoolCommon.next LeastTasks with
    | none => none
    | some (j, mpc) =>
      match (MultiPool.mk mpc).submitAt j cached false with
      | none => none
      | some (r2, mp2) =>
        some ({ err := r2.err, calls := [(i, r), (j, r2)],
                parked := decide (r2 = Retrieved.parked) }, mp2)
  else some ({ err := r.err, calls := [(i, r)], parked := false }, mp)

/-- The method `Submit(task)` of `MultiPool`, up to its return or to the wait inside a shard
submission. -/
def MultiPool.Submit (mp : MultiPool) (cached : Worker) : Option (MultiSubmitted × MultiPool) :=
  if mp.multiPoolCommon.IsClosed then
    some ({ err := some PoolError.ErrPoolClosed, calls := [], parked := false }, mp)
  else
    match mp.multiPoolCommon.next mp.multiPoolCommon.lbs with
    | none => none
    | some (i, mpc) =>
      match (MultiPool.mk mpc).submitAt i cached false with
      | none => none
      | some (r, mp1) => mp1.afterFirst cached i r

/-- The method `Submit(task)` of `MultiPool` from the moment a caller parked in the first shard
submission, to shard `i`, is woken up. -/
def MultiPool.SubmitWake (mp : MultiPool) (i : Int) (cached : Worker) :
    Option (MultiSubmitted × MultiPool) :=
  match mp.submitAt i cached true with
  | none => none
  | some (r, mp1) => mp1.afterFirst cached i r

/-- The method `Submit(task)` of `MultiPool` from the moment a caller parked in the retry, on
shard `j`, is woken up: what the shard returns is returned. -/
def MultiPool.RetryWake (mp : MultiPool) (j : Int) (cached : Worker) :
    Option (MultiSubmitted × MultiPool) :=
  (mp.submitAt j cached true).map
    (fun r => ({ err := r.1.err, calls := [(j, r.1)],
                 parked := decide (r.1 = Retrieved.parked) }, r.2))

/-! ## The multi-pool as a transition system -/

/-- What happens inside a shard without a call on the multi-pool: a task ends, a worker that was
told to exit does so, the purge goroutine runs a round, the clock goroutine ticks. Every other
operation of a shard is reached through the multi-pool only. -/
def poolCommon.event (p : poolCommon) (op : PoolOp) : Option poolCommon :=
  match op with
  | PoolOp.task w e => (p.workerTask w e).map (fun r => r.2.1)
  | PoolOp.stop _ => some p.workerStop.1
  | PoolOp.purge now =>
    if p.options.DisablePurge then none else (p.purgeStaleWorkers now).map (fun r => r.2)
  | PoolOp.tick clock => some (p.ticktock clock)
  | _ => none

/-- The operations on a multi-pool: its methods, the resumption of a `Submit` that is parked in
its first shard submission or in its retry, and the events inside a shard. -/
inductive MultiOp where
  | submit (cached : Worker)
  | submitWake (i : Int) (cached : Worker)
  | retryWake (j : Int) (cached : Worker)
  | tune (size : Int)
  | release
  | releaseTimeout
  | reboot (clock : Nat → Int)
  | shard (i : Int) (op : PoolOp)

/-- One operation on a multi-pool; `none` when the operation panics or cannot take place. -/
def MultiPool.step (mp : MultiPool) (op : MultiOp) : Option MultiPool :=
  match op with
  | MultiOp.submit cached => (mp.Submit cached).map (fun r => r.2)
  | MultiOp.submitWake i cached => (mp.SubmitWake i cached).map (fun r => r.2)
  | MultiOp.retryWake j cached => (mp.RetryWake j cached).map (fun r => r.2)
  | MultiOp.tune size => some { multiPoolCommon := mp.multiPoolCommon.Tune size }
  | MultiOp.release => mp.multiPoolCommon.Release.map (fun m => { multiPoolCommon := m })
  | MultiOp.releaseTimeout =>
    mp.multiPoolCommon.ReleaseTimeout.map (fun r => { multiPoolCommon := r.2 })
  | MultiOp.reboot clock => some { multiPoolCommon := mp.multiPoolCommon.Reboot clock }
  | MultiOp.shard i op =>
    match index? mp.multiPoolCommon.pools i with
    | none => none
    | some p =>
      match p.event op with
      | none => none
      | some p' =>
        (assign? mp.multiPoolCommon.pools i p').map
          (fun ps => { multiPoolCommon := { mp.multiPoolCommon with pools := ps } })

/-- The multi-pool after a sequence of operations. -/
def MultiPool.run (mp : MultiPool) : List MultiOp → Option MultiPool
  | [] => some mp
  | op :: ops => (mp.step op).bind (fun mp' => mp'.run ops)

/-- Sequences of steps of a multi-pool. -/
inductive MultiPool.Steps : MultiPool → MultiPool → Prop where
  | refl (mp : MultiPool) : MultiPool.Steps mp mp
  | tail (mp mp1 mp2 : MultiPool) (op : MultiOp) :
      MultiPool.Steps mp mp1 → mp1.step op = some mp2 → MultiPool.Steps mp mp2

/-- The multi-pools that one built by `NewMultiPool` reaches when its operations run one at a
time, each call of a method being one step. In the code `Release`, `ReleaseTimeout` and `Reboot`
swap the state first and loop over the shards afterwards, without a lock; the states that
interleavings of these parts reach (`releaseRebootRun`) are not among these. -/
def MultiPool.SeqReachable (mp : MultiPool) : Prop :=
  ∃ size sizePerPool lbs options clock mp0,
    NewMultiPool size sizePerPool lbs options clock = Except.ok mp0 ∧ MultiPool.Steps mp0 mp

/-- The state of a multi-pool and of its shards agree: the multi-pool has a shard, it is open or
closed, every shard is in the state of the multi-pool, and an open shard has its clock goroutine
and, unless purging is disabled, its purge goroutine running. -/
structure MultiPool.Coherent (mp : MultiPool) : Prop where
  state_ok : mp.multiPoolCommon.state = OPENED ∨ mp.multiPoolCommon.state = CLOSED
  nonempty : mp.multiPoolCommon.pools ≠ []
  shards : ∀ p ∈ mp.multiPoolCommon.pools, p.state = mp.multiPoolCommon.state ∧
    (p.state = OPENED → p.stopTicktock = true ∧
      (p.options.DisablePurge = false → p.stopPurge = true))

/-- The multi-pool after `k` calls of `next(lbs)`. -/
def multiPoolCommon.afterNext (mp : multiPoolCommon) (lbs : Int) : Nat → Option multiPoolCommon
  | 0 => some mp
  | k + 1 => (mp.afterNext lbs k).bind (fun m => (m.next lbs).map (fun r => r.2))

/-- What the `k`-th call of `next(lbs)` returns, for `k ≥ 1`. -/
def multiPoolCommon.nthNext (mp : multiPoolCommon) (lbs : Int) (k : Nat) : Option Int :=
  (mp.afterNext lbs (k - 1)).bind (fun m => (m.next lbs).map (fun r => r.1))

/-- A multi-pool on which the calls of a `Submit` do not panic: it has between 1 and `2^32 - 1`
shards, its strategy is one of the two, and the idle queue of every shard is well formed. -/
structure multiPoolCommon.WellFormed (mp : multiPoolCommon) : Prop where
  length_pos : 0 < mp.pools.length
  length_lt : (mp.pools.length : Int) < 2 ^ 32
  lbs_ok : mp.lbs = RoundRobin ∨ mp.lbs = LeastTasks
  queues : ∀ p ∈ mp.pools, p.workers.WellFormed

/-- The multi-pool that `NewMultiPool` has just built, if it has built one. -/
def MultiPool.init (size sizePerPool : Int) (lbs : Int) (options : List PoolOption)
    (clock : Nat → Int) : Option MultiPool :=
  match NewMultiPool size sizePerPool lbs options clock with
  | Except.error _ => none
  | Except.ok mp => some mp

/-- The method `Reboot()` of a multi-pool as the specification has it, not the code: the
round-robin counter goes back to the value it has after construction. -/
def multiPoolCommon.RebootSpec (mp : multiPoolCommon) (clock : Nat → Int) : multiPoolCommon :=
  if mp.state = CLOSED then
    { mp with state := OPENED, index := MaxUint32, pools := rebootEach clock mp.pools 0 }
  else mp

/-- Two states of a pool agree on what decides whether `ReleaseTimeout` goes through: the state,
the two cancel functions and the options. -/
def poolCommon.SameFlags (p p' : poolCommon) : Prop :=
  p'.state = p.state ∧ p'.stopPurge = p.stopPurge ∧ p'.stopTicktock = p.stopTicktock ∧
  p'.options = p.options

/-- The first part of `Release()` of a multi-pool: the compare-and-swap of the state from
`OPENED` to `CLOSED`. The result says whether the swap took place. -/
def multiPoolCommon.ReleaseSwap (mp : multiPoolCommon) : Bool × multiPoolCommon :=
  if mp.state = OPENED then (true, { mp with state := CLOSED }) else (false, mp)

/-- The second part of `Release()` of a multi-pool, which runs when the swap took place: the loop
that releases the shards. No lock is held between the two parts. -/
def multiPoolCommon.ReleaseShards (mp : multiPoolCommon) : Option multiPoolCommon :=
  (releaseEach mp.pools).map (fun ps => { mp with pools := ps })

/-- A schedule of two goroutines on the multi-pool that `NewMultiPool(2, 1, RoundRobin)` returns.
Goroutine A calls `Release` and runs it up to its compare-and-swap, which closes the multi-pool.
Goroutine B then runs the whole of `Reboot`, which opens the multi-pool again and reboots the
shards, which are still open. Last, A runs the loop of `Release` that releases the shards. The
result is the multi-pool afterwards. -/
def releaseRebootRun : Option multiPoolCommon :=
  match NewMultiPool 2 1 RoundRobin [] (fun _ => 0) with
  | Except.error _ => none
  | Except.ok mp =>
    match mp.multiPoolCommon.ReleaseSwap with
    | (true, mp1) => (mp1.Reboot (fun _ => 5)).ReleaseShards
    | (false, _) => none

/-! ## Lemmas: binary search -/

theorem shiftRight_one_bounds (x : Int) (h : 0 ≤ x) :
    0 ≤ x >>> (1 : Nat) ∧ x >>> (1 : Nat) ≤ x := by
  rw [Int.shiftRight_eq_div_pow]; norm_num; omega

theorem BinarySearch.loop_boundary (f : Int → Option Bool) (g : Int → Bool) (l0 r0 : Int)
    (hf : ∀ i, l0 ≤ i → i ≤ r0 → f i = some (g i)) :
    ∀ (fuel : Nat) (l r : Int), l0 ≤ l → r ≤ r0 → l ≤ r + 1 → (r + 1 - l).toNat ≤ fuel →
      (l0 < l → g (l - 1) = false) → (r < r0 → g (r + 1) = true) →
      ∃ k, BinarySearch.loop f fuel l r = some k ∧ l0 ≤ k ∧ k ≤ r0 + 1 ∧
        (l0 < k → g (k - 1) = false) ∧ (k ≤ r0 → g k = true) := by
  intro fuel
  induction fuel with
  | zero =>
    intro l r hl hr hlr hfuel hlo hhi
    have : ¬ l ≤ r := by omega
    refine ⟨l, ?_, hl, by omega, hlo, ?_⟩
    · unfold BinarySearch.loop; simp [this]
    · intro h
      have e : l = r + 1 := by omega
      rw [e]; exact hhi (by omega)
  | succ n ih =>
    intro l r hl hr hlr hfuel hlo hhi
    by_cases hc : l ≤ r
    · obtain ⟨hm0, hm1⟩ := shiftRight_one_bounds (r - l) (by omega)
      have hfm := hf (l + ((r - l) >>> (1 : Nat))) (by omega) (by omega)
      unfold BinarySearch.loop
      simp only [hc, if_true, hfm]
      cases hg : g (l + ((r - l) >>> (1 : Nat))) with
      | true =>
        simp only []
        apply ih l _ hl (by omega) (by omega) (by omega) hlo
        intro _
        simpa using hg
      | false =>
        simp only []
        apply ih _ r (by omega) hr (by omega) (by omega) _ hhi
        intro _
        simpa using hg
    · refine ⟨l, ?_, hl, by omega, hlo, ?_⟩
      · unfold BinarySearch.loop; simp [hc]
      · intro h
        have e : l = r + 1 := by omega
        rw [e]; exact hhi (by omega)

/-- A predicate that is preserved by every step `i → i + 1` inside `[l, r]` is upward closed
there. -/
theorem step_mono_chain (g : Int → Bool) (l r : Int)
    (hmono : ∀ i, l ≤ i → i < r → g i = true → g (i + 1) = true) :
    ∀ i j, l ≤ i → i ≤ j → j ≤ r → g i = true → g j = true := by
  intro i j hli hij
  refine Int.le_induction (P := fun j => j ≤ r → g i = true → g j = true) ?_ ?_ j hij
  · intro _ h; exact h
  · intro j hj ih hjr hgi
    exact hmono j (by omega) (by omega) (ih (by omega) hgi)

/-- Specification of the search with any sufficient fuel, for a predicate that returns on the
whole of `[l, r]` and is monotone there. -/
theorem BinarySearch.loop_spec (f : Int → Option Bool) (g : Int → Bool) (l r : Int)
    (hf : ∀ i, l ≤ i → i ≤ r → f i = some (g i)) (hlr : l ≤ r + 1)
    (hmono : ∀ i, l ≤ i → i < r → g i = true → g (i + 1) = true)
    (fuel : Nat) (hfuel : (r + 1 - l).toNat ≤ fuel) :
    ∃ k, BinarySearch.loop f fuel l r = some k ∧ l ≤ k ∧ k ≤ r + 1 ∧
      (∀ i, l ≤ i → i < k → g i = false) ∧ (∀ i, k ≤ i → i ≤ r → g i = true) := by
  obtain ⟨k, hk, hlk, hkr, hlow, hhigh⟩ :=
    BinarySearch.loop_boundary f g l r hf fuel l r (le_refl _) (le_refl _) hlr hfuel
      (fun h => absurd h (lt_irrefl _)) (fun h => absurd h (lt_irrefl _))
  refine ⟨k, hk, hlk, hkr, ?_, ?_⟩
  · intro i hli hik
    by_contra hne
    have hgi : g i = true := by simpa using hne
    have := step_mono_chain g l r hmono i (k - 1) hli (by omega) (by omega) hgi
    rw [hlow (by omega)] at this
    exact Bool.noConfusion this
  · intro i hki hir
    exact step_mono_chain g l r hmono k i hlk hki hir (hhigh (by omega))

theorem BinarySearch_spec (f : Int → Option Bool) (g : Int → Bool) (l r : Int)
    (hf : ∀ i, l ≤ i → i ≤ r → f i = some (g i)) (hlr : l ≤ r + 1)
    (hmono : ∀ i, l ≤ i → i < r → g i = true → g (i + 1) = true) :
    ∃ k, BinarySearch l r f = some k ∧ l ≤ k ∧ k ≤ r + 1 ∧
      (∀ i, l ≤ i → i < k → g i = false) ∧ (∀ i, k ≤ i → i ≤ r → g i = true) :=
  BinarySearch.loop_spec f g l r hf hlr hmono _ (le_refl _)

theorem int64_eq_self (x : Int) (h0 : -2 ^ 63 ≤ x) (h1 : x < 2 ^ 63) : int64 x = x := by
  unfold int64
  omega

/-- As long as the range lies strictly inside the 64-bit integers and is less than `2^63` wide,
no operation of the loop wraps around, and the loop of Go is the loop on mathematical
integers. This is the case of the ranges `[0, len - 1]` that `refresh` searches. -/
theorem BinarySearch.loopInt64_eq_loop (f : Int → Option Bool) :
    ∀ (fuel : Nat) (l r : Int), -2 ^ 63 < l → r < 2 ^ 63 - 1 → l ≤ r + 1 → r - l < 2 ^ 63 →
      BinarySearch.loopInt64 f fuel l r = BinarySearch.loop f fuel l r := by
  intro fuel
  induction fuel with
  | zero =>
    intro l r _ _ _ _
    unfold BinarySearch.loopInt64 BinarySearch.loop
    rfl
  | succ n ih =>
    intro l r hl hr hlr hw
    by_cases hc : l ≤ r
    · obtain ⟨hm0, hm1⟩ := shiftRight_one_bounds (r - l) (by omega)
      have e1 : int64 (r - l) = r - l := int64_eq_self _ (by omega) hw
      have e2 : int64 (l + ((r - l) >>> (1 : Nat))) = l + ((r - l) >>> (1 : Nat)) :=
        int64_eq_self _ (by omega) (by omega)
      have e3 : int64 (l + ((r - l) >>> (1 : Nat)) - 1) = l + ((r - l) >>> (1 : Nat)) - 1 :=
        int64_eq_self _ (by omega) (by omega)
      have e4 : int64 (l + ((r - l) >>> (1 : Nat)) + 1) = l + ((r - l) >>> (1 : Nat)) + 1 :=
        int64_eq_self _ (by omega) (by omega)
      unfold BinarySearch.loopInt64 BinarySearch.loop
      simp only [hc, if_true, e1, e2, e3, e4]
      cases f (l + ((r - l) >>> (1 : Nat))) with
      | none => rfl
      | some b =>
        cases b with
        | true => exact ih l _ hl (by omega) (by omega) (by omega)
        | false => exact ih _ r (by omega) hr (by omega) (by omega)
    · unfold BinarySearch.loopInt64 BinarySearch.loop
      simp [hc]

/-- From the lower bound `-2^63 + 1` and any upper bound between `2^62` and `2^63 - 2`, the loop
of Go, searching for the first non-negative index, never returns: `r - l` wraps around to a
negative number, the probe `mid` wraps around to an index above `r`, where the predicate is true,
and the new upper bound `mid - 1` is again between `2^62` and `2^63 - 2`. -/
theorem BinarySearch.loopInt64_stuck : ∀ (fuel : Nat) (r : Int), 2 ^ 62 ≤ r → r ≤ 2 ^ 63 - 2 →
    BinarySearch.loopInt64 (fun i => some (decide (0 ≤ i))) fuel (-2 ^ 63 + 1) r = none := by
  intro fuel
  induction fuel with
  | zero =>
    intro r h0 h1
    unfold BinarySearch.loopInt64
    rw [if_pos (by omega)]
  | succ n ih =>
    intro r h0 h1
    have hd : int64 (r - (-2 ^ 63 + 1)) = r - 2 ^ 63 - 1 := by
      unfold int64
      omega
    have hs : (r - 2 ^ 63 - 1) >>> (1 : Nat) = (r - 2 ^ 63 - 1) / 2 := by
      rw [Int.shiftRight_eq_div_pow]
      norm_num
    have hm : int64 (-2 ^ 63 + 1 + (r - 2 ^ 63 - 1) / 2) = 2 ^ 63 + 1 + (r - 2 ^ 63 - 1) / 2 := by
      unfold int64
      omega
    have hpos : (0 : Int) ≤ 2 ^ 63 + 1 + (r - 2 ^ 63 - 1) / 2 := by omega
    have hr' : int64 (2 ^ 63 + 1 + (r - 2 ^ 63 - 1) / 2 - 1) =
        2 ^ 63 + 1 + (r - 2 ^ 63 - 1) / 2 - 1 := int64_eq_self _ (by omega) (by omega)
    unfold BinarySearch.loopInt64
    rw [if_pos (by omega)]
    simp only [hd, hs, hm, decide_eq_true hpos, hr']
    exact ih _ (by omega) (by omega)

/-! ## Lemmas: slices -/

theorem index?_natCast {α : Type} (xs : List α) (i : Nat) : index? xs (i : Int) = xs[i]? := by
  simp [index?]

theorem index?_of_nonneg {α : Type} (xs : List α) (i : Int) (h : 0 ≤ i) :
    index? xs i = xs[i.toNat]? := by
  simp [index?, h]

theorem slice?_eq {α : Type} (xs : List α) (lo hi : Int) (h0 : 0 ≤ lo) (h1 : lo ≤ hi)
    (h2 : hi ≤ xs.length) : slice? xs lo hi = some ((xs.take hi.toNat).drop lo.toNat) := by
  simp [slice?, h0, h1, h2]

theorem assign?_eq {α : Type} (xs : List α) (i : Int) (v : α) (h0 : 0 ≤ i) (h1 : i < xs.length) :
    assign? xs i v = some (xs.set i.toNat v) := by
  simp [assign?, h0, h1]

theorem goCopy_drop_take {α : Type} (xs : List α) (k : Nat) (hk : k ≤ xs.length) :
    (goCopy xs (xs.drop k)).take (xs.length - k) = xs.drop k := by
  unfold goCopy
  have h1 : (xs.drop k).take xs.length = xs.drop k := by
    apply List.take_of_length_le; simp
  rw [h1, List.take_append_of_le_length (by simp)]
  apply List.take_of_length_le; simp

/-! ## Lemmas: the expired prefix of an ordered list -/

theorem Ordered.tail {a : Worker} {ws : List Worker} (h : Ordered (a :: ws)) : Ordered ws :=
  (List.pairwise_cons.mp h).2

theorem expired_iff (now : Int) (d : Int) (w : Worker) :
    expired now d w = true ↔ w.lastUsed ≤ now - d := by
  simp only [expired, Time.Before, Time.Add, Worker.lastUsedTime, Bool.not_eq_true',
    decide_eq_false_iff_not, not_lt]
  constructor <;> intro h <;> omega

/-- In an ordered list the expired workers are a prefix and the others the matching suffix. -/
theorem Ordered.filter_expired (now : Int) (d : Int) :
    ∀ (ws : List Worker), Ordered ws →
      ws.filter (expired now d) = ws.take (ws.filter (expired now d)).length ∧
      ws.filter (fun w => !expired now d w) = ws.drop (ws.filter (expired now d)).length
  | [], _ => by simp
  | a :: t, h => by
    have ht := Ordered.filter_expired now d t h.tail
    by_cases ha : expired now d a = true
    · simp only [List.filter_cons, ha, if_true, List.length_cons, List.take_succ_cons,
        Bool.not_true, Bool.false_eq_true, if_false, List.drop_succ_cons]
      exact ⟨by rw [← ht.1], ht.2⟩
    · have hall : ∀ b ∈ t, ¬ expired now d b = true := by
        intro b hb hbe
        have hab := (List.pairwise_cons.mp h).1 b hb
        rw [expired_iff] at hbe ha
        simp only [Worker.lastUsedTime] at hab
        exact ha (le_trans hab hbe)
      have hnil : t.filter (expired now d) = [] := List.filter_eq_nil_iff.mpr hall
      have hself : t.filter (fun w => !expired now d w) = t :=
        List.filter_eq_self.mpr (fun b hb => by simpa using hall b hb)
      simp [List.filter_cons, ha, hnil, hself]

/-- The index found by the search of `refresh` on an ordered list of workers is the number of
expired workers. -/
theorem BinarySearch_expired (ws : List Worker) (hs : Ordered ws) (now : Int) (d : Int)
    (f : Int → Option Bool)
    (hf : ∀ i : Nat, i < ws.length →
      f (i : Int) = (ws[i]?).map (fun w => Time.Before (Time.Add now (-d)) w.lastUsedTime)) :
    BinarySearch 0 ((ws.length : Int) - 1) f = some ((ws.filter (expired now d)).length : Int) := by
  let g : Int → Bool := fun i =>
    match ws[i.toNat]? with
    | some w => Time.Before (Time.Add now (-d)) w.lastUsedTime
    | none => false
  have hg : ∀ i : Nat, (hi : i < ws.length) → g (i : Int) = !expired now d ws[i] := by
    intro i hi
    simp [g, List.getElem?_eq_getElem hi, expired]
  have hfg : ∀ i : Int, 0 ≤ i → i ≤ (ws.length : Int) - 1 → f i = some (g i) := by
    intro i h0 h1
    obtain ⟨n, rfl⟩ := Int.eq_ofNat_of_zero_le h0
    have hn : n < ws.length := by omega
    rw [hf n hn]
    simp [g, List.getElem?_eq_getElem hn]
  have hmono : ∀ i : Int, 0 ≤ i → i < (ws.length : Int) - 1 → g i = true → g (i + 1) = true := by
    intro i h0 h1
    obtain ⟨n, rfl⟩ := Int.eq_ofNat_of_zero_le h0
    have hn : n < ws.length := by omega
    have hn1 : n + 1 < ws.length := by omega
    have e : ((n : Int) + 1) = ((n + 1 : Nat) : Int) := by simp
    rw [e, hg n hn, hg (n + 1) hn1]
    have hle := List.pairwise_iff_getElem.mp hs n (n + 1) hn hn1 (by omega)
    simp only [Worker.lastUsedTime] at hle
    intro h1 
    cases h2 : expired now d ws[n + 1] with
    | false => rfl
    | true =>
      rw [expired_iff] at h2
      have h3 : expired now d ws[n] = true := (expired_iff _ _ _).mpr (le_trans hle h2)
      rw [h3] at h1
      exact Bool.noConfusion h1
  obtain ⟨k, hk, hk0, hk1, hlow, hhigh⟩ :=
    BinarySearch_spec f g 0 ((ws.length : Int) - 1) hfg (by omega) hmono
  rw [hk]
  obtain ⟨m, rfl⟩ := Int.eq_ofNat_of_zero_le hk0
  have hm : m ≤ ws.length := by omega
  have h1 : (ws.take m).filter (expired now d) = ws.take m := by
    apply List.filter_eq_self.mpr
    intro a ha
    obtain ⟨i, hi, rfl⟩ := List.getElem_of_mem ha
    have hi' : i < m := by simp at hi; omega
    have := hlow i (by omega) (by omega)
    rw [hg i (by omega)] at this
    rw [List.getElem_take]
    simpa using this
  have h2 : (ws.drop m).filter (expired now d) = [] := by
    apply List.filter_eq_nil_iff.mpr
    intro a ha
    obtain ⟨i, hi, rfl⟩ := List.getElem_of_mem ha
    have hi' : m + i < ws.length := by simp at hi; omega
    have := hhigh ((m + i : Nat) : Int) (by omega) (by omega)
    rw [hg (m + i) hi'] at this
    rw [List.getElem_drop]
    simpa using this
  have h3 : ws.filter (expired now d) = ws.take m := by
    conv_lhs => rw [← List.take_append_drop m ws]
    rw [List.filter_append, h1, h2, List.append_nil]
  rw [h3, List.length_take, Nat.min_eq_left hm]

/-! ## Lemmas: LIFO stack -/

/-- What `refresh` does to a LIFO stack whose workers are in ascending order: with `k` expired
workers it hands out `items[0..k)` and keeps `items[k..n)`; with none it changes nothing. -/
theorem lifoQueue.refresh_ordered (ws : lifoQueue) (now d : Int) (hs : Ordered ws.items) :
    ws.refresh now d =
      some (if (ws.items.filter (expired now d)).length = 0 then ([], ws)
            else (ws.items.take (ws.items.filter (expired now d)).length,
                  { items := ws.items.drop (ws.items.filter (expired now d)).length,
                    expiry := ws.items.take (ws.items.filter (expired now d)).length })) := by
  have hkle : (ws.items.filter (expired now d)).length ≤ ws.items.length :=
    List.length_filter_le _ _
  generalize hk : (ws.items.filter (expired now d)).length = k at hkle
  unfold lifoQueue.refresh
  simp only [lifoQueue.len]
  by_cases hn : (ws.items.length : Int) = 0
  · have : k = 0 := by omega
    simp [hn, this]
  · have hsearch := BinarySearch_expired ws.items hs now d
      (fun i => (index? ws.items i).map
        (fun w => Time.Before (Time.Add now (-d)) w.lastUsedTime))
      (fun i _ => by simp only [index?_natCast])
    rw [hk] at hsearch
    simp only [hn, if_false, hsearch]
    by_cases hk0 : k = 0
    · simp [hk0]
    · have h1 : ¬ ((k : Int) - 1 < 0) := by omega
      simp only [h1, if_false, hk0, sub_add_cancel]
      rw [slice?_eq _ _ _ (le_refl _) (by omega) (by omega),
        slice?_eq _ _ _ (by omega) (by omega) (le_refl _)]
      simp only [Int.toNat_ofNat, Int.toNat_zero, List.drop_zero, List.take_length,
        List.nil_append]
      have e : ((ws.items.length : Int) - (k : Int)).toNat = ws.items.length - k := by omega
      rw [e, goCopy_drop_take _ _ hkle]

/-! ## Lemmas: FIFO ring -/

/-- The remainder `(a + i) mod n` for an index `a` of the ring and an offset of at most one
turn. -/
theorem wrap_emod (a i n : Int) (ha0 : 0 ≤ a) (han : a < n) (hi0 : 0 ≤ i) (hin : i ≤ n) :
    (a + i < n ∧ (a + i) % n = a + i) ∨ (n ≤ a + i ∧ (a + i) % n = a + i - n) := by
  by_cases h : a + i < n
  · exact Or.inl ⟨h, Int.emod_eq_of_lt (by omega) h⟩
  · refine Or.inr ⟨by omega, ?_⟩
    have e : a + i = (a + i - n) + 1 * n := by ring
    conv_lhs => rw [e]
    rw [Int.add_mul_emod_self]
    exact Int.emod_eq_of_lt (by omega) (by omega)

theorem filterMap_range_getElem? {α : Type} (ws : List α) :
    (List.range ws.length).filterMap (fun i => ws[i]?) = ws := by
  induction ws using List.reverseRecOn with
  | nil => rfl
  | append_singleton xs a ih =>
    rw [List.length_append, List.length_singleton, List.range_succ, List.filterMap_append]
    have h1 : (List.range xs.length).filterMap (fun i => (xs ++ [a])[i]?) =
        (List.range xs.length).filterMap (fun i => xs[i]?) := by
      apply List.filterMap_congr
      intro i hi
      rw [List.mem_range] at hi
      exact List.getElem?_append_left hi
    rw [h1, ih]
    simp

theorem fifoQueue.Holds.isFull_false {wq : fifoQueue} {ws : List Worker} (h : wq.Holds ws)
    (hlt : (ws.length : Int) < wq.size) : wq.isFull = false := by
  cases hf : wq.isFull with
  | false => rfl
  | true => have := h.isFull_iff.mp hf; omega

theorem fifoQueue.Holds.isEmpty_eq {wq : fifoQueue} {ws : List Worker} (h : wq.Holds ws) :
    wq.isEmpty = decide (ws.length = 0) := by
  have hw := wrap_emod wq.head ws.length wq.size h.head_nonneg h.head_lt (by omega) h.length_le
  have ht := h.tail_eq
  have hp := h.size_pos
  have hh0 := h.head_nonneg
  have hh1 := h.head_lt
  unfold fifoQueue.isEmpty
  by_cases hz : ws.length = 0
  · have hf := h.isFull_false (by omega)
    have : wq.head = wq.tail := by omega
    simp [hz, hf, this]
  · cases hf : wq.isFull with
    | true => simp [hz]
    | false =>
      have hlt : (ws.length : Int) ≠ wq.size := fun e => by
        have := h.isFull_iff.mpr e; rw [hf] at this; exact Bool.noConfusion this
      have hle := h.length_le
      have : wq.head ≠ wq.tail := by omega
      simp [hz, this]

theorem fifoQueue.Holds.len_eq {wq : fifoQueue} {ws : List Worker} (h : wq.Holds ws) :
    wq.len = ws.length := by
  have hw := wrap_emod wq.head ws.length wq.size h.head_nonneg h.head_lt (by omega) h.length_le
  have ht := h.tail_eq
  have hp := h.size_pos
  have hh0 := h.head_nonneg
  have hh1 := h.head_lt
  have hle := h.length_le
  have hne : wq.size ≠ 0 := by omega
  unfold fifoQueue.len
  rw [h.isEmpty_eq]
  by_cases hz : ws.length = 0
  · simp [hz]
  · simp only [hne, hz, decide_False, Bool.false_eq_true, or_self, if_false]
    cases hf : wq.isFull with
    | true =>
      have hm := h.isFull_iff.mp hf
      have : wq.head = wq.tail := by omega
      simp [this, hm]
    | false =>
      have hlt : (ws.length : Int) ≠ wq.size := fun e => by
        have := h.isFull_iff.mpr e; rw [hf] at this; exact Bool.noConfusion this
      simp only [Bool.false_eq_true, and_false, if_false]
      split_ifs <;> omega

theorem fifoQueue.Holds.workers_eq {wq : fifoQueue} {ws : List Worker} (h : wq.Holds ws) :
    wq.workers = ws := by
  unfold fifoQueue.workers
  rw [h.len_eq, Int.toNat_ofNat]
  have : (List.range ws.length).filterMap
      (fun (i : Nat) => (index? wq.items ((wq.head + (i : Int)) % wq.size)).join) =
      (List.range ws.length).filterMap (fun i => ws[i]?) := by
    apply List.filterMap_congr
    intro i hi
    rw [List.mem_range] at hi
    have hw := wrap_emod wq.head i wq.size h.head_nonneg h.head_lt (by omega)
      (by have := h.length_le; omega)
    rw [index?_of_nonneg _ _ (by have := h.head_nonneg; omega), h.slot i hi]
    rfl
  rw [this, filterMap_range_getElem?]

theorem fifoQueue.Holds.unique {wq : fifoQueue} {ws ws' : List Worker} (h : wq.Holds ws)
    (h' : wq.Holds ws') : ws = ws' := by
  rw [← h.workers_eq, ← h'.workers_eq]

theorem newFIFOQueue_holds (size : Int) (hs : 0 < size) :
    ∃ wq, newFIFOQueue size = some wq ∧ wq.Holds [] ∧ wq.size = size := by
  refine ⟨{ items := List.replicate size.toNat none, expiry := [], head := 0, tail := 0,
            size := size, isFull := false }, by simp [newFIFOQueue, not_le.mpr hs], ?_, rfl⟩
  refine ⟨hs, ?_, le_refl _, hs, ?_, ?_, ?_, ?_⟩
  · simp; omega
  · simp; omega
  · simp
  · simp; omega
  · intro i hi; simp at hi

/-- On a ring that is not full, `insert` stores the worker at the logical tail. -/
theorem fifoQueue.Holds.insert_ok {wq : fifoQueue} {ws : List Worker} (h : wq.Holds ws)
    (w : Worker) (hlt : (ws.length : Int) < wq.size) :
    ∃ wq', wq.insert w = some (none, wq') ∧ wq'.Holds (ws ++ [w]) ∧ wq'.size = wq.size := by
  have hw := wrap_emod wq.head ws.length wq.size h.head_nonneg h.head_lt (by omega) h.length_le
  have ht := h.tail_eq
  have hp := h.size_pos
  have hh0 := h.head_nonneg
  have hh1 := h.head_lt
  have hlen := h.length_items
  have hne : wq.size ≠ 0 := by omega
  have hf := h.isFull_false hlt
  have ht0 : 0 ≤ wq.tail := by omega
  have ht1 : wq.tail < wq.size := by omega
  have htm : Int.tmod (wq.tail + 1) wq.size = (wq.tail + 1) % wq.size :=
    Int.tmod_eq_emod (by omega) (by omega)
  have hw1 := wrap_emod wq.tail 1 wq.size ht0 ht1 (by omega) (by omega)
  have hw2 := wrap_emod wq.head (ws.length + 1) wq.size hh0 hh1 (by omega) (by omega)
  refine ⟨{ wq with items := wq.items.set wq.tail.toNat (some w),
                    tail := Int.tmod (wq.tail + 1) wq.size,
                    isFull := if Int.tmod (wq.tail + 1) wq.size = wq.head then true
                              else wq.isFull }, ?_, ?_, ?_⟩
  · unfold fifoQueue.insert
    simp only [hne, if_false, hf, Bool.false_eq_true]
    rw [assign?_eq _ _ _ ht0 (by omega)]
  · refine ⟨hp, ?_, hh0, hh1, ?_, ?_, ?_, ?_⟩
    · simpa using hlen
    · simp only [List.length_append, List.length_singleton]; omega
    · simp only [List.length_append, List.length_singleton, htm]
      push_cast
      omega
    · simp only [List.length_append, List.length_singleton, htm]
      push_cast
      constructor
      · intro hfull
        by_contra hcon
        have hx : ¬ ((wq.tail + 1) % wq.size = wq.head) := by omega
        simp [hx, hf] at hfull
      · intro hfull
        have hx : (wq.tail + 1) % wq.size = wq.head := by omega
        simp [hx]
    · intro i hi
      simp only [List.length_append, List.length_singleton] at hi
      have hwi := wrap_emod wq.head i wq.size hh0 hh1 (by omega) (by omega)
      simp only [List.getElem?_set]
      by_cases him : i = ws.length
      · subst him
        have e : wq.tail.toNat = ((wq.head + (ws.length : Int)) % wq.size).toNat := by omega
        have hl : ((wq.head + (ws.length : Int)) % wq.size).toNat < wq.items.length := by omega
        simp [e, hl]
      · have hi' : i < ws.length := by omega
        have hx : ¬ wq.tail.toNat = ((wq.head + (i : Int)) % wq.size).toNat := by omega
        simp only [hx, if_false]
        rw [h.slot i hi', List.getElem?_append_left hi']
  · rfl

/-- On a full ring `insert` fails with `ErrQueueIsFull` and changes nothing. -/
theorem fifoQueue.Holds.insert_full {wq : fifoQueue} {ws : List Worker} (h : wq.Holds ws)
    (w : Worker) (hfull : (ws.length : Int) = wq.size) :
    wq.insert w = some (some PoolError.ErrQueueIsFull, wq) := by
  have hp := h.size_pos
  have hne : wq.size ≠ 0 := by omega
  unfold fifoQueue.insert
  simp [hne, h.isFull_iff.mpr hfull]

/-- On an empty ring `detach` returns nil and changes nothing. -/
theorem fifoQueue.Holds.detach_nil {wq : fifoQueue} (h : wq.Holds []) :
    wq.detach = some (none, wq) := by
  unfold fifoQueue.detach
  simp [h.isEmpty_eq]

/-- On a ring that is not empty `detach` hands out the worker at the logical head. -/
theorem fifoQueue.Holds.detach_cons {wq : fifoQueue} {w : Worker} {ws : List Worker}
    (h : wq.Holds (w :: ws)) :
    ∃ wq', wq.detach = some (some w, wq') ∧ wq'.Holds ws ∧ wq'.size = wq.size := by
  have hle := h.length_le
  simp only [List.length_cons] at hle
  push_cast at hle
  have ht := h.tail_eq
  simp only [List.length_cons] at ht
  push_cast at ht
  have hp := h.size_pos
  have hh0 := h.head_nonneg
  have hh1 := h.head_lt
  have hlen := h.length_items
  have hne : wq.size ≠ 0 := by omega
  have htm : Int.tmod (wq.head + 1) wq.size = (wq.head + 1) % wq.size :=
    Int.tmod_eq_emod (by omega) (by omega)
  have hw1 := wrap_emod wq.head 1 wq.size hh0 hh1 (by omega) (by omega)
  have hw2 := wrap_emod wq.head (ws.length + 1) wq.size hh0 hh1 (by omega) (by omega)
  have hw3 := wrap_emod ((wq.head + 1) % wq.size) ws.length wq.size (by omega) (by omega)
    (by omega) (by omega)
  have h0 := h.slot 0 (by simp)
  simp only [Nat.cast_zero, add_zero, List.getElem?_cons_zero,
    Int.emod_eq_of_lt hh0 hh1] at h0
  refine ⟨{ wq with items := wq.items.set wq.head.toNat none,
                    head := Int.tmod (wq.head + 1) wq.size, isFull := false }, ?_, ?_, ?_⟩
  · unfold fifoQueue.detach
    have ha : assign? wq.items wq.head (none : Option Worker) =
        some (wq.items.set wq.head.toNat none) := assign?_eq _ _ _ hh0 (by omega)
    simp only [h.isEmpty_eq, List.length_cons, Nat.add_one_ne_zero, decide_False,
      Bool.false_eq_true, if_false, index?_of_nonneg _ _ hh0, h0, ha, hne]
  · refine ⟨hp, ?_, ?_, ?_, ?_, ?_, ?_, ?_⟩
    · simpa using hlen
    · show 0 ≤ Int.tmod (wq.head + 1) wq.size
      rw [htm]; omega
    · show Int.tmod (wq.head + 1) wq.size < wq.size
      rw [htm]; omega
    · show (ws.length : Int) ≤ wq.size
      omega
    · show wq.tail = (Int.tmod (wq.head + 1) wq.size + (ws.length : Int)) % wq.size
      rw [htm]; omega
    · show false = true ↔ (ws.length : Int) = wq.size
      simp only [Bool.false_eq_true, false_iff]; omega
    · intro i hi
      show (wq.items.set wq.head.toNat none)[((Int.tmod (wq.head + 1) wq.size + (i : Int)) %
        wq.size).toNat]? = some ws[i]?
      rw [htm]
      have hwi := wrap_emod ((wq.head + 1) % wq.size) i wq.size (by omega) (by omega)
        (by omega) (by omega)
      have hwj := wrap_emod wq.head ((i + 1 : Nat) : Int) wq.size hh0 hh1 (by omega) (by omega)
      have hs := h.slot (i + 1) (by simp; omega)
      push_cast at hwj hs
      have e : (((wq.head + 1) % wq.size + (i : Int)) % wq.size).toNat =
          ((wq.head + ((i : Int) + 1)) % wq.size).toNat := by omega
      have hx : ¬ wq.head.toNat = ((wq.head + ((i : Int) + 1)) % wq.size).toNat := by omega
      rw [e, List.getElem?_set]
      simp only [hx, if_false]
      rw [hs, List.getElem?_cons_succ]
  · rfl

theorem nilLoop_spec : ∀ (n : Nat) (i : Int) (items : List (Option Worker)),
    0 ≤ i → i + n ≤ items.length →
    ∃ items', nilLoop n i items = some items' ∧ items'.length = items.length ∧
      ∀ j : Nat, ((j : Int) < i ∨ i + n ≤ j) → items'[j]? = items[j]?
  | 0, i, items, _, _ => ⟨items, rfl, rfl, fun _ _ => rfl⟩
  | n + 1, i, items, h0, h1 => by
    have hlen : (items.set i.toNat none).length = items.length := List.length_set ..
    obtain ⟨items', he, hl, hj⟩ := nilLoop_spec n (i + 1) (items.set i.toNat none) (by omega)
      (by rw [hlen]; push_cast at h1; omega)
    refine ⟨items', ?_, by rw [hl, hlen], ?_⟩
    · unfold nilLoop
      rw [assign?_eq _ _ _ h0 (by push_cast at h1; omega)]
      exact he
    · intro j hjr
      rw [hj j (by push_cast at hjr; omega), List.getElem?_set]
      have : ¬ i.toNat = j := by push_cast at hjr; omega
      simp only [this, if_false]

theorem nilRange_spec (items : List (Option Worker)) (lo hi : Int) (h0 : 0 ≤ lo) (h1 : lo ≤ hi)
    (h2 : hi ≤ items.length) :
    ∃ items', nilRange items lo hi = some items' ∧ items'.length = items.length ∧
      ∀ j : Nat, ((j : Int) < lo ∨ hi ≤ j) → items'[j]? = items[j]? := by
  obtain ⟨items', he, hl, hj⟩ := nilLoop_spec (hi - lo).toNat lo items h0 (by omega)
  exact ⟨items', he, hl, fun j hjr => hj j (by omega)⟩

theorem fifoQueue.Holds.slot_phys {wq : fifoQueue} {ws : List Worker} (h : wq.Holds ws)
    (i p : Nat) (hi : i < ws.length) (hp : (p : Int) = (wq.head + (i : Int)) % wq.size) :
    wq.items[p]? = some ws[i]? := by
  have := h.slot i hi
  rw [← hp, Int.toNat_ofNat] at this
  exact this

theorem Ordered.filter_expired_eq_nil {now d : Int} {a : Worker} {t : List Worker}
    (h : Ordered (a :: t)) (ha : expired now d a = false) :
    (a :: t).filter (expired now d) = [] := by
  apply List.filter_eq_nil_iff.mpr
  intro b hb hbe
  rcases List.mem_cons.mp hb with rfl | hbt
  · rw [ha] at hbe; exact Bool.noConfusion hbe
  · have hab := (List.pairwise_cons.mp h).1 b hbt
    have hna : ¬ expired now d a = true := by rw [ha]; exact Bool.noConfusion
    rw [expired_iff] at hbe hna
    simp only [Worker.lastUsedTime] at hab
    exact hna (le_trans hab hbe)

/-- The index computed by `indexExpired` on a well-formed ring of ordered workers: `-1` when no
worker is expired, otherwise the physical slot of the last expired worker. -/
theorem fifoQueue.Holds.indexExpired_eq {wq : fifoQueue} {ws : List Worker} (h : wq.Holds ws)
    (hs : Ordered ws) (now d : Int) :
    wq.indexExpired (Time.Add now (-d)) =
      some (if (ws.filter (expired now d)).length = 0 then -1
            else (wq.head + (((ws.filter (expired now d)).length : Int) - 1)) % wq.size) := by
  have hp := h.size_pos
  have hh0 := h.head_nonneg
  have hh1 := h.head_lt
  have hlen := h.length_items
  have hle := h.length_le
  cases ws with
  | nil =>
    unfold fifoQueue.indexExpired
    simp [h.isEmpty_eq]
  | cons w0 t =>
    have h0 := h.slot_phys 0 wq.head.toNat (by simp)
      (by simp only [Nat.cast_zero, add_zero, Int.emod_eq_of_lt hh0 hh1]; omega)
    have h0' : (index? wq.items wq.head).bind lastUsedTime? = some w0.lastUsedTime := by
      rw [index?_of_nonneg _ _ hh0, h0, List.getElem?_cons_zero]; rfl
    have hemp : wq.isEmpty = false := by rw [h.isEmpty_eq]; simp
    cases hb : Time.Before (Time.Add now (-d)) w0.lastUsedTime with
    | true =>
      have hexp : expired now d w0 = false := by simp [expired, hb]
      unfold fifoQueue.indexExpired
      simp only [hemp, Bool.false_eq_true, if_false, h0', hb, if_true,
        hs.filter_expired_eq_nil hexp, List.length_nil]
    | false =>
      have hexp : expired now d w0 = true := by simp [expired, hb]
      have hk1 : 1 ≤ ((w0 :: t).filter (expired now d)).length := by
        simp [List.filter_cons, hexp]
      have hkle : ((w0 :: t).filter (expired now d)).length ≤ (w0 :: t).length :=
        List.length_filter_le _ _
      have hsearch : BinarySearch 0 (wq.len - 1) (fun i =>
          ((index? wq.items (Int.tmod (wq.head + i) (wq.items.length : Int))).bind
            lastUsedTime?).map (fun t => Time.Before (Time.Add now (-d)) t)) =
          some (((w0 :: t).filter (expired now d)).length : Int) := by
        rw [h.len_eq]
        apply BinarySearch_expired (w0 :: t) hs now d
        intro i hi
        have hwi := wrap_emod wq.head i wq.size hh0 hh1 (by omega) (by omega)
        have hmod : Int.tmod (wq.head + (i : Int)) (wq.items.length : Int) =
            (wq.head + (i : Int)) % wq.size := by
          rw [hlen]; exact Int.tmod_eq_emod (by omega) (by omega)
        simp only [hmod]
        rw [index?_of_nonneg _ _ (by omega), h.slot i hi]
        cases (w0 :: t)[i]? <;> rfl
      have hk0 : ¬ (((w0 :: t).filter (expired now d)).length : Int) = 0 := by omega
      have hk0' : ¬ ((w0 :: t).filter (expired now d)).length = 0 := by omega
      have hmod : Int.tmod (wq.head + ((((w0 :: t).filter (expired now d)).length : Int) - 1))
          (wq.items.length : Int) =
          (wq.head + ((((w0 :: t).filter (expired now d)).length : Int) - 1)) % wq.size := by
        rw [hlen]; exact Int.tmod_eq_emod (by omega) (by omega)
      unfold fifoQueue.indexExpired
      simp only [hemp, Bool.false_eq_true, if_false, h0', hb, hsearch, hk0, hk0', hmod]

theorem getElem?_take_drop {α : Type} (xs : List α) (a b j : Nat) :
    ((xs.take a).drop b)[j]? = if b + j < a then xs[b + j]? else none := by
  rw [List.getElem?_drop, List.getElem?_take]

/-- A segment that reads the first `k` workers of `ws` slot by slot is `ws[0..k)`. -/
theorem segment_eq_take (seg : List (Option Worker)) (ws : List Worker) (k : Nat)
    (hk : k ≤ ws.length) (hlen : seg.length = k) (hget : ∀ j, j < k → seg[j]? = some ws[j]?) :
    seg = (ws.take k).map some := by
  apply List.ext_getElem?
  intro n
  by_cases hn : n < k
  · rw [hget n hn, List.getElem?_map, List.getElem?_take, if_pos hn,
      List.getElem?_eq_getElem (by omega : n < ws.length)]
    rfl
  · rw [List.getElem?_eq_none (by omega), List.getElem?_eq_none (by simp; omega)]

/-- The extraction step of `refresh` on a well-formed ring with `k ≥ 1` expired workers: it
copies the first `k` workers, in logical order, and leaves the slots of the others untouched. -/
theorem fifoQueue.Holds.extractExpired_eq {wq : fifoQueue} {ws : List Worker} (h : wq.Holds ws)
    (k : Nat) (hk1 : 1 ≤ k) (hkm : k ≤ ws.length) :
    ∃ items', wq.extractExpired ((wq.head + ((k : Int) - 1)) % wq.size) =
        some ((ws.take k).map some, items') ∧
      items'.length = wq.items.length ∧
      ∀ i : Nat, k ≤ i → i < ws.length →
        items'[((wq.head + (i : Int)) % wq.size).toNat]? =
          wq.items[((wq.head + (i : Int)) % wq.size).toNat]? := by
  have hp := h.size_pos
  have hh0 := h.head_nonneg
  have hh1 := h.head_lt
  have hlen := h.length_items
  have hle := h.length_le
  have hidx := wrap_emod wq.head ((k : Int) - 1) wq.size hh0 hh1 (by omega) (by omega)
  unfold fifoQueue.extractExpired
  rcases hidx with ⟨hlt, hidx⟩ | ⟨hge, hidx⟩
  · -- the expired segment is contiguous
    rw [hidx]
    have hc : wq.head ≤ wq.head + ((k : Int) - 1) := by omega
    obtain ⟨items', hnil, hl', hkeep⟩ := nilRange_spec wq.items wq.head
      (wq.head + ((k : Int) - 1) + 1) hh0 (by omega) (by omega)
    have hsl := slice?_eq wq.items wq.head (wq.head + ((k : Int) - 1) + 1) hh0 (by omega)
      (by omega)
    have hseg : (wq.items.take (wq.head + ((k : Int) - 1) + 1).toNat).drop wq.head.toNat =
        (ws.take k).map some := by
      apply segment_eq_take _ _ _ hkm
      · simp only [List.length_drop, List.length_take]; omega
      · intro j hj
        rw [getElem?_take_drop, if_pos (by omega)]
        exact h.slot_phys j _ (by omega) (by
          have hwj := wrap_emod wq.head j wq.size hh0 hh1 (by omega) (by omega)
          omega)
    refine ⟨items', ?_, hl', ?_⟩
    · simp only [hc, if_true, hnil, hsl, hseg, List.nil_append]
    · intro i hki him
      have hwi := wrap_emod wq.head i wq.size hh0 hh1 (by omega) (by omega)
      exact hkeep _ (by omega)
  · -- the expired segment wraps past the end of the buffer
    rw [hidx]
    have hc : ¬ wq.head ≤ wq.head + ((k : Int) - 1) - wq.size := by omega
    obtain ⟨items1, hnil1, hl1, hkeep1⟩ := nilRange_spec wq.items 0
      (wq.head + ((k : Int) - 1) - wq.size + 1) (le_refl _) (by omega) (by omega)
    obtain ⟨items', hnil2, hl2, hkeep2⟩ := nilRange_spec items1 wq.head wq.size hh0 (by omega)
      (by omega)
    have hsl1 := slice?_eq wq.items wq.head (wq.items.length : Int) hh0 (by omega) (le_refl _)
    have hsl2 := slice?_eq wq.items 0 (wq.head + ((k : Int) - 1) - wq.size + 1) (le_refl _)
      (by omega) (by omega)
    have hseg : (wq.items.take ((wq.items.length : Int)).toNat).drop wq.head.toNat ++
        (wq.items.take (wq.head + ((k : Int) - 1) - wq.size + 1).toNat).drop (0 : Int).toNat =
        (ws.take k).map some := by
      apply segment_eq_take _ _ _ hkm
      · simp only [List.length_append, List.length_drop, List.length_take, Int.toNat_ofNat,
          Int.toNat_zero]
        omega
      · intro j hj
        rw [List.getElem?_append]
        simp only [List.length_drop, List.length_take, Int.toNat_ofNat, min_self,
          Int.toNat_zero]
        have hwj := wrap_emod wq.head j wq.size hh0 hh1 (by omega) (by omega)
        by_cases hjs : j < wq.items.length - wq.head.toNat
        · rw [if_pos hjs, getElem?_take_drop, if_pos (by omega)]
          exact h.slot_phys j _ (by omega) (by omega)
        · rw [if_neg hjs, getElem?_take_drop, if_pos (by omega)]
          exact h.slot_phys j _ (by omega) (by omega)
    refine ⟨items', ?_, by rw [hl2, hl1], ?_⟩
    · simp only [hc, if_false, hnil1, Option.some_bind, hnil2, hsl1, hsl2, hseg,
        List.nil_append]
    · intro i hki him
      have hwi := wrap_emod wq.head i wq.size hh0 hh1 (by omega) (by omega)
      rw [hkeep2 _ (by omega), hkeep1 _ (by omega)]

/-- On a well-formed ring, whenever `indexExpired` names the slot of the logical index `k - 1`,
`refresh` returns the first `k` workers in logical order and keeps the others, in their order, in
a ring that is no longer full. -/
theorem fifoQueue.Holds.refresh_of_index {wq : fifoQueue} {ws : List Worker} (h : wq.Holds ws)
    (now d : Int) (k : Nat) (hk : 0 < k) (hkm : k ≤ ws.length)
    (hi : wq.indexExpired (Time.Add now (-d)) = some ((wq.head + ((k : Int) - 1)) % wq.size)) :
    ∃ wq', wq.refresh now d = some ((ws.take k).map some, wq') ∧
      wq'.Holds (ws.drop k) ∧ wq'.size = wq.size ∧ wq'.isFull = false := by
  have hp := h.size_pos
  have hh0 := h.head_nonneg
  have hh1 := h.head_lt
  have hlen := h.length_items
  have hle := h.length_le
  have ht := h.tail_eq
  have hne : wq.size ≠ 0 := by omega
  have hidx := wrap_emod wq.head ((k : Int) - 1) wq.size hh0 hh1 (by omega) (by omega)
  have hidx1 := wrap_emod ((wq.head + ((k : Int) - 1)) % wq.size) 1 wq.size (by omega) (by omega)
    (by omega) (by omega)
  have htm : Int.tmod ((wq.head + ((k : Int) - 1)) % wq.size + 1) wq.size =
      ((wq.head + ((k : Int) - 1)) % wq.size + 1) % wq.size :=
    Int.tmod_eq_emod (by omega) (by omega)
  have hne1 : ¬ (wq.head + ((k : Int) - 1)) % wq.size = -1 := by omega
  obtain ⟨items', hex, hl', hkeep⟩ := h.extractExpired_eq k (by omega) hkm
  have hlk : (List.map some (List.take k ws)).length > 0 := by
    simp only [List.length_map, List.length_take]; omega
  refine ⟨{ wq with items := items', expiry := (ws.take k).map some,
                    head := Int.tmod ((wq.head + ((k : Int) - 1)) % wq.size + 1) wq.size,
                    isFull := false }, ?_, ?_, rfl, rfl⟩
  · unfold fifoQueue.refresh
    simp only [hi, if_false, hne1, hex, hne, hlk, if_true]
  · have hwm := wrap_emod wq.head ws.length wq.size hh0 hh1 (by omega) (by omega)
    have hwr := wrap_emod (((wq.head + ((k : Int) - 1)) % wq.size + 1) % wq.size)
      ((ws.length - k : Nat) : Int) wq.size (by omega) (by omega) (by omega) (by omega)
    refine ⟨hp, ?_, ?_, ?_, ?_, ?_, ?_, ?_⟩
    · show (items'.length : Int) = wq.size
      rw [hl']; exact hlen
    · show 0 ≤ Int.tmod ((wq.head + ((k : Int) - 1)) % wq.size + 1) wq.size
      rw [htm]; omega
    · show Int.tmod ((wq.head + ((k : Int) - 1)) % wq.size + 1) wq.size < wq.size
      rw [htm]; omega
    · show ((ws.drop k).length : Int) ≤ wq.size
      rw [List.length_drop]; omega
    · show wq.tail = (Int.tmod ((wq.head + ((k : Int) - 1)) % wq.size + 1) wq.size +
        ((ws.drop k).length : Int)) % wq.size
      rw [htm, List.length_drop]; omega
    · show false = true ↔ ((ws.drop k).length : Int) = wq.size
      rw [List.length_drop]
      simp only [Bool.false_eq_true, false_iff]; omega
    · intro i hi
      rw [List.length_drop] at hi
      show items'[((Int.tmod ((wq.head + ((k : Int) - 1)) % wq.size + 1) wq.size + (i : Int)) %
        wq.size).toNat]? = some (ws.drop k)[i]?
      have hwi := wrap_emod (((wq.head + ((k : Int) - 1)) % wq.size + 1) % wq.size) i wq.size
        (by omega) (by omega) (by omega) (by omega)
      have hwj := wrap_emod wq.head ((k + i : Nat) : Int) wq.size hh0 hh1 (by omega) (by omega)
      have hkp := hkeep (k + i) (by omega) (by omega)
      have hsl := h.slot (k + i) (by omega)
      have e : ((((wq.head + ((k : Int) - 1)) % wq.size + 1) % wq.size + (i : Int)) %
          wq.size).toNat = ((wq.head + ((k + i : Nat) : Int)) % wq.size).toNat := by omega
      rw [htm, e, hkp, hsl, List.getElem?_drop]

/-- On a well-formed ring of ordered workers none of which is expired, `refresh` returns nil
and changes nothing. -/
theorem fifoQueue.Holds.refresh_none {wq : fifoQueue} {ws : List Worker} (h : wq.Holds ws)
    (hs : Ordered ws) (now d : Int) (hk : (ws.filter (expired now d)).length = 0) :
    wq.refresh now d = some ([], wq) := by
  unfold fifoQueue.refresh
  simp only [h.indexExpired_eq hs now d, hk, if_true]

/-- On a well-formed ring of ordered workers `k ≥ 1` of which are expired, `refresh` returns the
first `k` workers in logical order and keeps the others. -/
theorem fifoQueue.Holds.refresh_some {wq : fifoQueue} {ws : List Worker} (h : wq.Holds ws)
    (hs : Ordered ws) (now d : Int) (hk : 0 < (ws.filter (expired now d)).length) :
    ∃ wq', wq.refresh now d =
        some ((ws.take (ws.filter (expired now d)).length).map some, wq') ∧
      wq'.Holds (ws.drop (ws.filter (expired now d)).length) ∧ wq'.size = wq.size ∧
      wq'.isFull = false := by
  have hi := h.indexExpired_eq hs now d
  rw [if_neg (by omega)] at hi
  exact h.refresh_of_index now d _ hk (List.length_filter_le _ _) hi

/-- Both cases of `refresh` on a well-formed ring of ordered workers at once. -/
theorem fifoQueue.Holds.refresh_eq {wq : fifoQueue} {ws : List Worker} (h : wq.Holds ws)
    (hs : Ordered ws) (now d : Int) :
    ∃ wq', wq.refresh now d =
        some ((ws.take (ws.filter (expired now d)).length).map some, wq') ∧
      wq'.Holds (ws.drop (ws.filter (expired now d)).length) ∧ wq'.size = wq.size ∧
      ((ws.filter (expired now d)).length = 0 → wq' = wq) ∧
      (0 < (ws.filter (expired now d)).length → wq'.isFull = false) := by
  by_cases hk : (ws.filter (expired now d)).length = 0
  · refine ⟨wq, ?_, ?_, rfl, fun _ => rfl, fun h0 => absurd hk (by omega)⟩
    · rw [h.refresh_none hs now d hk, hk]; rfl
    · rw [hk]; exact h
  · obtain ⟨wq', h1, h2, h3, h4⟩ := h.refresh_some hs now d (by omega)
    exact ⟨wq', h1, h2, h3, fun h0 => absurd h0 hk, fun _ => h4⟩

/-- The search of `refresh` returns an index between `0` and the number of workers, whatever the
order of the workers. -/
theorem BinarySearch_bounded (ws : List Worker) (e : Int) (f : Int → Option Bool)
    (hf : ∀ i : Nat, i < ws.length →
      f (i : Int) = (ws[i]?).map (fun w => Time.Before e w.lastUsedTime)) :
    ∃ k : Nat, k ≤ ws.length ∧ BinarySearch 0 ((ws.length : Int) - 1) f = some (k : Int) := by
  let g : Int → Bool := fun i =>
    match ws[i.toNat]? with
    | some w => Time.Before e w.lastUsedTime
    | none => false
  have hfg : ∀ i : Int, 0 ≤ i → i ≤ (ws.length : Int) - 1 → f i = some (g i) := by
    intro i h0 h1
    obtain ⟨n, rfl⟩ := Int.eq_ofNat_of_zero_le h0
    have hn : n < ws.length := by omega
    rw [hf n hn]
    simp [g, List.getElem?_eq_getElem hn]
  obtain ⟨k, hk, hk0, hk1, -, -⟩ :=
    BinarySearch.loop_boundary f g 0 ((ws.length : Int) - 1) hfg
      ((ws.length : Int) - 1 + 1 - 0).toNat 0 ((ws.length : Int) - 1) (le_refl _) (le_refl _)
      (by omega) (le_refl _) (fun h => absurd h (lt_irrefl _)) (fun h => absurd h (lt_irrefl _))
  obtain ⟨m, rfl⟩ := Int.eq_ofNat_of_zero_le hk0
  exact ⟨m, by omega, hk⟩

/-- On a well-formed ring `indexExpired` returns `-1` or the physical slot of a logical index,
whatever the order of the workers. -/
theorem fifoQueue.Holds.indexExpired_bounded {wq : fifoQueue} {ws : List Worker}
    (h : wq.Holds ws) (e : Int) :
    ∃ k : Nat, k ≤ ws.length ∧
      wq.indexExpired e =
        some (if k = 0 then -1 else (wq.head + ((k : Int) - 1)) % wq.size) := by
  have hp := h.size_pos
  have hh0 := h.head_nonneg
  have hh1 := h.head_lt
  have hlen := h.length_items
  have hle := h.length_le
  cases ws with
  | nil =>
    refine ⟨0, le_refl _, ?_⟩
    unfold fifoQueue.indexExpired
    simp [h.isEmpty_eq]
  | cons w0 t =>
    have h0 := h.slot_phys 0 wq.head.toNat (by simp)
      (by simp only [Nat.cast_zero, add_zero, Int.emod_eq_of_lt hh0 hh1]; omega)
    have h0' : (index? wq.items wq.head).bind lastUsedTime? = some w0.lastUsedTime := by
      rw [index?_of_nonneg _ _ hh0, h0, List.getElem?_cons_zero]; rfl
    have hemp : wq.isEmpty = false := by rw [h.isEmpty_eq]; simp
    cases hb : Time.Before e w0.lastUsedTime with
    | true =>
      refine ⟨0, Nat.zero_le _, ?_⟩
      unfold fifoQueue.indexExpired
      simp only [hemp, Bool.false_eq_true, if_false, h0', hb, if_true]
    | false =>
      obtain ⟨k, hkm, hsearch⟩ := BinarySearch_bounded (w0 :: t) e
        (fun i => ((index? wq.items (Int.tmod (wq.head + i) (wq.items.length : Int))).bind
          lastUsedTime?).map (fun t => Time.Before e t))
        (fun i hi => by
          have hwi := wrap_emod wq.head i wq.size hh0 hh1 (by omega) (by omega)
          have hmod : Int.tmod (wq.head + (i : Int)) (wq.items.length : Int) =
              (wq.head + (i : Int)) % wq.size := by
            rw [hlen]; exact Int.tmod_eq_emod (by omega) (by omega)
          simp only [hmod]
          rw [index?_of_nonneg _ _ (by omega), h.slot i hi]
          cases (w0 :: t)[i]? <;> rfl)
      rw [← h.len_eq] at hsearch
      refine ⟨k, hkm, ?_⟩
      unfold fifoQueue.indexExpired
      simp only [hemp, Bool.false_eq_true, if_false, h0', hb, hsearch]
      by_cases hk0 : k = 0
      · simp [hk0]
      · have hk0' : ¬ (k : Int) = 0 := by omega
        have hmod : Int.tmod (wq.head + ((k : Int) - 1)) (wq.items.length : Int) =
            (wq.head + ((k : Int) - 1)) % wq.size := by
          rw [hlen]; exact Int.tmod_eq_emod (by omega) (by omega)
        simp only [hk0, hk0', if_false, hmod]

/-- The method `refresh` keeps a well-formed ring well formed, whatever the order of its
workers. -/
theorem fifoQueue.Holds.refresh_holds {wq : fifoQueue} {ws : List Worker} (h : wq.Holds ws)
    (now d : Int) :
    ∃ r wq' ws', wq.refresh now d = some (r, wq') ∧ wq'.Holds ws' := by
  obtain ⟨k, hkm, hi⟩ := h.indexExpired_bounded (Time.Add now (-d))
  by_cases hk0 : k = 0
  · refine ⟨[], wq, ws, ?_, h⟩
    unfold fifoQueue.refresh
    simp only [hi, hk0, if_true]
  · rw [if_neg hk0] at hi
    obtain ⟨wq', h1, h2, -, -⟩ := h.refresh_of_index now d k (by omega) hkm hi
    exact ⟨_, wq', _, h1, h2⟩

/-- Every reachable ring is well formed. -/
theorem fifoQueue.Reachable.holds {wq : fifoQueue} (hr : wq.Reachable) :
    ∃ ws, wq.Holds ws := by
  induction hr with
  | new size wq hnew =>
    by_cases hs : 0 < size
    · obtain ⟨wq0, h0, hh, -⟩ := newFIFOQueue_holds size hs
      rw [hnew] at h0
      cases h0
      exact ⟨[], hh⟩
    · simp [newFIFOQueue, not_lt.mp hs] at hnew
  | insert wq wq' w r _ hins ih =>
    obtain ⟨ws, h⟩ := ih
    by_cases hlt : (ws.length : Int) < wq.size
    · obtain ⟨wq1, h1, hh, -⟩ := h.insert_ok w hlt
      rw [hins] at h1
      cases h1
      exact ⟨_, hh⟩
    · have hfull := h.insert_full w (by have := h.length_le; omega)
      rw [hins] at hfull
      cases hfull
      exact ⟨ws, h⟩
  | detach wq wq' r _ hdet ih =>
    obtain ⟨ws, h⟩ := ih
    cases ws with
    | nil =>
      have h1 := h.detach_nil
      rw [hdet] at h1
      cases h1
      exact ⟨[], h⟩
    | cons w t =>
      obtain ⟨wq1, h1, hh, -⟩ := h.detach_cons
      rw [hdet] at h1
      cases h1
      exact ⟨t, hh⟩
  | refresh wq wq' now d r _ href ih =>
    obtain ⟨ws, h⟩ := ih
    obtain ⟨r1, wq1, ws1, h1, hh⟩ := h.refresh_holds now d
    rw [href] at h1
    cases h1
    exact ⟨ws1, hh⟩

/-- A ring that holds some list of workers holds the workers read off it. -/
theorem fifoQueue.Holds.wellFormed {wq : fifoQueue} {ws : List Worker} (h : wq.Holds ws) :
    wq.WellFormed := by
  unfold fifoQueue.WellFormed
  rw [h.workers_eq]
  exact h

/-- Every reachable ring is well formed. -/
theorem fifoQueue.Reachable.toWellFormed {wq : fifoQueue} (hr : wq.Reachable) : wq.WellFormed := by
  obtain ⟨ws, h⟩ := hr.holds
  exact h.wellFormed

theorem expired_eq_decide (now d : Int) :
    expired now d = fun w => decide (w.lastUsedTime ≤ now - d) := by
  funext w
  rw [Bool.eq_iff_iff, expired_iff]
  simp [Worker.lastUsedTime]

theorem not_expired_eq_decide (now d : Int) :
    (fun w => !expired now d w) = fun w => decide (now - d < w.lastUsedTime) := by
  funext w
  rw [Bool.eq_iff_iff]
  simp only [Bool.not_eq_true', ← Bool.not_eq_true, expired_iff, decide_eq_true_eq,
    Worker.lastUsedTime]
  omega

/-! ## Claims -/

/-- On mathematical integers, for every range `[l, r]` with `l ≤ r + 1` and every predicate `f`
that is monotone on `[l, r]`, the search returns (every amount of fuel from `r + 1 - l` on gives
the same result `k`) and `k` is the smallest index of `[l, r]` where `f` is true: `f` is false
on `[l, k)` and true at `k` when `k ≤ r`; when `f` is true nowhere in `[l, r]`, `k = r + 1`. -/
theorem BinarySearch_smallest_true_index (l r : Int) (f : Int → Bool) (hlr : l ≤ r + 1)
    (hmono : ∀ i, l ≤ i → i < r → f i = true → f (i + 1) = true) :
    ∃ k, BinarySearch l r (fun i => some (f i)) = some k ∧
      (∀ fuel, (r + 1 - l).toNat ≤ fuel →
        BinarySearch.loop (fun i => some (f i)) fuel l r = some k) ∧
      l ≤ k ∧ k ≤ r + 1 ∧
      (∀ i, l ≤ i → i < k → f i = false) ∧
      (k ≤ r → f k = true) ∧
      ((∀ i, l ≤ i → i ≤ r → f i = false) → k = r + 1) := by
  obtain ⟨k, hk, hlk, hkr, hlow, hhigh⟩ :=
    BinarySearch_spec (fun i => some (f i)) f l r (fun _ _ _ => rfl) hlr hmono
  refine ⟨k, hk, ?_, hlk, hkr, hlow, fun h => hhigh k (le_refl _) h, ?_⟩
  · intro fuel hfuel
    obtain ⟨k', hk', hlk', hkr', hlow', hhigh'⟩ :=
      BinarySearch.loop_spec (fun i => some (f i)) f l r (fun _ _ _ => rfl) hlr hmono fuel hfuel
    rw [hk']
    congr 1
    by_contra hne
    rcases lt_or_gt_of_ne hne with hlt | hgt
    · have h1 := hhigh' k' (le_refl _) (by omega)
      have h2 := hlow k' (by omega) hlt
      rw [h1] at h2
      exact Bool.noConfusion h2
    · have h1 := hhigh k (le_refl _) (by omega)
      have h2 := hlow' k hlk hgt
      rw [h1] at h2
      exact Bool.noConfusion h2
  · intro hall
    by_contra hne
    have h1 := hhigh k (le_refl _) (by omega)
    rw [hall k hlk (by omega)] at h1
    exact Bool.noConfusion h1

/-- What the code of `BinarySearch` does satisfy: for every range `[l, r]` with `l ≤ r + 1` that
lies strictly inside the 64-bit integers and is less than `2^63` wide, and every predicate `f`
that is monotone on `[l, r]`, the loop of Go returns, with every amount of fuel from `r + 1 - l`
on, the smallest index `k` of `[l, r]` where `f` is true, and `r + 1` when there is none. -/
theorem BinarySearch_in_range_smallest_true_index (l r : Int) (f : Int → Bool)
    (hl : -2 ^ 63 < l) (hr : r < 2 ^ 63 - 1) (hlr : l ≤ r + 1) (hw : r - l < 2 ^ 63)
    (hmono : ∀ i, l ≤ i → i < r → f i = true → f (i + 1) = true) :
    ∃ k, (∀ fuel, (r + 1 - l).toNat ≤ fuel →
        BinarySearch.loopInt64 (fun i => some (f i)) fuel l r = some k) ∧
      l ≤ k ∧ k ≤ r + 1 ∧
      (∀ i, l ≤ i → i < k → f i = false) ∧
      (k ≤ r → f k = true) ∧
      ((∀ i, l ≤ i → i ≤ r → f i = false) → k = r + 1) := by
  obtain ⟨k, -, hfuel, hlk, hkr, hlow, hhigh, hnone⟩ :=
    BinarySearch_smallest_true_index l r f hlr hmono
  refine ⟨k, ?_, hlk, hkr, hlow, hhigh, hnone⟩
  intro fuel hf
  rw [BinarySearch.loopInt64_eq_loop _ fuel l r hl hr hlr hw]
  exact hfuel fuel hf

/-- C1 fails on the code: Go's `int` has 64 bits and its arithmetic wraps around. On the range
`[-2^62, 2^62]` (so `l ≤ r + 1`) with the monotone predicate `0 ≤ i`, whose smallest true index
is 0, the subtraction `r - l` wraps around, the first probe is `-2^63`, outside the range, and the
loop never returns, whatever the number of iterations it is given. On mathematical integers the
same search returns 0. -/
theorem BinarySearch_wide_range_never_returns :
    (∀ i : Int, decide (0 ≤ i) = true → decide (0 ≤ i + 1) = true) ∧
    int64 (-2 ^ 62 + (int64 (2 ^ 62 - -2 ^ 62)) >>> (1 : Nat)) = -2 ^ 63 ∧
    (∀ fuel : Nat,
      BinarySearch.loopInt64 (fun i => some (decide (0 ≤ i))) fuel (-2 ^ 62) (2 ^ 62) = none) ∧
    BinarySearch (-2 ^ 62) (2 ^ 62) (fun i => some (decide (0 ≤ i))) = some 0 := by
  have hprobe : int64 (-2 ^ 62 + (int64 (2 ^ 62 - -2 ^ 62)) >>> (1 : Nat)) = -2 ^ 63 := by
    decide
  refine ⟨?_, hprobe, ?_, ?_⟩
  · intro i h
    simp only [decide_eq_true_eq] at h ⊢
    omega
  · intro fuel
    cases fuel with
    | zero =>
      unfold BinarySearch.loopInt64
      rw [if_pos (by norm_num)]
    | succ n =>
      have hnext : int64 (-2 ^ 63 + 1) = -2 ^ 63 + 1 := by decide
      have hneg : ¬ (0 : Int) ≤ -2 ^ 63 := by norm_num
      unfold BinarySearch.loopInt64
      rw [if_pos (by norm_num)]
      simp only [hprobe, decide_eq_false hneg, hnext]
      exact BinarySearch.loopInt64_stuck n (2 ^ 62) (le_refl _) (by norm_num)
  · obtain ⟨k, hk, hlk, hkr, hlow, hhigh⟩ :=
      BinarySearch_spec (fun i => some (decide (0 ≤ i))) (fun i => decide (0 ≤ i))
        (-2 ^ 62) (2 ^ 62) (fun _ _ _ => rfl) (by norm_num)
        (fun i _ _ h => by
          simp only [decide_eq_true_eq] at h ⊢
          omega)
    have h0 : k = 0 := by
      by_contra hne
      rcases lt_or_gt_of_ne hne with hlt | hgt
      · have h1 := hhigh k (le_refl _) (by omega)
        simp only [decide_eq_true_eq] at h1
        omega
      · have h1 := hlow 0 (by norm_num) hgt
        simp at h1
    rw [hk, h0]

/-- C2 (expiry completeness): for a LIFO stack whose workers are in ascending order of
`lastUsedTime`, and for a well-formed FIFO ring whose workers are, `refresh(d)` evaluated at
time `t` returns, and afterwards no worker with `lastUsedTime < t - d` is left in the queue. -/
theorem refresh_expiry_completeness (ws : lifoQueue) (wq : fifoQueue) (t d : Int)
    (hlifo : Ordered ws.items) (hwf : wq.WellFormed) (hfifo : Ordered wq.workers) :
    (∃ out ws', ws.refresh t d = some (out, ws') ∧
      ∀ w ∈ ws'.items, ¬ w.lastUsedTime < t - d) ∧
    (∃ out wq', wq.refresh t d = some (out, wq') ∧
      ∀ w ∈ wq'.workers, ¬ w.lastUsedTime < t - d) := by
  have key : ∀ (l : List Worker) (w : Worker),
      w ∈ l.drop (l.filter (expired t d)).length → Ordered l → ¬ w.lastUsedTime < t - d := by
    intro l w hw ho
    rw [← (ho.filter_expired t d).2, List.mem_filter] at hw
    have hne : ¬ expired t d w = true := by simpa using hw.2
    rw [expired_iff] at hne
    simp only [Worker.lastUsedTime]
    omega
  constructor
  · rw [ws.refresh_ordered t d hlifo]
    by_cases hk : (ws.items.filter (expired t d)).length = 0
    · refine ⟨_, _, by rw [if_pos hk], ?_⟩
      intro w hw
      exact key ws.items w (by rw [hk]; exact hw) hlifo
    · refine ⟨_, _, by rw [if_neg hk], ?_⟩
      intro w hw
      exact key ws.items w hw hlifo
  · obtain ⟨wq', h1, h2, -, -, -⟩ := fifoQueue.Holds.refresh_eq hwf hfifo t d
    refine ⟨_, wq', h1, ?_⟩
    intro w hw
    rw [h2.workers_eq] at hw
    exact key wq.workers w hw hfifo

/-- A well-formed ring of size 2 whose two workers wrap around the end of the buffer. -/
theorem wrappedRing_holds :
    fifoQueue.Holds
      { items := [some ⟨2, 9⟩, some ⟨1, 1⟩], expiry := [], head := 1, tail := 1, size := 2,
        isFull := true }
      [⟨1, 1⟩, ⟨2, 9⟩] := by
  refine ⟨by decide, by decide, by decide, by decide, by decide, by decide, by decide, ?_⟩
  intro i hi
  have : i = 0 ∨ i = 1 := by simp at hi; omega
  rcases this with rfl | rfl <;> rfl

/-- C2 on the stack `[1, 8]` and on a full ring of size 2 whose workers `[1, 9]` wrap around,
at time 10 for the span 5. -/
theorem refresh_expiry_completeness_witness :
    (∃ out ws', (lifoQueue.mk [⟨1, 1⟩, ⟨2, 8⟩] []).refresh 10 5 = some (out, ws') ∧
      ∀ w ∈ ws'.items, ¬ w.lastUsedTime < 10 - 5) ∧
    (∃ out wq', (fifoQueue.mk [some ⟨2, 9⟩, some ⟨1, 1⟩] [] 1 1 2 true).refresh 10 5 =
        some (out, wq') ∧
      ∀ w ∈ wq'.workers, ¬ w.lastUsedTime < 10 - 5) :=
  refresh_expiry_completeness (lifoQueue.mk [⟨1, 1⟩, ⟨2, 8⟩] [])
    (fifoQueue.mk [some ⟨2, 9⟩, some ⟨1, 1⟩] [] 1 1 2 true) 10 5
    (by unfold Ordered; decide) wrappedRing_holds.wellFormed
    (by rw [wrappedRing_holds.workers_eq]; unfold Ordered; decide)

/-- C3 as stated fails: at time 10 for the span 5, a worker last used at exactly `10 - 5` is
extracted by `refresh`, from a LIFO stack and from a FIFO ring alike, although its
`lastUsedTime` is not earlier than `now - d`. -/
theorem refresh_extracts_worker_used_at_expiry :
    ∃ w : Worker, Ordered [w] ∧ ¬ w.lastUsedTime < 10 - 5 ∧
      (lifoQueue.mk [w] []).refresh 10 5 = some ([w], lifoQueue.mk [] [w]) ∧
      (fifoQueue.mk [some w] [] 0 0 1 true).WellFormed ∧
      (fifoQueue.mk [some w] [] 0 0 1 true).refresh 10 5 =
        some ([some w], fifoQueue.mk [none] [some w] 0 0 1 false) := by
  refine ⟨⟨7, 5⟩, by unfold Ordered; decide, by decide, by decide, ?_, by decide⟩
  have h : fifoQueue.Holds (fifoQueue.mk [some ⟨7, 5⟩] [] 0 0 1 true) [⟨7, 5⟩] := by
    refine ⟨by decide, by decide, by decide, by decide, by decide, by decide, by decide, ?_⟩
    intro i hi
    have : i = 0 := by simp at hi; omega
    subst this
    rfl
  exact h.wellFormed

/-- C3, amended: for a LIFO stack whose workers are in ascending order of `lastUsedTime`, and
for a well-formed FIFO ring whose workers are, `refresh(d)` evaluated at time `now` extracts
exactly the workers with `lastUsedTime ≤ now - d`, in their order, and keeps exactly the workers
with `now - d < lastUsedTime`, in their order. -/
theorem refresh_extracts_exactly_not_after_expiry (ws : lifoQueue) (wq : fifoQueue)
    (now d : Int) (hlifo : Ordered ws.items) (hwf : wq.WellFormed)
    (hfifo : Ordered wq.workers) :
    (∃ ws', ws.refresh now d =
        some (ws.items.filter (fun w => decide (w.lastUsedTime ≤ now - d)), ws') ∧
      ws'.items = ws.items.filter (fun w => decide (now - d < w.lastUsedTime))) ∧
    (∃ wq', wq.refresh now d =
        some ((wq.workers.filter (fun w => decide (w.lastUsedTime ≤ now - d))).map some, wq') ∧
      wq'.workers = wq.workers.filter (fun w => decide (now - d < w.lastUsedTime))) := by
  rw [← expired_eq_decide, ← not_expired_eq_decide]
  constructor
  · have hf := hlifo.filter_expired now d
    rw [ws.refresh_ordered now d hlifo]
    by_cases hk : (ws.items.filter (expired now d)).length = 0
    · refine ⟨ws, ?_, ?_⟩
      · rw [if_pos hk, List.length_eq_zero.mp hk]
      · rw [hf.2, hk]; rfl
    · refine ⟨{ items := ws.items.drop (ws.items.filter (expired now d)).length,
                expiry := ws.items.take (ws.items.filter (expired now d)).length }, ?_, ?_⟩
      · rw [if_neg hk, ← hf.1]
      · exact hf.2.symm
  · have hf := hfifo.filter_expired now d
    obtain ⟨wq', h1, h2, -, -, -⟩ := fifoQueue.Holds.refresh_eq hwf hfifo now d
    refine ⟨wq', ?_, ?_⟩
    · rw [h1, ← hf.1]
    · rw [h2.workers_eq, hf.2]

/-- C3, amended, on the stack `[1, 5, 8]` and on a full ring of size 2 whose workers `[1, 9]`
wrap around, at time 10 for the span 5. -/
theorem refresh_extracts_exactly_not_after_expiry_witness :
    (∃ ws', (lifoQueue.mk [⟨1, 1⟩, ⟨2, 5⟩, ⟨3, 8⟩] []).refresh 10 5 =
        some ((lifoQueue.mk [⟨1, 1⟩, ⟨2, 5⟩, ⟨3, 8⟩] []).items.filter
          (fun w => decide (w.lastUsedTime ≤ 10 - 5)), ws') ∧
      ws'.items = (lifoQueue.mk [⟨1, 1⟩, ⟨2, 5⟩, ⟨3, 8⟩] []).items.filter
        (fun w => decide (10 - 5 < w.lastUsedTime))) ∧
    (∃ wq', (fifoQueue.mk [some ⟨2, 9⟩, some ⟨1, 1⟩] [] 1 1 2 true).refresh 10 5 =
        some (((fifoQueue.mk [some ⟨2, 9⟩, some ⟨1, 1⟩] [] 1 1 2 true).workers.filter
          (fun w => decide (w.lastUsedTime ≤ 10 - 5))).map some, wq') ∧
      wq'.workers = (fifoQueue.mk [some ⟨2, 9⟩, some ⟨1, 1⟩] [] 1 1 2 true).workers.filter
        (fun w => decide (10 - 5 < w.lastUsedTime))) :=
  refresh_extracts_exactly_not_after_expiry (lifoQueue.mk [⟨1, 1⟩, ⟨2, 5⟩, ⟨3, 8⟩] [])
    (fifoQueue.mk [some ⟨2, 9⟩, some ⟨1, 1⟩] [] 1 1 2 true) 10 5
    (by unfold Ordered; decide) wrappedRing_holds.wellFormed
    (by rw [wrappedRing_holds.workers_eq]; unfold Ordered; decide)

theorem expiredCount_eq (now d : Int) (ws : List Worker) :
    expiredCount now d ws = (ws.filter (expired now d)).length := by
  unfold expiredCount
  rw [expired_eq_decide]

/-- C4: in every state of a FIFO ring reachable from `newFIFOQueue(size)` by `insert`, `detach`
and `refresh` whose workers are in ascending order of `lastUsedTime`, if `k` workers are expired
(`lastUsedTime ≤ now - d`) then `refresh` returns exactly the first `k` workers of the logical
order, oldest first, whether or not the segment wraps around the end of the buffer; afterwards
the ring holds the remaining `len - k` workers in their logical order, `isFull` is cleared
whenever `k > 0`, and nothing changes when `k = 0`. -/
theorem fifoQueue_refresh_returns_expired_prefix (wq : fifoQueue) (now d : Int)
    (hr : wq.Reachable) (ho : Ordered wq.workers) :
    ∃ wq', wq.refresh now d =
        some ((wq.workers.take (expiredCount now d wq.workers)).map some, wq') ∧
      wq'.workers = wq.workers.drop (expiredCount now d wq.workers) ∧
      wq'.len = wq.len - expiredCount now d wq.workers ∧
      (0 < expiredCount now d wq.workers → wq'.isFull = false) ∧
      (expiredCount now d wq.workers = 0 → wq' = wq) := by
  rw [expiredCount_eq]
  have hwf := hr.toWellFormed
  obtain ⟨wq', h1, h2, -, h3, h4⟩ := fifoQueue.Holds.refresh_eq hwf ho now d
  have hle : (wq.workers.filter (expired now d)).length ≤ wq.workers.length :=
    List.length_filter_le _ _
  refine ⟨wq', h1, h2.workers_eq, ?_, h4, h3⟩
  rw [h2.len_eq, fifoQueue.Holds.len_eq hwf, List.length_drop]
  omega

/-- The full ring of size 2 whose workers wrap around is reached by two inserts, a detach and a
third insert. -/
theorem wrappedRing_reachable :
    fifoQueue.Reachable (fifoQueue.mk [some ⟨2, 9⟩, some ⟨1, 1⟩] [] 1 1 2 true) :=
  fifoQueue.Reachable.insert (fifoQueue.mk [none, some ⟨1, 1⟩] [] 1 0 2 false) _ ⟨2, 9⟩ none
    (fifoQueue.Reachable.detach (fifoQueue.mk [some ⟨0, 1⟩, some ⟨1, 1⟩] [] 0 0 2 true) _
      (some ⟨0, 1⟩)
      (fifoQueue.Reachable.insert (fifoQueue.mk [some ⟨0, 1⟩, none] [] 0 1 2 false) _ ⟨1, 1⟩ none
        (fifoQueue.Reachable.insert (fifoQueue.mk [none, none] [] 0 0 2 false) _ ⟨0, 1⟩ none
          (fifoQueue.Reachable.new 2 _ (by decide)) (by decide))
        (by decide))
      (by decide))
    (by decide)

/-- C4 on the full ring of size 2 whose workers `[1, 9]` wrap around, at time 20 for the span 5:
both workers are expired and the expired segment wraps past the end of the buffer. -/
theorem fifoQueue_refresh_returns_expired_prefix_witness :
    ∃ wq', (fifoQueue.mk [some ⟨2, 9⟩, some ⟨1, 1⟩] [] 1 1 2 true).refresh 20 5 =
        some (((fifoQueue.mk [some ⟨2, 9⟩, some ⟨1, 1⟩] [] 1 1 2 true).workers.take
          (expiredCount 20 5
            (fifoQueue.mk [some ⟨2, 9⟩, some ⟨1, 1⟩] [] 1 1 2 true).workers)).map some, wq') ∧
      wq'.workers = (fifoQueue.mk [some ⟨2, 9⟩, some ⟨1, 1⟩] [] 1 1 2 true).workers.drop
        (expiredCount 20 5 (fifoQueue.mk [some ⟨2, 9⟩, some ⟨1, 1⟩] [] 1 1 2 true).workers) ∧
      wq'.len = (fifoQueue.mk [some ⟨2, 9⟩, some ⟨1, 1⟩] [] 1 1 2 true).len -
        expiredCount 20 5 (fifoQueue.mk [some ⟨2, 9⟩, some ⟨1, 1⟩] [] 1 1 2 true).workers ∧
      (0 < expiredCount 20 5 (fifoQueue.mk [some ⟨2, 9⟩, some ⟨1, 1⟩] [] 1 1 2 true).workers →
        wq'.isFull = false) ∧
      (expiredCount 20 5 (fifoQueue.mk [some ⟨2, 9⟩, some ⟨1, 1⟩] [] 1 1 2 true).workers = 0 →
        wq' = fifoQueue.mk [some ⟨2, 9⟩, some ⟨1, 1⟩] [] 1 1 2 true) :=
  fifoQueue_refresh_returns_expired_prefix
    (fifoQueue.mk [some ⟨2, 9⟩, some ⟨1, 1⟩] [] 1 1 2 true) 20 5 wrappedRing_reachable
    (by rw [wrappedRing_holds.workers_eq]; unfold Ordered; decide)

/-- C5: for every LIFO stack whose workers are in ascending order of `lastUsedTime`, if `k`
workers are expired (`lastUsedTime ≤ now - d`) then `refresh` returns `items[0..k)` in index
order and leaves the stack equal to the former suffix `items[k..n)` in unchanged order, with
`len() = n - k`; when `k = 0` it returns an empty result and leaves the stack unchanged. -/
theorem lifoQueue_refresh_returns_expired_prefix (ws : lifoQueue) (now d : Int)
    (ho : Ordered ws.items) :
    ∃ ws', ws.refresh now d = some (ws.items.take (expiredCount now d ws.items), ws') ∧
      ws'.items = ws.items.drop (expiredCount now d ws.items) ∧
      ws'.len = ws.len - expiredCount now d ws.items ∧
      (expiredCount now d ws.items = 0 → ws.refresh now d = some ([], ws)) := by
  rw [expiredCount_eq, ws.refresh_ordered now d ho]
  have hle : (ws.items.filter (expired now d)).length ≤ ws.items.length :=
    List.length_filter_le _ _
  by_cases hk : (ws.items.filter (expired now d)).length = 0
  · refine ⟨ws, ?_, ?_, ?_, fun _ => by rw [if_pos hk]⟩
    · rw [if_pos hk, hk]; rfl
    · rw [hk]; rfl
    · rw [hk]; simp
  · refine ⟨{ items := ws.items.drop (ws.items.filter (expired now d)).length,
              expiry := ws.items.take (ws.items.filter (expired now d)).length },
      ?_, rfl, ?_, fun h => absurd h hk⟩
    · rw [if_neg hk]
    · simp only [lifoQueue.len, List.length_drop]
      omega

/-- C5 on the stack `[1, 5, 8]` at time 10 for the span 5. -/
theorem lifoQueue_refresh_returns_expired_prefix_witness :
    ∃ ws', (lifoQueue.mk [⟨1, 1⟩, ⟨2, 5⟩, ⟨3, 8⟩] []).refresh 10 5 =
        some ((lifoQueue.mk [⟨1, 1⟩, ⟨2, 5⟩, ⟨3, 8⟩] []).items.take
          (expiredCount 10 5 (lifoQueue.mk [⟨1, 1⟩, ⟨2, 5⟩, ⟨3, 8⟩] []).items), ws') ∧
      ws'.items = (lifoQueue.mk [⟨1, 1⟩, ⟨2, 5⟩, ⟨3, 8⟩] []).items.drop
        (expiredCount 10 5 (lifoQueue.mk [⟨1, 1⟩, ⟨2, 5⟩, ⟨3, 8⟩] []).items) ∧
      ws'.len = (lifoQueue.mk [⟨1, 1⟩, ⟨2, 5⟩, ⟨3, 8⟩] []).len -
        expiredCount 10 5 (lifoQueue.mk [⟨1, 1⟩, ⟨2, 5⟩, ⟨3, 8⟩] []).items ∧
      (expiredCount 10 5 (lifoQueue.mk [⟨1, 1⟩, ⟨2, 5⟩, ⟨3, 8⟩] []).items = 0 →
        (lifoQueue.mk [⟨1, 1⟩, ⟨2, 5⟩, ⟨3, 8⟩] []).refresh 10 5 =
          some ([], lifoQueue.mk [⟨1, 1⟩, ⟨2, 5⟩, ⟨3, 8⟩] [])) :=
  lifoQueue_refresh_returns_expired_prefix (lifoQueue.mk [⟨1, 1⟩, ⟨2, 5⟩, ⟨3, 8⟩] []) 10 5
    (by unfold Ordered; decide)

/-- C6: `insert(w)` appends `w` at the logical tail and increases `len()` by 1 without disturbing
the workers already queued. On a LIFO stack it never fails. On a well-formed FIFO ring of
capacity `size` it fails with `ErrQueueIsFull` exactly when the ring already holds `size`
workers, and then leaves the ring unchanged. -/
theorem insert_appends_at_logical_tail (ws : lifoQueue) (wq : fifoQueue) (w : Worker)
    (hwf : wq.WellFormed) :
    ((ws.insert w).1 = none ∧ (ws.insert w).2.items = ws.items ++ [w] ∧
      (ws.insert w).2.len = ws.len + 1) ∧
    (∃ r wq', wq.insert w = some (r, wq') ∧
      (r = some PoolError.ErrQueueIsFull ↔ wq.len = wq.size) ∧
      (wq.len = wq.size → wq' = wq) ∧
      (wq.len ≠ wq.size →
        r = none ∧ wq'.workers = wq.workers ++ [w] ∧ wq'.len = wq.len + 1 ∧
        wq'.size = wq.size)) := by
  constructor
  · refine ⟨rfl, rfl, ?_⟩
    simp [lifoQueue.insert, lifoQueue.len]
  · have hlen := fifoQueue.Holds.len_eq hwf
    have hle := fifoQueue.Holds.length_le hwf
    by_cases hfull : (wq.workers.length : Int) = wq.size
    · refine ⟨_, wq, fifoQueue.Holds.insert_full hwf w hfull, ?_, fun _ => rfl, ?_⟩
      · rw [hlen]; exact ⟨fun _ => hfull, fun _ => rfl⟩
      · intro hne; rw [hlen] at hne; exact absurd hfull hne
    · obtain ⟨wq', h1, h2, h3⟩ := fifoQueue.Holds.insert_ok hwf w (by omega)
      refine ⟨none, wq', h1, ?_, ?_, ?_⟩
      · rw [hlen]
        exact ⟨fun h => Option.noConfusion h, fun h => absurd h hfull⟩
      · intro h; rw [hlen] at h; exact absurd h hfull
      · intro _
        refine ⟨rfl, h2.workers_eq, ?_, h3⟩
        rw [h2.len_eq, hlen, List.length_append, List.length_singleton]
        push_cast
        rfl

/-- C6 on the stack `[1]` and on the ring of size 2 that holds one worker. -/
theorem insert_appends_at_logical_tail_witness :
    (((lifoQueue.mk [⟨0, 1⟩] []).insert ⟨5, 7⟩).1 = none ∧
      ((lifoQueue.mk [⟨0, 1⟩] []).insert ⟨5, 7⟩).2.items =
        (lifoQueue.mk [⟨0, 1⟩] []).items ++ [⟨5, 7⟩] ∧
      ((lifoQueue.mk [⟨0, 1⟩] []).insert ⟨5, 7⟩).2.len = (lifoQueue.mk [⟨0, 1⟩] []).len + 1) ∧
    (∃ r wq', (fifoQueue.mk [none, some ⟨1, 1⟩] [] 1 0 2 false).insert ⟨5, 7⟩ = some (r, wq') ∧
      (r = some PoolError.ErrQueueIsFull ↔
        (fifoQueue.mk [none, some ⟨1, 1⟩] [] 1 0 2 false).len =
          (fifoQueue.mk [none, some ⟨1, 1⟩] [] 1 0 2 false).size) ∧
      ((fifoQueue.mk [none, some ⟨1, 1⟩] [] 1 0 2 false).len =
          (fifoQueue.mk [none, some ⟨1, 1⟩] [] 1 0 2 false).size →
        wq' = fifoQueue.mk [none, some ⟨1, 1⟩] [] 1 0 2 false) ∧
      ((fifoQueue.mk [none, some ⟨1, 1⟩] [] 1 0 2 false).len ≠
          (fifoQueue.mk [none, some ⟨1, 1⟩] [] 1 0 2 false).size →
        r = none ∧
        wq'.workers = (fifoQueue.mk [none, some ⟨1, 1⟩] [] 1 0 2 false).workers ++ [⟨5, 7⟩] ∧
        wq'.len = (fifoQueue.mk [none, some ⟨1, 1⟩] [] 1 0 2 false).len + 1 ∧
        wq'.size = (fifoQueue.mk [none, some ⟨1, 1⟩] [] 1 0 2 false).size)) :=
  insert_appends_at_logical_tail (lifoQueue.mk [⟨0, 1⟩] [])
    (fifoQueue.mk [none, some ⟨1, 1⟩] [] 1 0 2 false) ⟨5, 7⟩
    (fifoQueue.Reachable.toWellFormed
      (fifoQueue.Reachable.detach (fifoQueue.mk [some ⟨0, 1⟩, some ⟨1, 1⟩] [] 0 0 2 true) _
        (some ⟨0, 1⟩)
        (fifoQueue.Reachable.insert (fifoQueue.mk [some ⟨0, 1⟩, none] [] 0 1 2 false) _ ⟨1, 1⟩
          none
          (fifoQueue.Reachable.insert (fifoQueue.mk [none, none] [] 0 0 2 false) _ ⟨0, 1⟩ none
            (fifoQueue.Reachable.new 2 _ (by decide)) (by decide))
          (by decide))
        (by decide)))

/-- C7: `detach()` returns nil exactly when the queue is empty and then changes nothing;
otherwise it removes and returns exactly one worker, keeping the others in their order and
decreasing `len()` by 1: the last (most recently inserted) worker of a LIFO stack, the head
(oldest remaining) worker of a well-formed FIFO ring, which therefore hands its workers out in
the order of their insertion. -/
theorem detach_removes_one_worker (ws : lifoQueue) (wq : fifoQueue) (hwf : wq.WellFormed) :
    ((ws.detach.1 = none ↔ ws.len = 0) ∧ (ws.len = 0 → ws.detach = (none, ws)) ∧
      (∀ init w, ws.items = init ++ [w] →
        ws.detach.1 = some w ∧ ws.detach.2.items = init ∧ ws.detach.2.len = ws.len - 1)) ∧
    (∃ r wq', wq.detach = some (r, wq') ∧ (r = none ↔ wq.len = 0) ∧
      (wq.len = 0 → wq' = wq) ∧
      (∀ w rest, wq.workers = w :: rest →
        r = some w ∧ wq'.workers = rest ∧ wq'.len = wq.len - 1)) := by
  constructor
  · have hlast : ∀ init w, ws.items = init ++ [w] →
        ws.detach.1 = some w ∧ ws.detach.2.items = init ∧ ws.detach.2.len = ws.len - 1 := by
      intro init w hi
      have hl : (ws.items.length : Int) = init.length + 1 := by rw [hi]; simp
      have hne : ¬ (ws.items.length : Int) = 0 := by omega
      have e : (ws.items.length : Int) - 1 = (init.length : Int) := by omega
      simp only [lifoQueue.detach, lifoQueue.len, hne, if_false, e, index?_natCast,
        Int.toNat_ofNat]
      rw [hi]
      simp
    refine ⟨?_, ?_, hlast⟩
    · constructor
      · intro h
        by_contra hne
        have hnil : ws.items ≠ [] := by
          intro h0; apply hne; simp [lifoQueue.len, h0]
        obtain ⟨init, w, hiw⟩ := (List.eq_nil_or_concat ws.items).resolve_left hnil
        rw [List.concat_eq_append] at hiw
        rw [(hlast init w hiw).1] at h
        exact Option.noConfusion h
      · intro h
        simp only [lifoQueue.detach, h, if_true]
    · intro h
      simp only [lifoQueue.detach, h, if_true]
  · have hlen := fifoQueue.Holds.len_eq hwf
    cases hws : wq.workers with
    | nil =>
      rw [hws] at hlen
      have h0 : wq.Holds [] := by rw [← hws]; exact hwf
      refine ⟨none, wq, h0.detach_nil, ⟨fun _ => by rw [hlen]; rfl, fun _ => rfl⟩,
        fun _ => rfl, ?_⟩
      intro w rest h
      exact List.noConfusion h
    | cons w0 rest0 =>
      rw [hws] at hlen
      have h0 : wq.Holds (w0 :: rest0) := by rw [← hws]; exact hwf
      obtain ⟨wq', h1, h2, -⟩ := h0.detach_cons
      have hne : ¬ wq.len = 0 := by rw [hlen]; simp; omega
      refine ⟨some w0, wq', h1, ⟨fun h => Option.noConfusion h, fun h => absurd h hne⟩,
        fun h => absurd h hne, ?_⟩
      intro w rest h
      cases h
      refine ⟨rfl, h2.workers_eq, ?_⟩
      rw [h2.len_eq, hlen]
      simp

/-- C7 on the stack `[1, 8]` and on the full ring of size 2 whose workers `[1, 9]` wrap
around. -/
theorem detach_removes_one_worker_witness :
    (((lifoQueue.mk [⟨1, 1⟩, ⟨2, 8⟩] []).detach.1 = none ↔
        (lifoQueue.mk [⟨1, 1⟩, ⟨2, 8⟩] []).len = 0) ∧
      ((lifoQueue.mk [⟨1, 1⟩, ⟨2, 8⟩] []).len = 0 →
        (lifoQueue.mk [⟨1, 1⟩, ⟨2, 8⟩] []).detach = (none, lifoQueue.mk [⟨1, 1⟩, ⟨2, 8⟩] [])) ∧
      (∀ init w, (lifoQueue.mk [⟨1, 1⟩, ⟨2, 8⟩] []).items = init ++ [w] →
        (lifoQueue.mk [⟨1, 1⟩, ⟨2, 8⟩] []).detach.1 = some w ∧
        (lifoQueue.mk [⟨1, 1⟩, ⟨2, 8⟩] []).detach.2.items = init ∧
        (lifoQueue.mk [⟨1, 1⟩, ⟨2, 8⟩] []).detach.2.len =
          (lifoQueue.mk [⟨1, 1⟩, ⟨2, 8⟩] []).len - 1)) ∧
    (∃ r wq', (fifoQueue.mk [some ⟨2, 9⟩, some ⟨1, 1⟩] [] 1 1 2 true).detach = some (r, wq') ∧
      (r = none ↔ (fifoQueue.mk [some ⟨2, 9⟩, some ⟨1, 1⟩] [] 1 1 2 true).len = 0) ∧
      ((fifoQueue.mk [some ⟨2, 9⟩, some ⟨1, 1⟩] [] 1 1 2 true).len = 0 →
        wq' = fifoQueue.mk [some ⟨2, 9⟩, some ⟨1, 1⟩] [] 1 1 2 true) ∧
      (∀ w rest, (fifoQueue.mk [some ⟨2, 9⟩, some ⟨1, 1⟩] [] 1 1 2 true).workers = w :: rest →
        r = some w ∧ wq'.workers = rest ∧
        wq'.len = (fifoQueue.mk [some ⟨2, 9⟩, some ⟨1, 1⟩] [] 1 1 2 true).len - 1)) :=
  detach_removes_one_worker (lifoQueue.mk [⟨1, 1⟩, ⟨2, 8⟩] [])
    (fifoQueue.mk [some ⟨2, 9⟩, some ⟨1, 1⟩] [] 1 1 2 true) wrappedRing_holds.wellFormed

/-! ### The pool -/

/-- When nothing runs between the stamping and the insertion of `revertWorker`, the idle queue
stays in ascending order of `lastUsedTime` and no worker in it is stamped later than the cached
clock. -/
theorem poolCommon.revertWorker_keeps_order (p : poolCommon) (worker : Worker)
    (hq : p.workers.WellFormed) (ho : Ordered p.workers.workers)
    (hclock : ∀ w ∈ p.workers.workers, w.lastUsedTime ≤ p.nowTime) :
    ∃ b p', p.revertWorker worker = some (b, p') ∧ p'.workers.WellFormed ∧
      Ordered p'.workers.workers ∧ (∀ w ∈ p'.workers.workers, w.lastUsedTime ≤ p'.nowTime) := by
  have happ : ∀ ws : List Worker, Ordered ws → (∀ w ∈ ws, w.lastUsedTime ≤ p.nowTime) →
      Ordered (ws ++ [worker.setLastUsedTime p.nowTime]) ∧
      ∀ w ∈ ws ++ [worker.setLastUsedTime p.nowTime], w.lastUsedTime ≤ p.nowTime := by
    intro ws hws hcl
    constructor
    · unfold Ordered
      rw [List.pairwise_append]
      refine ⟨hws, List.pairwise_singleton _ _, ?_⟩
      intro a ha b hb
      rw [List.mem_singleton] at hb
      subst hb
      exact hcl a ha
    · intro w hw
      rcases List.mem_append.mp hw with h | h
      · exact hcl w h
      · rw [List.mem_singleton] at h
        subst h
        exact le_refl _
  unfold poolCommon.revertWorker poolCommon.revertWorkerStamp
  split_ifs with hrej
  · exact ⟨false, p, rfl, hq, ho, hclock⟩
  · simp only []
    unfold poolCommon.revertWorkerLocked
    split_ifs with hcl
    · exact ⟨false, p, rfl, hq, ho, hclock⟩
    · cases hw : p.workers with
      | lifo ws =>
        rw [hw] at ho hclock
        have := happ ws.items ho hclock
        exact ⟨true, _, rfl, trivial, this.1, this.2⟩
      | fifo owq =>
        cases owq with
        | none => rw [hw] at hq; exact hq.elim
        | some wq =>
          rw [hw] at hq ho hclock
          have hwf : wq.WellFormed := hq
          have ho' : Ordered wq.workers := ho
          have hclock' : ∀ w ∈ wq.workers, w.lastUsedTime ≤ p.nowTime := hclock
          by_cases hfull : (wq.workers.length : Int) = wq.size
          · have hins := fifoQueue.Holds.insert_full hwf (worker.setLastUsedTime p.nowTime) hfull
            refine ⟨false, { p with workers := Queue.fifo (some wq) }, ?_, hq, ho, hclock⟩
            simp only [Queue.insert, hins, Option.map_some']
          · have hle := fifoQueue.Holds.length_le hwf
            obtain ⟨wq', h1, h2, -⟩ :=
              fifoQueue.Holds.insert_ok hwf (worker.setLastUsedTime p.nowTime) (by omega)
            have := happ wq.workers ho' hclock'
            refine ⟨true, { p with workers := Queue.fifo (some wq') }, ?_, h2.wellFormed, ?_, ?_⟩
            · simp only [Queue.insert, h1, Option.map_some']
            · show Ordered wq'.workers
              rw [h2.workers_eq]; exact this.1
            · show ∀ w ∈ wq'.workers, w.lastUsedTime ≤ p.nowTime
              rw [h2.workers_eq]; exact this.2

/-- C8 fails on the code: `revertWorker` stamps the worker's `lastUsedTime` with the cached clock
before it takes the pool lock and inserts it under the lock afterwards. In the schedule
`staleStampRun` the cached clock never decreases (0, then 500), every call succeeds, and the idle
queue ends up holding the worker stamped 500 before the worker stamped 0, so the queue is not in
ascending order of `lastUsedTime`. -/
theorem revertWorker_stale_stamp_breaks_order :
    staleStampRun.map (fun r => (r.1, r.2.workers.workers, r.2.nowTime)) =
      some (true, [⟨2, 500⟩, ⟨1, 0⟩], 500) ∧
    ¬ Ordered [⟨2, 500⟩, ⟨1, 0⟩] :=
  ⟨by decide, by unfold Ordered; decide⟩

/-- C9: without `PreAlloc`, `NewPool(size)` fails with `ErrInvalidPoolSize` exactly when
`size ≤ 0` and `size ≠ -1`; the size `-1` and every size `≥ 1` are accepted. -/
theorem NewPool_invalid_size (size : Int) (options : List PoolOption) (clock : Int)
    (hpre : (loadOptions options).PreAlloc = false) :
    (NewPool size options clock = Except.error PoolError.ErrInvalidPoolSize ↔
      (size ≤ 0 ∧ size ≠ -1)) ∧
    ((size = -1 ∨ 1 ≤ size) → ∃ p, NewPool size options clock = Except.ok p) := by
  by_cases hs : size ≤ 0 ∧ size ≠ -1
  · refine ⟨⟨fun _ => hs, fun _ => ?_⟩, fun h => ?_⟩
    · simp only [NewPool, newPoolCommon, hs, and_self, if_true]
      simp [hs.1, hs.2]
    · omega
  · refine ⟨⟨fun h => ?_, fun h => absurd h hs⟩, fun _ => ?_⟩
    · simp only [NewPool, newPoolCommon, hs, if_false] at h
      split_ifs at h <;> simp_all
    · simp only [NewPool, newPoolCommon, hs, if_false]
      split_ifs <;> simp_all

/-- C9 at the unbounded size `-1` with the option `WithNonblocking(true)`. -/
theorem NewPool_invalid_size_witness :
    (NewPool (-1) [WithNonblocking true] 0 = Except.error PoolError.ErrInvalidPoolSize ↔
      ((-1 : Int) ≤ 0 ∧ (-1 : Int) ≠ -1)) ∧
    (((-1 : Int) = -1 ∨ 1 ≤ (-1 : Int)) →
      ∃ p, NewPool (-1) [WithNonblocking true] 0 = Except.ok p) :=
  NewPool_invalid_size (-1) [WithNonblocking true] 0 (by decide)

/-- C10 fails on the code: with `WithPreAlloc(true)` and the unbounded size `-1`,
`newPoolCommon` rejects the construction with `ErrInvalidPreAllocSize`, but `NewPool` replaces
every error of `newPoolCommon` by `ErrInvalidPoolSize`, which is the error it surfaces. -/
theorem NewPool_prealloc_unbounded_error :
    newPoolCommon (-1) [WithPreAlloc true] 0 = Except.error PoolError.ErrInvalidPreAllocSize ∧
    NewPool (-1) [WithPreAlloc true] 0 = Except.error PoolError.ErrInvalidPoolSize ∧
    NewPool (-1) [WithPreAlloc true] 0 ≠ Except.error PoolError.ErrInvalidPreAllocSize :=
  ⟨rfl, rfl, fun h => by
    have e : NewPool (-1) [WithPreAlloc true] 0 = Except.error PoolError.ErrInvalidPoolSize :=
      rfl
    rw [e] at h
    cases h⟩

/-! ## Lemmas: the queue interface -/

theorem finishAll_map_some (ws : List Worker) : finishAll (ws.map some) = some ws := by
  induction ws with
  | nil => rfl
  | cons w t ih => simp [finishAll, ih]

/-- Draining a well-formed ring hands out its workers, oldest first, and leaves it empty. -/
theorem fifoQueue.Holds.drain_eq : ∀ (ws : List Worker) (wq : fifoQueue) (fuel : Nat),
    wq.Holds ws → ws.length < fuel →
    ∃ wq', fifoQueue.drain fuel wq = some (ws, wq') ∧ wq'.Holds [] ∧ wq'.size = wq.size
  | [], wq, fuel + 1, h, _ => by
    refine ⟨wq, ?_, h, rfl⟩
    simp only [fifoQueue.drain, h.detach_nil]
  | w :: t, wq, fuel + 1, h, hf => by
    obtain ⟨wq1, h1, h2, h3⟩ := h.detach_cons
    obtain ⟨wq2, h4, h5, h6⟩ := fifoQueue.Holds.drain_eq t wq1 fuel h2
      (by simp only [List.length_cons] at hf; omega)
    refine ⟨wq2, ?_, h5, by rw [h6, h3]⟩
    simp only [fifoQueue.drain, h1, h4]

/-- The method `reset` of a well-formed ring tells every worker to exit, oldest first, and leaves
the ring empty. -/
theorem fifoQueue.Holds.reset_eq {wq : fifoQueue} {ws : List Worker} (h : wq.Holds ws) :
    ∃ wq', wq.reset = some (ws, wq') ∧ wq'.Holds [] ∧ wq'.size = wq.size := by
  unfold fifoQueue.reset
  rw [h.isEmpty_eq]
  by_cases hz : ws.length = 0
  · have : ws = [] := List.length_eq_zero.mp hz
    subst this
    exact ⟨wq, by simp, h, rfl⟩
  · obtain ⟨wq1, h1, h2, h3⟩ := fifoQueue.Holds.drain_eq ws wq (wq.len.toNat + 1) h
      (by rw [h.len_eq]; simp)
    refine ⟨{ wq1 with head := 0, tail := 0 }, ?_, ?_, h3⟩
    · simp only [hz, decide_False, Bool.false_eq_true, if_false, h1]
    · have hp := h2.size_pos
      refine ⟨hp, h2.length_items, le_refl _, hp, ?_, ?_, ?_, ?_⟩
      · exact h2.length_le
      · show (0 : Int) = (0 + (([] : List Worker).length : Int)) % wq1.size
        simp
      · exact h2.isFull_iff
      · intro i hi; simp at hi

/-- What `refresh` does to a well-formed ring, whatever the order of its workers: it hands out
some prefix of the workers and keeps the rest. -/
theorem fifoQueue.Holds.refresh_take {wq : fifoQueue} {ws : List Worker} (h : wq.Holds ws)
    (now d : Int) :
    ∃ k wq', k ≤ ws.length ∧ wq.refresh now d = some ((ws.take k).map some, wq') ∧
      wq'.Holds (ws.drop k) := by
  obtain ⟨k, hkm, hi⟩ := h.indexExpired_bounded (Time.Add now (-d))
  by_cases hk0 : k = 0
  · refine ⟨0, wq, Nat.zero_le _, ?_, h⟩
    unfold fifoQueue.refresh
    simp only [hi, hk0, if_true]
    rfl
  · rw [if_neg hk0] at hi
    obtain ⟨wq', h1, h2, -, -⟩ := h.refresh_of_index now d k (by omega) hkm hi
    exact ⟨k, wq', hkm, h1, h2⟩

/-- What `refresh` does to a LIFO stack, whatever the order of its workers: it hands out some
prefix of the workers and keeps the rest. -/
theorem lifoQueue.refresh_take_drop (ws : lifoQueue) (now d : Int) :
    ∃ k ws', k ≤ ws.items.length ∧ ws.refresh now d = some (ws.items.take k, ws') ∧
      ws'.items = ws.items.drop k := by
  unfold lifoQueue.refresh
  simp only [lifoQueue.len]
  by_cases hn : (ws.items.length : Int) = 0
  · exact ⟨0, ws, Nat.zero_le _, by simp [hn], rfl⟩
  · obtain ⟨k, hkm, hsearch⟩ := BinarySearch_bounded ws.items (Time.Add now (-d))
      (fun i => (index? ws.items i).map
        (fun w => Time.Before (Time.Add now (-d)) w.lastUsedTime))
      (fun i _ => by simp only [index?_natCast])
    simp only [hn, if_false, hsearch]
    by_cases hk0 : k = 0
    · exact ⟨0, ws, Nat.zero_le _, by simp [hk0], rfl⟩
    · have h1 : ¬ ((k : Int) - 1 < 0) := by omega
      refine ⟨k, { items := ws.items.drop k, expiry := ws.items.take k }, hkm, ?_, rfl⟩
      simp only [h1, if_false, sub_add_cancel]
      rw [slice?_eq _ _ _ (le_refl _) (by omega) (by omega),
        slice?_eq _ _ _ (by omega) (by omega) (le_refl _)]
      simp only [Int.toNat_ofNat, Int.toNat_zero, List.drop_zero, List.take_length,
        List.nil_append]
      have e : ((ws.items.length : Int) - (k : Int)).toNat = ws.items.length - k := by omega
      rw [e, goCopy_drop_take _ _ hkm]

/-- On a well-formed queue `detach` returns; it returns nil exactly on an empty queue, which it
leaves as it is, and otherwise takes one of its workers out. -/
theorem Queue.WellFormed.detach_spec {q : Queue} (hq : q.WellFormed) :
    ∃ r q', q.detach = some (r, q') ∧ q'.WellFormed ∧
      (r = none → q' = q ∧ q.workers = []) ∧
      (∀ w, r = some w → q'.workers.length + 1 = q.workers.length ∧ w ∈ q.workers) := by
  cases q with
  | lifo ws =>
    by_cases hl : ws.len = 0
    · refine ⟨none, Queue.lifo ws, ?_, trivial, fun _ => ⟨rfl, ?_⟩, fun w h => Option.noConfusion h⟩
      · simp [Queue.detach, lifoQueue.detach, hl]
      · simp only [lifoQueue.len] at hl
        show ws.items = []
        exact List.length_eq_zero.mp (by omega)
    · have hnil : ws.items ≠ [] := by
        intro h0; apply hl; simp [lifoQueue.len, h0]
      obtain ⟨init, w, hiw⟩ := (List.eq_nil_or_concat ws.items).resolve_left hnil
      rw [List.concat_eq_append] at hiw
      have hlen : (ws.items.length : Int) = init.length + 1 := by rw [hiw]; simp
      have e : (ws.items.length : Int) - 1 = (init.length : Int) := by omega
      refine ⟨some w, Queue.lifo { ws with items := init }, ?_, trivial,
        fun h => Option.noConfusion h, fun w' hw' => ⟨?_, ?_⟩⟩
      · have hne : ¬ (init.length : Int) + 1 = 0 := by omega
        simp only [Queue.detach, lifoQueue.detach, lifoQueue.len, hl, if_false, e,
          index?_natCast, Int.toNat_ofNat]
        rw [hiw]
        simp [hne]
      · simp [Queue.workers, hiw]
      · rw [← Option.some.inj hw']
        simp [Queue.workers, hiw]
  | fifo owq =>
    cases owq with
    | none => exact hq.elim
    | some wq =>
      have hwf : wq.Holds wq.workers := hq
      cases hws : wq.workers with
      | nil =>
        have h0 : wq.Holds [] := by rw [← hws]; exact hwf
        refine ⟨none, Queue.fifo (some wq), ?_, hq, fun _ => ⟨rfl, hws⟩,
          fun w h => Option.noConfusion h⟩
        simp [Queue.detach, h0.detach_nil]
      | cons w0 rest =>
        have h0 : wq.Holds (w0 :: rest) := by rw [← hws]; exact hwf
        obtain ⟨wq', h1, h2, -⟩ := h0.detach_cons
        refine ⟨some w0, Queue.fifo (some wq'), ?_, h2.wellFormed,
          fun h => Option.noConfusion h, fun w' hw' => ⟨?_, ?_⟩⟩
        · simp [Queue.detach, h1]
        · simp [Queue.workers, h2.workers_eq, hws]
        · rw [← Option.some.inj hw']
          simp [Queue.workers, hws]

/-- On a well-formed queue `insert` returns; it either appends the worker or, on a full ring,
fails and changes nothing. -/
theorem Queue.WellFormed.insert_spec {q : Queue} (hq : q.WellFormed) (w : Worker) :
    ∃ r q', q.insert w = some (r, q') ∧ q'.WellFormed ∧
      (r = none → q'.workers = q.workers ++ [w]) ∧ (r ≠ none → q' = q) := by
  cases q with
  | lifo ws =>
    exact ⟨none, Queue.lifo (ws.insert w).2, rfl, trivial, fun _ => rfl, fun h => absurd rfl h⟩
  | fifo owq =>
    cases owq with
    | none => exact hq.elim
    | some wq =>
      have hwf : wq.Holds wq.workers := hq
      by_cases hfull : (wq.workers.length : Int) = wq.size
      · refine ⟨some PoolError.ErrQueueIsFull, Queue.fifo (some wq), ?_, hq,
          fun h => Option.noConfusion h, fun _ => rfl⟩
        simp [Queue.insert, hwf.insert_full w hfull]
      · have hle := hwf.length_le
        obtain ⟨wq', h1, h2, -⟩ := hwf.insert_ok w (by omega)
        refine ⟨none, Queue.fifo (some wq'), ?_, h2.wellFormed, fun _ => ?_,
          fun h => absurd rfl h⟩
        · simp [Queue.insert, h1]
        · simp [Queue.workers, h2.workers_eq]

/-- On a well-formed queue `refresh` returns, and the workers it hands out (none of them nil)
and the workers it keeps are together the workers it held. -/
theorem Queue.WellFormed.refresh_spec {q : Queue} (hq : q.WellFormed) (now d : Int) :
    ∃ out q' ws, q.refresh now d = some (out, q') ∧ q'.WellFormed ∧ finishAll out = some ws ∧
      ws.length + q'.workers.length = q.workers.length := by
  cases q with
  | lifo ws =>
    obtain ⟨k, ws', hk, h1, h2⟩ := ws.refresh_take_drop now d
    refine ⟨_, Queue.lifo ws', ws.items.take k, ?_, trivial, finishAll_map_some _, ?_⟩
    · simp [Queue.refresh, h1]
    · simp only [Queue.workers, h2, List.length_take, List.length_drop]
      omega
  | fifo owq =>
    cases owq with
    | none => exact hq.elim
    | some wq =>
      have hwf : wq.Holds wq.workers := hq
      obtain ⟨k, wq', hk, h1, h2⟩ := hwf.refresh_take now d
      refine ⟨_, Queue.fifo (some wq'), wq.workers.take k, ?_, h2.wellFormed,
        finishAll_map_some _, ?_⟩
      · simp [Queue.refresh, h1]
      · simp only [Queue.workers, h2.workers_eq, List.length_take, List.length_drop]
        omega

/-- On a well-formed queue `reset` returns, tells every worker to exit and leaves the queue
empty. -/
theorem Queue.WellFormed.reset_spec {q : Queue} (hq : q.WellFormed) :
    ∃ q', q.reset = some (q.workers, q') ∧ q'.WellFormed ∧ q'.workers = [] := by
  cases q with
  | lifo ws =>
    exact ⟨Queue.lifo ws.reset.2, rfl, trivial, rfl⟩
  | fifo owq =>
    cases owq with
    | none => exact hq.elim
    | some wq =>
      have hwf : wq.Holds wq.workers := hq
      obtain ⟨wq', h1, h2, -⟩ := hwf.reset_eq
      refine ⟨Queue.fifo (some wq'), ?_, h2.wellFormed, ?_⟩
      · simp [Queue.reset, h1, Queue.workers]
      · simp [Queue.workers, h2.workers_eq]

/-- On a well-formed queue `len` returns the number of workers held. -/
theorem Queue.WellFormed.len_spec {q : Queue} (hq : q.WellFormed) :
    q.len = some (q.workers.length : Int) := by
  cases q with
  | lifo ws => rfl
  | fifo owq =>
    cases owq with
    | none => exact hq.elim
    | some wq =>
      have hwf : wq.Holds wq.workers := hq
      simp only [Queue.len, Queue.workers, hwf.len_eq]

/-! ## Lemmas: the pool as a transition system -/

theorem int32_eq_self (x : Int) (h0 : -2 ^ 31 ≤ x) (h1 : x < 2 ^ 31) : int32 x = x := by
  unfold int32
  omega

theorem poolCommon.workerExit_fields (p : poolCommon) (recovered : Option Nat) :
    (p.workerExit recovered).1.workers = p.workers ∧
    (p.workerExit recovered).1.state = p.state ∧
    (p.workerExit recovered).1.running = int32 (p.running - 1) ∧
    (p.workerExit recovered).1.capacity = p.capacity ∧
    (p.workerExit recovered).1.waiting = p.waiting ∧
    (p.workerExit recovered).1.options = p.options := by
  unfold poolCommon.workerExit poolCommon.onceCloseAllDone poolCommon.decRunning
  simp only []
  split_ifs <;> simp

theorem poolCommon.workerExit_calls (p : poolCommon) (recovered : Option Nat) :
    (p.workerExit recovered).2 =
      match recovered with
      | some v => if p.options.PanicHandler then [v] else []
      | none => [] := by
  unfold poolCommon.workerExit poolCommon.onceCloseAllDone poolCommon.decRunning
  simp only []
  split_ifs <;> rfl

/-- The end of a worker that was started and is not idle keeps the books. -/
theorem PoolState.Sound.workerExit {s : PoolState} (hs : s.Sound) (w : Worker) (hw : w ∈ s.busy)
    (recovered : Option Nat) :
    PoolState.Sound { pool := (s.pool.workerExit recovered).1, busy := s.busy.erase w } := by
  obtain ⟨h1, h2, h3, h4, -, -⟩ := s.pool.workerExit_fields recovered
  have hb : 0 < s.busy.length := List.length_pos_of_mem hw
  have hr := hs.running_eq
  have hlt := hs.running_lt
  have he : (s.busy.erase w).length = s.busy.length - 1 := List.length_erase_of_mem hw
  refine ⟨?_, ?_, ?_, ?_⟩
  · show (s.pool.workerExit recovered).1.workers.WellFormed
    rw [h1]; exact hs.queue_wf
  · show (s.pool.workerExit recovered).1.state = OPENED ∨ _
    rw [h2]; exact hs.state_ok
  · show (s.pool.workerExit recovered).1.running =
      ((s.pool.workerExit recovered).1.workers.workers.length : Int) +
        ((s.busy.erase w).length : Int)
    rw [h3, h1, he, int32_eq_self _ (by omega) (by omega)]
    omega
  · show (s.pool.workerExit recovered).1.running < 2 ^ 31
    rw [h3, int32_eq_self _ (by omega) (by omega)]
    omega

/-- Any change of the pool that leaves the queue, the state and `running` alone keeps the
books. -/
theorem PoolState.Sound.of_same {s : PoolState} (hs : s.Sound) (p : poolCommon)
    (hq : p.workers = s.pool.workers) (hst : p.state = OPENED ∨ p.state = CLOSED)
    (hr : p.running = s.pool.running) :
    PoolState.Sound { pool := p, busy := s.busy } :=
  ⟨by show p.workers.WellFormed; rw [hq]; exact hs.queue_wf, hst,
   by show p.running = (p.workers.workers.length : Int) + _; rw [hr, hq]; exact hs.running_eq,
   by show p.running < 2 ^ 31; rw [hr]; exact hs.running_lt⟩

/-- The result of `retrieveWorker` keeps the books. -/
theorem PoolState.Sound.afterRetrieve {s : PoolState} (hs : s.Sound) (cached : Worker)
    (r : Retrieved × poolCommon) (hr : s.pool.retrieveWorker cached = some r)
    (s' : PoolState) (ha : s.afterRetrieve r = some s') : s'.Sound := by
  obtain ⟨d, q', hd, hq', hnone, hsome⟩ := hs.queue_wf.detach_spec
  have hrun := hs.running_eq
  have hlt := hs.running_lt
  unfold poolCommon.retrieveWorker at hr
  rw [hd] at hr
  cases d with
  | some w =>
    simp only [Option.some.injEq] at hr
    subst hr
    simp only [PoolState.afterRetrieve, Option.some.injEq] at ha
    subst ha
    have hl := (hsome w rfl).1
    exact ⟨hq', hs.state_ok, by
      show s.pool.running = (q'.workers.length : Int) + ((w :: s.busy).length : Int)
      rw [hrun, List.length_cons]; push_cast; omega, hlt⟩
  | none =>
    obtain ⟨hqq, hempty⟩ := hnone rfl
    subst hqq
    simp only [poolCommon.Cap, poolCommon.Running] at hr
    split_ifs at hr with h1 h2
    · simp only [Option.some.injEq] at hr
      subst hr
      simp only [PoolState.afterRetrieve] at ha
      split_ifs at ha with hroom
      simp only [Option.some.injEq] at ha
      subst ha
      have hi : int32 (s.pool.running + 1) = s.pool.running + 1 :=
        int32_eq_self _ (by omega) hroom
      exact ⟨hq', hs.state_ok, by
        show int32 (s.pool.running + 1) =
          (s.pool.workers.workers.length : Int) + ((cached :: s.busy).length : Int)
        rw [hi, hrun, List.length_cons]; push_cast; omega,
        by show int32 (s.pool.running + 1) < 2 ^ 31; rw [hi]; exact hroom⟩
    · simp only [Option.some.injEq] at hr
      subst hr
      simp only [PoolState.afterRetrieve, Option.some.injEq] at ha
      subst ha
      exact ⟨hq', hs.state_ok, hrun, hlt⟩
    · simp only [Option.some.injEq] at hr
      subst hr
      simp only [PoolState.afterRetrieve, Option.some.injEq] at ha
      subst ha
      exact ⟨hq', hs.state_ok, hrun, hlt⟩

/-- Every step keeps the books. -/
theorem PoolState.Sound.step {s : PoolState} (hs : s.Sound) (op : PoolOp) (s' : PoolState)
    (hstep : s.step op = some s') : s'.Sound := by
  have hrun := hs.running_eq
  have hlt := hs.running_lt
  cases op with
  | submit cached =>
    simp only [PoolState.step, Pool.Submit] at hstep
    split_ifs at hstep with hc
    · simp only [Option.some_bind, PoolState.afterRetrieve, Option.some.injEq] at hstep
      subst hstep
      exact hs
    · cases hr : s.pool.retrieveWorker cached with
      | none => simp [hr] at hstep
      | some r =>
        simp only [hr, Option.map_some', Option.some_bind] at hstep
        exact hs.afterRetrieve cached r hr s' hstep
  | wake cached =>
    simp only [PoolState.step, Pool.SubmitWake, poolCommon.retrieveWorkerWake] at hstep
    split_ifs at hstep with hw hc
    · simp only [Option.map_some', Option.some_bind, PoolState.afterRetrieve,
        Option.some.injEq] at hstep
      subst hstep
      exact hs.of_same _ rfl hs.state_ok rfl
    · cases hr : (s.pool.addWaiting (-1)).retrieveWorker cached with
      | none => simp [hr] at hstep
      | some r =>
        simp only [hr, Option.map_some', Option.some_bind] at hstep
        have hs1 : PoolState.Sound { pool := s.pool.addWaiting (-1), busy := s.busy } :=
          hs.of_same _ rfl hs.state_ok rfl
        exact hs1.afterRetrieve cached r hr s' hstep
  | task w e =>
    simp only [PoolState.step] at hstep
    split_ifs at hstep with hw
    cases e with
    | panicked v =>
      simp only [poolCommon.workerTask, Option.map_some', Option.some.injEq] at hstep
      subst hstep
      exact hs.workerExit w hw (some v)
    | returned =>
      simp only [poolCommon.workerTask, poolCommon.revertWorker,
        poolCommon.revertWorkerStamp] at hstep
      split_ifs at hstep with hrej
      · simp only [Option.map_some', Option.some.injEq] at hstep
        subst hstep
        exact hs.workerExit w hw none
      · simp only [poolCommon.revertWorkerLocked] at hstep
        split_ifs at hstep with hcl
        · simp only [Option.map_some', Option.some.injEq] at hstep
          subst hstep
          exact hs.workerExit w hw none
        · obtain ⟨r, q', hi, hq', hnone, hsome⟩ :=
            hs.queue_wf.insert_spec (w.setLastUsedTime s.pool.nowTime)
          rw [hi] at hstep
          have hb : 0 < s.busy.length := List.length_pos_of_mem hw
          have he : (s.busy.erase w).length = s.busy.length - 1 := List.length_erase_of_mem hw
          cases r with
          | none =>
            simp only [Option.map_some', Option.some.injEq] at hstep
            subst hstep
            have hws := hnone rfl
            exact ⟨hq', hs.state_ok, by
              show s.pool.running = (q'.workers.length : Int) + ((s.busy.erase w).length : Int)
              rw [hws, he, hrun, List.length_append, List.length_singleton]
              push_cast
              omega, hlt⟩
          | some err =>
            simp only [Option.map_some', Option.some.injEq] at hstep
            subst hstep
            have hqq := hsome (fun h => Option.noConfusion h)
            subst hqq
            exact hs.workerExit w hw none
  | stop w =>
    simp only [PoolState.step] at hstep
    split_ifs at hstep with hw
    simp only [Option.some.injEq] at hstep
    subst hstep
    exact hs.workerExit w hw none
  | purge now =>
    simp only [PoolState.step, poolCommon.purgeStaleWorkers] at hstep
    split_ifs at hstep with hd hc
    · simp only [Option.map_some', Option.some.injEq] at hstep
      subst hstep
      exact hs.of_same _ rfl hs.state_ok rfl
    · obtain ⟨out, q', ws, hr, hq', hfin, hl⟩ :=
        hs.queue_wf.refresh_spec now s.pool.options.ExpiryDuration
      simp only [hr, hfin, Option.map_some', Option.some.injEq] at hstep
      subst hstep
      exact ⟨hq', hs.state_ok, by
        show s.pool.running = (q'.workers.length : Int) + ((ws ++ s.busy).length : Int)
        rw [hrun, List.length_append]
        push_cast
        omega, hlt⟩
  | tick clock =>
    simp only [PoolState.step, Option.some.injEq] at hstep
    subst hstep
    unfold poolCommon.ticktock
    split_ifs
    · exact hs.of_same _ rfl hs.state_ok rfl
    · exact hs.of_same _ rfl hs.state_ok rfl
  | tune size =>
    simp only [PoolState.step, Option.some.injEq] at hstep
    subst hstep
    unfold poolCommon.Tune
    simp only []
    split_ifs
    · exact hs
    · exact hs.of_same _ rfl hs.state_ok rfl
  | release =>
    simp only [PoolState.step, poolCommon.Release] at hstep
    split_ifs at hstep with ho
    · obtain ⟨q', hr, hq', hemp⟩ := hs.queue_wf.reset_spec
      simp only [hr, Option.map_some', Option.some.injEq] at hstep
      subst hstep
      exact ⟨hq', Or.inr rfl, by
        show s.pool.running =
          (q'.workers.length : Int) + ((s.pool.workers.workers ++ s.busy).length : Int)
        rw [hrun, hemp, List.length_append]
        push_cast
        simp, hlt⟩
    · simp only [Option.map_some', Option.some.injEq, List.nil_append] at hstep
      subst hstep
      exact hs
  | releaseTimeout =>
    simp only [PoolState.step, poolCommon.ReleaseTimeout, poolCommon.Release] at hstep
    split_ifs at hstep with hc ho
    · simp only [Option.map_some', Option.some.injEq, List.nil_append] at hstep
      subst hstep
      exact hs
    · obtain ⟨q', hr, hq', hemp⟩ := hs.queue_wf.reset_spec
      simp only [hr, Option.map_some', Option.some.injEq] at hstep
      subst hstep
      refine ⟨?_, ?_, ?_, ?_⟩
      · show (ite _ _ _ : poolCommon).workers.WellFormed
        unfold poolCommon.onceCloseAllDone
        split_ifs <;> exact hq'
      · show (ite _ _ _ : poolCommon).state = OPENED ∨ _
        unfold poolCommon.onceCloseAllDone
        split_ifs <;> exact Or.inr rfl
      · show (ite _ _ _ : poolCommon).running =
          ((ite _ _ _ : poolCommon).workers.workers.length : Int) +
            ((s.pool.workers.workers ++ s.busy).length : Int)
        unfold poolCommon.onceCloseAllDone
        split_ifs <;>
        · show s.pool.running = (q'.workers.length : Int) + _
          rw [hrun, hemp, List.length_append]
          push_cast
          simp
      · show (ite _ _ _ : poolCommon).running < 2 ^ 31
        unfold poolCommon.onceCloseAllDone
        split_ifs <;> exact hlt
    · simp only [Option.map_some', Option.some.injEq, List.nil_append] at hstep
      have hst := hs.state_ok
      subst hstep
      refine ⟨?_, ?_, ?_, ?_⟩
      · show (ite _ _ _ : poolCommon).workers.WellFormed
        unfold poolCommon.onceCloseAllDone
        split_ifs <;> exact hs.queue_wf
      · show (ite _ _ _ : poolCommon).state = OPENED ∨ _
        unfold poolCommon.onceCloseAllDone
        split_ifs <;> exact hst
      · show (ite _ _ _ : poolCommon).running =
          ((ite _ _ _ : poolCommon).workers.workers.length : Int) + (s.busy.length : Int)
        unfold poolCommon.onceCloseAllDone
        split_ifs <;> exact hrun
      · show (ite _ _ _ : poolCommon).running < 2 ^ 31
        unfold poolCommon.onceCloseAllDone
        split_ifs <;> exact hlt
  | reboot clock =>
    simp only [PoolState.step, Option.some.injEq] at hstep
    subst hstep
    unfold poolCommon.Reboot
    split_ifs
    · refine hs.of_same _ ?_ (Or.inl ?_) ?_
      all_goals (simp only [poolCommon.goPurge, poolCommon.goTicktock]; split_ifs <;> rfl)
    · exact hs

theorem poolCommon.goPurge_fields (p : poolCommon) :
    p.goPurge.workers = p.workers ∧ p.goPurge.state = p.state ∧
    p.goPurge.running = p.running ∧ p.goPurge.capacity = p.capacity ∧
    p.goPurge.options = p.options ∧ p.goPurge.waiting = p.waiting := by
  unfold poolCommon.goPurge
  split_ifs <;> simp

theorem poolCommon.goTicktock_goPurge_fields (p : poolCommon) (clock : Int) :
    (p.goPurge.goTicktock clock).workers = p.workers ∧
    (p.goPurge.goTicktock clock).state = p.state ∧
    (p.goPurge.goTicktock clock).running = p.running ∧
    (p.goPurge.goTicktock clock).capacity = p.capacity ∧
    (p.goPurge.goTicktock clock).options = p.options ∧
    (p.goPurge.goTicktock clock).waiting = p.waiting := by
  obtain ⟨g1, g2, g3, g4, g5, g6⟩ := p.goPurge_fields
  exact ⟨g1, g2, g3, g4, g5, g6⟩

theorem defaultExpiry_fields (o : Options) :
    (if o.ExpiryDuration ≤ 0 then { o with ExpiryDuration := DefaultCleanIntervalTime }
      else o).PreAlloc = o.PreAlloc ∧
    (if o.ExpiryDuration ≤ 0 then { o with ExpiryDuration := DefaultCleanIntervalTime }
      else o).Nonblocking = o.Nonblocking ∧
    (if o.ExpiryDuration ≤ 0 then { o with ExpiryDuration := DefaultCleanIntervalTime }
      else o).MaxBlockingTasks = o.MaxBlockingTasks ∧
    (if o.ExpiryDuration ≤ 0 then { o with ExpiryDuration := DefaultCleanIntervalTime }
      else o).PanicHandler = o.PanicHandler ∧
    (if o.ExpiryDuration ≤ 0 then { o with ExpiryDuration := DefaultCleanIntervalTime }
      else o).DisablePurge = o.DisablePurge := by
  split_ifs <;> exact ⟨rfl, rfl, rfl, rfl, rfl⟩

/-- What a successful `newPoolCommon` builds: an open pool without workers, whose capacity is the
size cut to 32 bits, whose options are the loaded ones up to the default expiry, and whose idle
queue is an empty LIFO stack or, under `PreAlloc`, an empty ring of `size` slots. -/
theorem newPoolCommon_ok (size : Int) (options : List PoolOption) (clock : Int)
    (p : poolCommon) (h : newPoolCommon size options clock = Except.ok p) :
    p.state = OPENED ∧ p.running = 0 ∧ p.waiting = 0 ∧ p.capacity = int32 size ∧
    p.workers.WellFormed ∧ p.workers.workers = [] ∧
    p.options.PreAlloc = (loadOptions options).PreAlloc ∧
    p.options.Nonblocking = (loadOptions options).Nonblocking ∧
    p.options.MaxBlockingTasks = (loadOptions options).MaxBlockingTasks ∧
    p.options.PanicHandler = (loadOptions options).PanicHandler ∧
    p.options.DisablePurge = (loadOptions options).DisablePurge ∧
    (size = -1 ∨ 1 ≤ size) := by
  unfold newPoolCommon at h
  simp only [] at h
  obtain ⟨o1, o2, o3, o4, o5⟩ := defaultExpiry_fields (loadOptions options)
  generalize (if (loadOptions options).ExpiryDuration ≤ 0 then
    { loadOptions options with ExpiryDuration := DefaultCleanIntervalTime }
    else loadOptions options) = opts at h o1 o2 o3 o4 o5
  by_cases hsz : size ≤ 0 ∧ size ≠ -1
  · rw [if_pos hsz] at h
    exact Except.noConfusion h
  · rw [if_neg hsz] at h
    have hsize : size = -1 ∨ 1 ≤ size := by omega
    by_cases hpre : opts.PreAlloc = true
    · rw [if_pos hpre] at h
      by_cases hm1 : size = -1
      · rw [if_pos hm1] at h
        exact Except.noConfusion h
      · rw [if_neg hm1] at h
        obtain ⟨wq, hnew, hh, -⟩ := newFIFOQueue_holds size (by omega)
        obtain ⟨g1, g2, g3, g4, g5, g6⟩ := poolCommon.goTicktock_goPurge_fields
          { capacity := int32 size, running := 0, state := OPENED, waiting := 0,
            purgeDone := NOT_DONE, stopPurge := false, ticktockDone := NOT_DONE,
            stopTicktock := false, now := 0,
            workers := newQueue QueueType.QueueTypeFIFO size, allDone := false,
            options := opts, once := false } clock
        have hp := Except.ok.inj h
        rw [hp] at g1 g2 g3 g4 g5 g6
        simp only [newQueue, hnew] at g1
        rw [g1, g2, g3, g4, g5, g6]
        exact ⟨rfl, rfl, rfl, rfl, hh.wellFormed, hh.workers_eq, o1, o2, o3, o4, o5, hsize⟩
    · rw [if_neg hpre] at h
      obtain ⟨g1, g2, g3, g4, g5, g6⟩ := poolCommon.goTicktock_goPurge_fields
        { capacity := int32 size, running := 0, state := OPENED, waiting := 0,
          purgeDone := NOT_DONE, stopPurge := false, ticktockDone := NOT_DONE,
          stopTicktock := false, now := 0,
          workers := newQueue QueueType.QueueTypeLIFO 0, allDone := false,
          options := opts, once := false } clock
      have hp := Except.ok.inj h
      rw [hp] at g1 g2 g3 g4 g5 g6
      rw [g1, g2, g3, g4, g5, g6]
      exact ⟨rfl, rfl, rfl, rfl, trivial, rfl, o1, o2, o3, o4, o5, hsize⟩

/-- A pool that `NewPool` has just built keeps the books. -/
theorem PoolState.init_sound (size : Int) (options : List PoolOption) (clock : Int)
    (s : PoolState) (h : PoolState.init size options clock = some s) : s.Sound := by
  unfold PoolState.init NewPool at h
  cases hn : newPoolCommon size options clock with
  | error e => simp [hn] at h
  | ok p =>
    simp only [hn, Option.some.injEq] at h
    subst h
    obtain ⟨h1, h2, -, -, h5, h6, -⟩ := newPoolCommon_ok size options clock p hn
    exact ⟨h5, Or.inl h1, by
      show p.running = (p.workers.workers.length : Int) + (([] : List Worker).length : Int)
      rw [h2, h6]; rfl, by show p.running < 2 ^ 31; rw [h2]; norm_num⟩

/-- The books are kept along any sequence of steps. -/
theorem PoolState.Steps.sound_of_sound {g : PoolState → PoolOp → Prop} {s s' : PoolState}
    (h : PoolState.Steps g s s') (hs : s.Sound) : s'.Sound := by
  induction h with
  | refl => exact hs
  | tail s1 s2 op _ _ hstep ih => exact ih.step op s2 hstep

/-- Every reachable state keeps the books. -/
theorem PoolState.ReachableBy.sound {g : PoolState → PoolOp → Prop} {s : PoolState}
    (h : PoolState.ReachableBy g s) : s.Sound := by
  obtain ⟨size, options, clock, s0, h0, hsteps⟩ := h
  exact hsteps.sound_of_sound (PoolState.init_sound size options clock s0 h0)

/-- What `retrieveWorker` returns on a well-formed idle queue, case by case: a worker of the
queue; or, on an empty queue, a new worker when the pool is unbounded or below its capacity, the
overload error when the caller may not wait, and a parked caller otherwise. -/
theorem poolCommon.retrieveWorker_cases (p : poolCommon) (cached : Worker)
    (hq : p.workers.WellFormed) :
    (∃ w q', p.workers.detach = some (some w, q') ∧ q'.WellFormed ∧
      q'.workers.length + 1 = p.workers.workers.length ∧ w ∈ p.workers.workers ∧
      p.retrieveWorker cached = some (Retrieved.detached w, { p with workers := q' })) ∨
    (p.workers.workers = [] ∧ p.workers.detach = some (none, p.workers) ∧
      ((p.capacity = -1 ∨ p.capacity > p.running) ∧
        p.retrieveWorker cached = some (Retrieved.spawned cached, p.incRunning) ∨
      (¬ (p.capacity = -1 ∨ p.capacity > p.running) ∧
        (p.options.Nonblocking = true ∨
          (p.options.MaxBlockingTasks ≠ 0 ∧ p.waiting ≥ p.options.MaxBlockingTasks)) ∧
        p.retrieveWorker cached = some (Retrieved.failed PoolError.ErrPoolOverload, p)) ∨
      (¬ (p.capacity = -1 ∨ p.capacity > p.running) ∧
        ¬ (p.options.Nonblocking = true ∨
          (p.options.MaxBlockingTasks ≠ 0 ∧ p.waiting ≥ p.options.MaxBlockingTasks)) ∧
        p.retrieveWorker cached = some (Retrieved.parked, p.addWaiting 1)))) := by
  obtain ⟨d, q', hd, hq', hnone, hsome⟩ := hq.detach_spec
  cases d with
  | some w =>
    left
    refine ⟨w, q', hd, hq', (hsome w rfl).1, (hsome w rfl).2, ?_⟩
    simp only [poolCommon.retrieveWorker, hd]
  | none =>
    right
    obtain ⟨hqq, hempty⟩ := hnone rfl
    subst hqq
    refine ⟨hempty, hd, ?_⟩
    simp only [poolCommon.retrieveWorker, hd, poolCommon.Cap, poolCommon.Running,
      poolCommon.Waiting]
    by_cases h1 : p.capacity = -1 ∨ p.capacity > p.running
    · left
      exact ⟨h1, by rw [if_pos h1]⟩
    · right
      by_cases h2 : p.options.Nonblocking = true ∨
          (p.options.MaxBlockingTasks ≠ 0 ∧ p.waiting ≥ p.options.MaxBlockingTasks)
      · left
        exact ⟨h1, h2, by rw [if_neg h1, if_pos h2]⟩
      · right
        exact ⟨h1, h2, by rw [if_neg h1, if_neg h2]⟩

/-- Whatever `retrieveWorker` does, it leaves the capacity, the state and the options alone, and
it changes `running` only by starting a worker. -/
theorem poolCommon.retrieveWorker_fields (p : poolCommon) (cached : Worker)
    (r : Retrieved) (p' : poolCommon) (h : p.retrieveWorker cached = some (r, p')) :
    p'.capacity = p.capacity ∧ p'.state = p.state ∧ p'.options = p.options ∧
    ((∃ w, r = Retrieved.spawned w) ∧ p'.running = int32 (p.running + 1) ∧
        (p.capacity = -1 ∨ p.capacity > p.running) ∨
      (¬ (∃ w, r = Retrieved.spawned w) ∧ p'.running = p.running)) := by
  unfold poolCommon.retrieveWorker at h
  cases hd : p.workers.detach with
  | none => simp [hd] at h
  | some d =>
    obtain ⟨dw, q⟩ := d
    rw [hd] at h
    cases dw with
    | some w =>
      simp only [Option.some.injEq, Prod.mk.injEq] at h
      obtain ⟨h1, h2⟩ := h
      subst h1 h2
      exact ⟨rfl, rfl, rfl, Or.inr ⟨by simp, rfl⟩⟩
    | none =>
      simp only [poolCommon.Cap, poolCommon.Running] at h
      split_ifs at h with h1 h2
      · simp only [Option.some.injEq, Prod.mk.injEq] at h
        obtain ⟨h3, h4⟩ := h
        subst h3 h4
        exact ⟨rfl, rfl, rfl, Or.inl ⟨⟨cached, rfl⟩, rfl, h1⟩⟩
      · simp only [Option.some.injEq, Prod.mk.injEq] at h
        obtain ⟨h3, h4⟩ := h
        subst h3 h4
        exact ⟨rfl, rfl, rfl, Or.inr ⟨by simp, rfl⟩⟩
      · simp only [Option.some.injEq, Prod.mk.injEq] at h
        obtain ⟨h3, h4⟩ := h
        subst h3 h4
        exact ⟨rfl, rfl, rfl, Or.inr ⟨by simp, rfl⟩⟩

/-- Whatever `revertWorker` does, it leaves the capacity, the state, `running` and the options
alone. -/
theorem poolCommon.revertWorker_fields (p : poolCommon) (w : Worker) (b : Bool)
    (p' : poolCommon) (h : p.revertWorker w = some (b, p')) :
    p'.capacity = p.capacity ∧ p'.state = p.state ∧ p'.running = p.running ∧
    p'.options = p.options := by
  unfold poolCommon.revertWorker poolCommon.revertWorkerStamp at h
  split_ifs at h with hrej
  · simp only [Option.some.injEq, Prod.mk.injEq] at h
    obtain ⟨-, h2⟩ := h
    subst h2
    exact ⟨rfl, rfl, rfl, rfl⟩
  · simp only [poolCommon.revertWorkerLocked] at h
    split_ifs at h with hcl
    · simp only [Option.some.injEq, Prod.mk.injEq] at h
      obtain ⟨-, h2⟩ := h
      subst h2
      exact ⟨rfl, rfl, rfl, rfl⟩
    · cases hi : p.workers.insert (w.setLastUsedTime p.nowTime) with
      | none => simp [hi] at h
      | some r =>
        obtain ⟨e, q⟩ := r
        rw [hi] at h
        cases e with
        | none =>
          simp only [Option.some.injEq, Prod.mk.injEq] at h
          obtain ⟨-, h2⟩ := h
          subst h2
          exact ⟨rfl, rfl, rfl, rfl⟩
        | some err =>
          simp only [Option.some.injEq, Prod.mk.injEq] at h
          obtain ⟨-, h2⟩ := h
          subst h2
          exact ⟨rfl, rfl, rfl, rfl⟩

theorem poolCommon.Release_fields (p : poolCommon) (ws : List Worker) (p' : poolCommon)
    (h : p.Release = some (ws, p')) :
    p'.capacity = p.capacity ∧ p'.running = p.running ∧ p'.options = p.options ∧
    p'.waiting = p.waiting ∧
    ((p.state = OPENED ∧ p'.state = CLOSED) ∨ (p.state ≠ OPENED ∧ p' = p)) := by
  unfold poolCommon.Release at h
  split_ifs at h with ho
  · cases hr : p.workers.reset with
    | none => simp [hr] at h
    | some r =>
      simp only [hr, Option.some.injEq, Prod.mk.injEq] at h
      obtain ⟨-, h2⟩ := h
      subst h2
      exact ⟨rfl, rfl, rfl, rfl, Or.inl ⟨ho, rfl⟩⟩
  · simp only [Option.some.injEq, Prod.mk.injEq] at h
    obtain ⟨-, h2⟩ := h
    subst h2
    exact ⟨rfl, rfl, rfl, rfl, Or.inr ⟨ho, rfl⟩⟩

theorem poolCommon.onceCloseAllDone_fields (p : poolCommon) :
    p.onceCloseAllDone.capacity = p.capacity ∧ p.onceCloseAllDone.running = p.running ∧
    p.onceCloseAllDone.state = p.state ∧ p.onceCloseAllDone.workers = p.workers ∧
    p.onceCloseAllDone.options = p.options ∧ p.onceCloseAllDone.waiting = p.waiting := by
  unfold poolCommon.onceCloseAllDone
  split_ifs <;> exact ⟨rfl, rfl, rfl, rfl, rfl, rfl⟩

theorem poolCommon.Reboot_fields (p : poolCommon) (clock : Int) :
    (p.Reboot clock).capacity = p.capacity ∧ (p.Reboot clock).running = p.running ∧
    (p.Reboot clock).workers = p.workers ∧ (p.Reboot clock).options = p.options ∧
    (p.Reboot clock).waiting = p.waiting ∧
    (p.state = CLOSED → (p.Reboot clock).state = OPENED) ∧
    (p.state ≠ CLOSED → p.Reboot clock = p) := by
  unfold poolCommon.Reboot
  split_ifs with hc
  · simp only [poolCommon.goPurge, poolCommon.goTicktock]
    split_ifs <;> exact ⟨rfl, rfl, rfl, rfl, rfl, fun _ => rfl, fun h => absurd hc h⟩
  · exact ⟨rfl, rfl, rfl, rfl, rfl, fun h => absurd h hc, fun _ => rfl⟩

theorem poolCommon.Tune_fields (p : poolCommon) (size : Int) :
    (p.Tune size).running = p.running ∧ (p.Tune size).state = p.state ∧
    (p.Tune size).workers = p.workers ∧ (p.Tune size).options = p.options ∧
    (p.Tune size).waiting = p.waiting := by
  unfold poolCommon.Tune
  simp only []
  split_ifs <;> exact ⟨rfl, rfl, rfl, rfl, rfl⟩

theorem OPENED_ne_CLOSED : OPENED ≠ CLOSED := by decide

theorem poolCommon.workerTask_fields (p : poolCommon) (w : Worker) (e : TaskEnd)
    (r : Bool × poolCommon × List Nat) (h : p.workerTask w e = some r) :
    r.2.1.capacity = p.capacity ∧ r.2.1.state = p.state ∧ r.2.1.options = p.options ∧
    ((r.1 = true ∧ r.2.1.running = p.running) ∨
      (r.1 = false ∧ r.2.1.running = int32 (p.running - 1))) := by
  cases e with
  | panicked v =>
    simp only [poolCommon.workerTask, Option.some.injEq] at h
    subst h
    obtain ⟨-, h2, h3, h4, -, h6⟩ := p.workerExit_fields (some v)
    exact ⟨h4, h2, h6, Or.inr ⟨rfl, h3⟩⟩
  | returned =>
    simp only [poolCommon.workerTask] at h
    cases hr : p.revertWorker w with
    | none => simp [hr] at h
    | some x =>
      obtain ⟨b, p'⟩ := x
      obtain ⟨f1, f2, f3, f4⟩ := p.revertWorker_fields w b p' hr
      rw [hr] at h
      cases b with
      | true =>
        simp only [Option.some.injEq] at h
        subst h
        exact ⟨f1, f2, f4, Or.inl ⟨rfl, f3⟩⟩
      | false =>
        simp only [Option.some.injEq] at h
        subst h
        obtain ⟨-, h2, h3, h4, -, h6⟩ := p'.workerExit_fields none
        exact ⟨h4.trans f1, h2.trans f2, h6.trans f4, Or.inr ⟨rfl, by rw [h3, f3]⟩⟩

theorem poolCommon.purgeStaleWorkers_fields (p : poolCommon) (now : Int)
    (r : List Worker × poolCommon) (h : p.purgeStaleWorkers now = some r) :
    r.2.capacity = p.capacity ∧ r.2.state = p.state ∧ r.2.options = p.options ∧
    r.2.running = p.running := by
  unfold poolCommon.purgeStaleWorkers at h
  split_ifs at h with hc
  · simp only [Option.some.injEq] at h
    subst h
    exact ⟨rfl, rfl, rfl, rfl⟩
  · cases hr : p.workers.refresh now p.options.ExpiryDuration with
    | none => simp [hr] at h
    | some x =>
      simp only [hr] at h
      cases hf : finishAll x.1 with
      | none => simp [hf] at h
      | some ws =>
        simp only [hf, Option.map_some', Option.some.injEq] at h
        subst h
        exact ⟨rfl, rfl, rfl, rfl⟩

theorem poolCommon.ReleaseTimeout_fields (p : poolCommon)
    (r : Option PoolError × List Worker × poolCommon) (h : p.ReleaseTimeout = some r) :
    r.2.2.capacity = p.capacity ∧ r.2.2.options = p.options ∧ r.2.2.running = p.running ∧
    (r.2.2.state = p.state ∨ r.2.2.state = CLOSED) := by
  unfold poolCommon.ReleaseTimeout at h
  split_ifs at h with hc
  · simp only [Option.some.injEq] at h
    subst h
    exact ⟨rfl, rfl, rfl, Or.inl rfl⟩
  · cases hr : p.Release with
    | none => simp [hr] at h
    | some x =>
      obtain ⟨ws, p1⟩ := x
      obtain ⟨f1, f2, f3, -, f5⟩ := p.Release_fields ws p1 hr
      simp only [hr, Option.some.injEq] at h
      subst h
      obtain ⟨g1, g2, g3, -, g5, -⟩ := p1.onceCloseAllDone_fields
      have hst : p1.state = p.state ∨ p1.state = CLOSED := by
        rcases f5 with ⟨-, h2⟩ | ⟨-, h2⟩
        · exact Or.inr h2
        · exact Or.inl (by rw [h2])
      show (ite _ _ _ : poolCommon).capacity = _ ∧ (ite _ _ _ : poolCommon).options = _ ∧
        (ite _ _ _ : poolCommon).running = _ ∧
        ((ite _ _ _ : poolCommon).state = _ ∨ (ite _ _ _ : poolCommon).state = _)
      split_ifs
      · exact ⟨g1.trans f1, g5.trans f3, g2.trans f2, by rw [g3]; exact hst⟩
      · exact ⟨f1, f3, f2, hst⟩

/-- What the result of `retrieveWorker` does to the counters of a sound state. -/
theorem PoolState.afterRetrieve_effect (s : PoolState) (p : poolCommon) (cached : Worker)
    (hcap : p.capacity = s.pool.capacity) (hrun : p.running = s.pool.running)
    (hstate : p.state = s.pool.state) (h0 : 0 ≤ s.pool.running)
    (r : Retrieved × poolCommon) (hr : p.retrieveWorker cached = some r)
    (s' : PoolState) (ha : s.afterRetrieve r = some s') :
    s'.pool.capacity = s.pool.capacity ∧ s'.pool.state = s.pool.state ∧
    (s'.pool.running = s.pool.running ∨
      (s'.pool.running = s.pool.running + 1 ∧
        (s.pool.capacity = -1 ∨ s.pool.running < s.pool.capacity))) := by
  obtain ⟨r1, p'⟩ := r
  obtain ⟨f1, f2, -, f4⟩ := p.retrieveWorker_fields cached r1 p' hr
  unfold PoolState.afterRetrieve at ha
  cases r1 with
  | spawned w =>
    simp only at ha
    split_ifs at ha with hroom
    simp only [Option.some.injEq] at ha
    subst ha
    rcases f4 with ⟨-, g2, g3⟩ | ⟨g1, -⟩
    · refine ⟨f1.trans hcap, f2.trans hstate, Or.inr ⟨?_, ?_⟩⟩
      · show p'.running = s.pool.running + 1
        rw [g2, hrun]
        exact int32_eq_self _ (by omega) hroom
      · rw [← hcap, ← hrun]
        rcases g3 with g | g
        · exact Or.inl g
        · exact Or.inr g
    · exact absurd ⟨w, rfl⟩ g1
  | detached w =>
    simp only [Option.some.injEq] at ha
    subst ha
    rcases f4 with ⟨⟨w', hw'⟩, -, -⟩ | ⟨-, g2⟩
    · exact Retrieved.noConfusion hw'
    · exact ⟨f1.trans hcap, f2.trans hstate, Or.inl (g2.trans hrun)⟩
  | failed e =>
    simp only [Option.some.injEq] at ha
    subst ha
    rcases f4 with ⟨⟨w', hw'⟩, -, -⟩ | ⟨-, g2⟩
    · exact Retrieved.noConfusion hw'
    · exact ⟨f1.trans hcap, f2.trans hstate, Or.inl (g2.trans hrun)⟩
  | parked =>
    simp only [Option.some.injEq] at ha
    subst ha
    rcases f4 with ⟨⟨w', hw'⟩, -, -⟩ | ⟨-, g2⟩
    · exact Retrieved.noConfusion hw'
    · exact ⟨f1.trans hcap, f2.trans hstate, Or.inl (g2.trans hrun)⟩

/-- What one step does to the capacity, to `running` and to the state of a sound pool: only
`Tune` changes the capacity; `running` goes up by one only when a worker is started, which takes
an unbounded pool or one below its capacity, and down by one only when a worker exits; the state
changes only by closing, or in `Reboot`. -/
theorem PoolState.Sound.step_effect {s : PoolState} (hs : s.Sound) (op : PoolOp)
    (s' : PoolState) (hstep : s.step op = some s') :
    (s'.pool.capacity = s.pool.capacity ∨ ∃ size, op = PoolOp.tune size) ∧
    (s'.pool.running = s.pool.running ∨ s'.pool.running = s.pool.running - 1 ∨
      (s'.pool.running = s.pool.running + 1 ∧
        (s.pool.capacity = -1 ∨ s.pool.running < s.pool.capacity))) ∧
    (s'.pool.state = s.pool.state ∨ s'.pool.state = CLOSED ∨
      ∃ clock, op = PoolOp.reboot clock) := by
  have hrun := hs.running_eq
  have hlt := hs.running_lt
  have h0 : 0 ≤ s.pool.running := by omega
  have hdec : int32 (s.pool.running - 1) = s.pool.running - 1 :=
    int32_eq_self _ (by omega) (by omega)
  cases op with
  | submit cached =>
    simp only [PoolState.step, Pool.Submit] at hstep
    split_ifs at hstep with hc
    · simp only [Option.some_bind, PoolState.afterRetrieve, Option.some.injEq] at hstep
      subst hstep
      exact ⟨Or.inl rfl, Or.inl rfl, Or.inl rfl⟩
    · cases hr : s.pool.retrieveWorker cached with
      | none => simp [hr] at hstep
      | some r =>
        simp only [hr, Option.map_some', Option.some_bind] at hstep
        obtain ⟨e1, e2, e3⟩ := s.afterRetrieve_effect s.pool cached rfl rfl rfl h0 r hr s' hstep
        exact ⟨Or.inl e1, by tauto, Or.inl e2⟩
  | wake cached =>
    simp only [PoolState.step, Pool.SubmitWake, poolCommon.retrieveWorkerWake] at hstep
    split_ifs at hstep with hw hc
    · simp only [Option.map_some', Option.some_bind, PoolState.afterRetrieve,
        Option.some.injEq] at hstep
      subst hstep
      exact ⟨Or.inl rfl, Or.inl rfl, Or.inl rfl⟩
    · cases hr : (s.pool.addWaiting (-1)).retrieveWorker cached with
      | none => simp [hr] at hstep
      | some r =>
        simp only [hr, Option.map_some', Option.some_bind] at hstep
        obtain ⟨e1, e2, e3⟩ :=
          s.afterRetrieve_effect (s.pool.addWaiting (-1)) cached rfl rfl rfl h0 r hr s' hstep
        exact ⟨Or.inl e1, by tauto, Or.inl e2⟩
  | task w e =>
    simp only [PoolState.step] at hstep
    split_ifs at hstep with hw
    cases hr : s.pool.workerTask w e with
    | none => simp [hr] at hstep
    | some r =>
      simp only [hr, Option.map_some', Option.some.injEq] at hstep
      subst hstep
      obtain ⟨f1, f2, -, f4⟩ := s.pool.workerTask_fields w e r hr
      refine ⟨Or.inl f1, ?_, Or.inl f2⟩
      rcases f4 with ⟨-, g⟩ | ⟨-, g⟩
      · exact Or.inl g
      · exact Or.inr (Or.inl (g.trans hdec))
  | stop w =>
    simp only [PoolState.step] at hstep
    split_ifs at hstep with hw
    simp only [Option.some.injEq] at hstep
    subst hstep
    obtain ⟨-, h2, h3, h4, -, -⟩ := s.pool.workerExit_fields none
    exact ⟨Or.inl h4, Or.inr (Or.inl (h3.trans hdec)), Or.inl h2⟩
  | purge now =>
    simp only [PoolState.step] at hstep
    split_ifs at hstep with hd
    cases hr : s.pool.purgeStaleWorkers now with
    | none => simp [hr] at hstep
    | some r =>
      simp only [hr, Option.map_some', Option.some.injEq] at hstep
      subst hstep
      obtain ⟨f1, f2, -, f4⟩ := s.pool.purgeStaleWorkers_fields now r hr
      exact ⟨Or.inl f1, Or.inl f4, Or.inl f2⟩
  | tick clock =>
    simp only [PoolState.step, Option.some.injEq] at hstep
    subst hstep
    unfold poolCommon.ticktock
    split_ifs <;> exact ⟨Or.inl rfl, Or.inl rfl, Or.inl rfl⟩
  | tune size =>
    simp only [PoolState.step, Option.some.injEq] at hstep
    subst hstep
    obtain ⟨f1, f2, -, -, -⟩ := s.pool.Tune_fields size
    exact ⟨Or.inr ⟨size, rfl⟩, Or.inl f1, Or.inl f2⟩
  | release =>
    simp only [PoolState.step] at hstep
    cases hr : s.pool.Release with
    | none => simp [hr] at hstep
    | some r =>
      simp only [hr, Option.map_some', Option.some.injEq] at hstep
      subst hstep
      obtain ⟨f1, f2, -, -, f5⟩ := s.pool.Release_fields r.1 r.2 hr
      refine ⟨Or.inl f1, Or.inl f2, ?_⟩
      rcases f5 with ⟨-, g⟩ | ⟨-, g⟩
      · exact Or.inr (Or.inl g)
      · exact Or.inl (by show r.2.state = _; rw [g])
  | releaseTimeout =>
    simp only [PoolState.step] at hstep
    cases hr : s.pool.ReleaseTimeout with
    | none => simp [hr] at hstep
    | some r =>
      simp only [hr, Option.map_some', Option.some.injEq] at hstep
      subst hstep
      obtain ⟨f1, -, f3, f4⟩ := s.pool.ReleaseTimeout_fields r hr
      refine ⟨Or.inl f1, Or.inl f3, ?_⟩
      rcases f4 with g | g
      · exact Or.inl g
      · exact Or.inr (Or.inl g)
  | reboot clock =>
    simp only [PoolState.step, Option.some.injEq] at hstep
    subst hstep
    obtain ⟨f1, f2, -, -, -, -, -⟩ := s.pool.Reboot_fields clock
    exact ⟨Or.inl f1, Or.inl f2, Or.inr (Or.inr ⟨clock, rfl⟩)⟩

/-- Every size from 1 on is accepted by `newPoolCommon`, whatever the options. -/
theorem newPoolCommon_of_pos (size : Int) (options : List PoolOption) (clock : Int)
    (h : 1 ≤ size) : ∃ p, newPoolCommon size options clock = Except.ok p := by
  unfold newPoolCommon
  simp only []
  rw [if_neg (by omega)]
  split_ifs <;> first | omega | exact ⟨_, rfl⟩

/-- What a call of `retrieveWorker`, or its resumption after a wait, comes to on a well-formed
queue: it returns or parks; with an error, no worker is handed out and neither `running` nor the
idle queue has changed; with no error and not parked, exactly one worker is handed out. -/
theorem poolCommon.retrieveWorker_outcome (p : poolCommon) (cached : Worker)
    (hq : p.workers.WellFormed) :
    ∃ r p', p.retrieveWorker cached = some (r, p') ∧
      (r.submitted.err ≠ none →
        r.submitted.sentTo = [] ∧ p'.running = p.running ∧ p'.workers = p.workers) ∧
      (r.submitted.err = none → r.submitted.parked = false → ∃ w, r.submitted.sentTo = [w]) := by
  rcases p.retrieveWorker_cases cached hq with
    ⟨w, q', -, -, -, -, hr⟩ | ⟨-, -, ⟨-, hr⟩ | ⟨-, -, hr⟩ | ⟨-, -, hr⟩⟩
  · exact ⟨_, _, hr, fun h => absurd rfl h, fun _ _ => ⟨w, rfl⟩⟩
  · exact ⟨_, _, hr, fun h => absurd rfl h, fun _ _ => ⟨cached, rfl⟩⟩
  · exact ⟨_, _, hr, fun _ => ⟨rfl, rfl, rfl⟩, fun h => Option.noConfusion h⟩
  · exact ⟨_, _, hr, fun h => absurd rfl h, fun _ h => by simp [Retrieved.submitted] at h⟩

/-- The method `retrieveWorker` is its locked part followed by the start of the worker. -/
theorem poolCommon.retrieveWorker_eq_locked_unlocked (p : poolCommon) (cached : Worker) :
    p.retrieveWorker cached =
      (p.retrieveWorkerLocked cached).map (fun r => (r.1, r.2.retrieveWorkerUnlocked r.1)) := by
  unfold poolCommon.retrieveWorker poolCommon.retrieveWorkerLocked
  cases p.workers.detach with
  | none => rfl
  | some d =>
    obtain ⟨dw, q⟩ := d
    cases dw with
    | some w => rfl
    | none =>
      simp only []
      split_ifs <;> rfl

/-- When two callers run the locked part of `retrieveWorker` before either has started its worker,
both start one: `running` ends at 2 on a pool of capacity 1. -/
theorem retrieveWorker_unlocked_start_exceeds_capacity :
    overCapacityRun.map (fun p => (p.Cap, p.Running)) = some (1, 2) := by
  decide

/-- A run of operations is a sequence of steps. -/
theorem PoolState.Steps.of_run : ∀ (ops : List PoolOp) (s s' : PoolState),
    s.run ops = some s' → PoolState.Steps (fun _ _ => True) s s' := by
  have key : ∀ (ops : List PoolOp) (s0 s s' : PoolState),
      PoolState.Steps (fun _ _ => True) s0 s → s.run ops = some s' →
      PoolState.Steps (fun _ _ => True) s0 s' := by
    intro ops
    induction ops with
    | nil =>
      intro s0 s s' h0 h
      simp only [PoolState.run, Option.some.injEq] at h
      subst h
      exact h0
    | cons op ops ih =>
      intro s0 s s' h0 h
      simp only [PoolState.run] at h
      cases hs : s.step op with
      | none => simp [hs] at h
      | some s1 =>
        rw [hs, Option.some_bind] at h
        exact ih s0 s1 s' (PoolState.Steps.tail s0 s s1 op h0 trivial hs) h
  intro ops s s' h
  exact key ops s s s' (PoolState.Steps.refl s) h

/-- Without `Reboot`, a closed pool stays closed, and the books stay kept. -/
theorem PoolState.Steps.closed_of_closed {s s' : PoolState}
    (hsteps : PoolState.Steps noReboot s s') (hs : s.Sound) (hc : s.pool.state = CLOSED) :
    s'.Sound ∧ s'.pool.state = CLOSED := by
  induction hsteps with
  | refl => exact ⟨hs, hc⟩
  | tail s1 s2 op _ hg hstep ih =>
    obtain ⟨hs1, hc1⟩ := ih
    refine ⟨hs1.step op s2 hstep, ?_⟩
    rcases (hs1.step_effect op s2 hstep).2.2 with h | h | ⟨clock, h⟩
    · rw [h, hc1]
    · exact h
    · exact absurd h (hg clock)

/-- Along steps in which no `Tune` sets the capacity below `running`, a pool that keeps the books
and has `running` within a non-negative capacity goes on doing so. -/
theorem PoolState.Steps.within_capacity {s s' : PoolState}
    (hsteps : PoolState.Steps noShrinkBelowRunning s s') (hs : s.Sound)
    (hb : 0 ≤ s.pool.capacity → s.pool.running ≤ s.pool.capacity) :
    s'.Sound ∧ (0 ≤ s'.pool.capacity → s'.pool.running ≤ s'.pool.capacity) := by
  induction hsteps with
  | refl => exact ⟨hs, hb⟩
  | tail s1 s2 op _ hg hstep ih =>
    obtain ⟨hs1, hb1⟩ := ih
    refine ⟨hs1.step op s2 hstep, ?_⟩
    obtain ⟨ecap, erun, -⟩ := hs1.step_effect op s2 hstep
    intro hcap
    rcases ecap with ecap | ⟨size, hop⟩
    · rw [ecap] at hcap ⊢
      have := hb1 hcap
      rcases erun with e | e | ⟨e, hroom⟩
      · omega
      · omega
      · omega
    · subst hop
      have hguard := hg size rfl
      simp only [PoolState.step, Option.some.injEq] at hstep
      subst hstep
      have hrun : (s1.pool.Tune size).running = s1.pool.running := (s1.pool.Tune_fields size).1
      show (s1.pool.Tune size).running ≤ (s1.pool.Tune size).capacity
      have hcap' : 0 ≤ (s1.pool.Tune size).capacity := hcap
      rw [hrun]
      rcases hguard with h | h
      · rw [h] at hcap' ⊢
        exact hb1 hcap'
      · exact h

/-! ## Claims on the life cycle of the pool -/

/-- C11 (counterexample): with a non-nil function and no options, `NewGenericPool` fails with
`ErrInvalidPoolSize` on the unbounded size −1, which `NewPool` accepts. -/
theorem NewGenericPool_rejects_unbounded_size :
    NewGenericPool (-1) true [] 0 = Except.error PoolError.ErrInvalidPoolSize ∧
    ∃ p, NewPool (-1) [] 0 = Except.ok p :=
  ⟨rfl, ⟨_, rfl⟩⟩

/-- C11 (amended): `NewGenericPool` fails with `ErrLackPoolFunc` when the function is nil,
whatever the size and the options; with a non-nil function it returns a pool exactly for the
sizes from 1 on, and fails with `ErrInvalidPoolSize` exactly for the sizes up to 0, the unbounded
size −1 included. -/
theorem NewGenericPool_accepts_positive_sizes (size : Int) (options : List PoolOption)
    (clock : Int) :
    NewGenericPool size false options clock = Except.error PoolError.ErrLackPoolFunc ∧
    ((∃ p, NewGenericPool size true options clock = Except.ok p) ↔ 1 ≤ size) ∧
    (NewGenericPool size true options clock = Except.error PoolError.ErrInvalidPoolSize ↔
      size ≤ 0) := by
  refine ⟨rfl, ?_, ?_⟩
  · constructor
    · rintro ⟨p, hp⟩
      by_contra hn
      unfold NewGenericPool at hp
      rw [if_neg (by simp), if_pos (by omega)] at hp
      exact Except.noConfusion hp
    · intro h
      obtain ⟨pc, hpc⟩ := newPoolCommon_of_pos size options clock h
      refine ⟨{ poolCommon := pc }, ?_⟩
      unfold NewGenericPool
      rw [if_neg (by simp), if_neg (by omega), hpc]
  · constructor
    · intro he
      by_contra hn
      obtain ⟨pc, hpc⟩ := newPoolCommon_of_pos size options clock (by omega)
      unfold NewGenericPool at he
      rw [if_neg (by simp), if_neg hn, hpc] at he
      exact Except.noConfusion he
    · intro h
      unfold NewGenericPool
      rw [if_neg (by simp), if_pos h]

/-- C12 (closed latching): on a reachable pool, `Release` returns and leaves `IsClosed()` true.
From then on, after any sequence of further operations other than `Reboot` (submissions and
their resumptions, task ends, worker exits, purges, clock ticks, `Tune`, `Release`,
`ReleaseTimeout`), `IsClosed()` is still true, every `Submit` returns `ErrPoolClosed` and leaves
the pool as it is, a submitter that wakes up returns `ErrPoolClosed`, and a further `Release`
changes nothing. -/
theorem Release_latches_closed (s : PoolState) (hr : s.Reachable) :
    ∃ s1, s.step PoolOp.release = some s1 ∧ s1.pool.IsClosed = true ∧
      ∀ s2, PoolState.Steps noReboot s1 s2 →
        s2.pool.IsClosed = true ∧
        (∀ cached, (Pool.mk s2.pool).Submit cached =
          some (Retrieved.failed PoolError.ErrPoolClosed, Pool.mk s2.pool)) ∧
        (∀ cached, ∃ p', (Pool.mk s2.pool).SubmitWake cached =
          some (Retrieved.failed PoolError.ErrPoolClosed, p')) ∧
        s2.pool.Release = some ([], s2.pool) ∧
        s2.step PoolOp.release = some s2 := by
  have hs : s.Sound := PoolState.ReachableBy.sound hr
  have hret : ∃ s1, s.step PoolOp.release = some s1 ∧ s1.pool.state = CLOSED := by
    simp only [PoolState.step, poolCommon.Release]
    split_ifs with ho
    · obtain ⟨q', hq, -, -⟩ := hs.queue_wf.reset_spec
      simp only [hq]
      exact ⟨_, rfl, rfl⟩
    · exact ⟨_, rfl, hs.state_ok.resolve_left ho⟩
  obtain ⟨s1, h1, hc1⟩ := hret
  have hs1 : s1.Sound := hs.step _ s1 h1
  have hclosed : ∀ p : poolCommon, p.state = CLOSED → p.IsClosed = true := by
    intro p hp
    simp [poolCommon.IsClosed, hp]
  refine ⟨s1, h1, hclosed _ hc1, ?_⟩
  intro s2 hsteps
  obtain ⟨-, hc2⟩ := hsteps.closed_of_closed hs1 hc1
  have hrel : s2.pool.Release = some ([], s2.pool) := by
    unfold poolCommon.Release
    rw [if_neg (by rw [hc2]; decide)]
  refine ⟨hclosed _ hc2, ?_, ?_, hrel, ?_⟩
  · intro cached
    simp only [Pool.Submit, hclosed _ hc2, if_true]
  · intro cached
    have hw : (s2.pool.addWaiting (-1)).IsClosed = true := hclosed _ hc2
    exact ⟨Pool.mk (s2.pool.addWaiting (-1)), by
      simp only [Pool.SubmitWake, poolCommon.retrieveWorkerWake, hw, if_true, Option.map_some']⟩
  · simp only [PoolState.step, hrel, Option.map_some', List.nil_append]

/-- C12 on the pool that `NewPool(2)` returns. -/
theorem Release_latches_closed_witness :
    ∃ s1, (PoolState.mk (poolCommon.mk 2 0 OPENED 0 NOT_DONE true NOT_DONE true 0
        (Queue.lifo (lifoQueue.mk [] [])) false (Options.mk DefaultCleanIntervalTime false 0 false false false)
        false) []).step PoolOp.release = some s1 ∧ s1.pool.IsClosed = true ∧
      ∀ s2, PoolState.Steps noReboot s1 s2 →
        s2.pool.IsClosed = true ∧
        (∀ cached, (Pool.mk s2.pool).Submit cached =
          some (Retrieved.failed PoolError.ErrPoolClosed, Pool.mk s2.pool)) ∧
        (∀ cached, ∃ p', (Pool.mk s2.pool).SubmitWake cached =
          some (Retrieved.failed PoolError.ErrPoolClosed, p')) ∧
        s2.pool.Release = some ([], s2.pool) ∧
        s2.step PoolOp.release = some s2 :=
  Release_latches_closed
    (PoolState.mk (poolCommon.mk 2 0 OPENED 0 NOT_DONE true NOT_DONE true 0
      (Queue.lifo (lifoQueue.mk [] [])) false (Options.mk DefaultCleanIntervalTime false 0 false false false)
      false) [])
    ⟨2, [], 0, _, by decide, PoolState.Steps.refl _⟩

/-- C13 (counterexample): a pool of capacity 1 under `Nonblocking` has one task submitted, whose
worker is still running when the pool is released and rebooted. The pool is open again, but the
next `Submit` fails with `ErrPoolOverload`. -/
theorem Release_Reboot_Submit_overload :
    ((PoolState.init 1 [WithNonblocking true] 0).bind (fun s =>
        s.run [PoolOp.submit ⟨1, 0⟩, PoolOp.release, PoolOp.reboot 5])).bind (fun s =>
          ((Pool.mk s.pool).Submit ⟨2, 0⟩).map (fun r => (s.pool.state, r.1))) =
      some (OPENED, Retrieved.failed PoolError.ErrPoolOverload) := by
  decide

/-- C13 (amended): on a pool, open or closed, whose idle queue is well formed and which is
unbounded or has `running` below its capacity, `Release` followed by `Reboot` followed by
`Submit` succeeds: `Release` returns, `Reboot` leaves the state `OPENED`, and the `Submit` returns
nil with the task handed to one worker. `Reboot` on a pool that is open changes nothing. -/
theorem Release_Reboot_Submit_succeeds (p : poolCommon) (cached : Worker) (clock : Int)
    (hq : p.workers.WellFormed) (hst : p.state = OPENED ∨ p.state = CLOSED)
    (hroom : p.capacity = -1 ∨ p.running < p.capacity) :
    (∃ finished p1, p.Release = some (finished, p1) ∧ p1.IsClosed = true ∧
      (p1.Reboot clock).state = OPENED ∧
      ∃ r p3, (Pool.mk (p1.Reboot clock)).Submit cached = some (r, p3) ∧
        r.submitted.err = none ∧ r.submitted.parked = false ∧ ∃ w, r.submitted.sentTo = [w]) ∧
    (∀ q : poolCommon, q.state = OPENED → q.Reboot clock = q) := by
  constructor
  · have hrel : ∃ finished p1, p.Release = some (finished, p1) ∧ p1.state = CLOSED ∧
        p1.workers.WellFormed ∧ p1.capacity = p.capacity ∧ p1.running = p.running := by
      unfold poolCommon.Release
      split_ifs with ho
      · obtain ⟨q', hr, hq', -⟩ := hq.reset_spec
        simp only [hr]
        exact ⟨_, _, rfl, rfl, hq', rfl, rfl⟩
      · exact ⟨_, _, rfl, hst.resolve_left ho, hq, rfl, rfl⟩
    obtain ⟨finished, p1, h1, hc, hq1, hcap, hrun⟩ := hrel
    obtain ⟨f1, f2, f3, -, -, f6, -⟩ := p1.Reboot_fields clock
    have hopen := f6 hc
    refine ⟨finished, p1, h1, by simp [poolCommon.IsClosed, hc], hopen, ?_⟩
    generalize p1.Reboot clock = p2 at f1 f2 f3 hopen
    have hq2 : p2.workers.WellFormed := by rw [f3]; exact hq1
    have hnc : p2.IsClosed = false := by
      unfold poolCommon.IsClosed
      rw [hopen]
      decide
    simp only [Pool.Submit, hnc, Bool.false_eq_true, if_false]
    rcases p2.retrieveWorker_cases cached hq2 with
      ⟨w, q', -, -, -, -, hr⟩ | ⟨-, -, ⟨-, hr⟩ | ⟨hno, -⟩ | ⟨hno, -⟩⟩
    · exact ⟨Retrieved.detached w, Pool.mk { p2 with workers := q' }, by rw [hr]; rfl, rfl,
        rfl, w, rfl⟩
    · exact ⟨Retrieved.spawned cached, Pool.mk p2.incRunning, by rw [hr]; rfl, rfl, rfl,
        cached, rfl⟩
    · exfalso
      apply hno
      rw [f1, f2, hcap, hrun]
      omega
    · exfalso
      apply hno
      rw [f1, f2, hcap, hrun]
      omega
  · intro q ho
    exact (q.Reboot_fields clock).2.2.2.2.2.2 (by rw [ho]; decide)

/-- C13 on an open pool of capacity 1 without workers. -/
theorem Release_Reboot_Submit_succeeds_witness :
    (∃ finished p1,
      (poolCommon.mk 1 0 OPENED 0 NOT_DONE true NOT_DONE true 0 (Queue.lifo (lifoQueue.mk [] []))
        false (Options.mk DefaultCleanIntervalTime false 0 false false false) false).Release =
          some (finished, p1) ∧ p1.IsClosed = true ∧
      (p1.Reboot 5).state = OPENED ∧
      ∃ r p3, (Pool.mk (p1.Reboot 5)).Submit ⟨2, 0⟩ = some (r, p3) ∧
        r.submitted.err = none ∧ r.submitted.parked = false ∧ ∃ w, r.submitted.sentTo = [w]) ∧
    (∀ q : poolCommon, q.state = OPENED → q.Reboot 5 = q) :=
  Release_Reboot_Submit_succeeds
    (poolCommon.mk 1 0 OPENED 0 NOT_DONE true NOT_DONE true 0 (Queue.lifo (lifoQueue.mk [] []))
      false (Options.mk DefaultCleanIntervalTime false 0 false false false) false) ⟨2, 0⟩ 5 trivial (Or.inl rfl)
    (Or.inr (by decide))

/-- C14 (counterexample): on a fresh pool of capacity 2, two tasks are submitted, which starts
two workers, and `Tune(1)` is called while they run. The state is reachable, the capacity is 1 and
`running` is 2. -/
theorem Tune_below_running_breaks_capacity_bound :
    ((PoolState.init 2 [] 0).bind (fun s =>
        s.run [PoolOp.submit ⟨1, 0⟩, PoolOp.submit ⟨2, 0⟩, PoolOp.tune 1])).map
        (fun s => (s.pool.Cap, s.pool.Running)) = some (1, 2) ∧
    ∃ s : PoolState, s.Reachable ∧ 0 ≤ s.pool.Cap ∧ ¬ s.pool.Running ≤ s.pool.Cap := by
  have hval : ((PoolState.init 2 [] 0).bind (fun s =>
        s.run [PoolOp.submit ⟨1, 0⟩, PoolOp.submit ⟨2, 0⟩, PoolOp.tune 1])).map
        (fun s => (s.pool.Cap, s.pool.Running)) = some (1, 2) := by
    decide
  refine ⟨hval, ?_⟩
  cases h0 : PoolState.init 2 [] 0 with
  | none =>
    rw [h0] at hval
    simp at hval
  | some s0 =>
    rw [h0, Option.some_bind] at hval
    cases hrun : s0.run [PoolOp.submit ⟨1, 0⟩, PoolOp.submit ⟨2, 0⟩, PoolOp.tune 1] with
    | none =>
      rw [hrun] at hval
      simp at hval
    | some s =>
      rw [hrun] at hval
      simp only [Option.map_some', Option.some.injEq, Prod.mk.injEq] at hval
      refine ⟨s, ⟨2, [], 0, s0, h0, PoolState.Steps.of_run _ s0 s hrun⟩, ?_, ?_⟩
      · rw [hval.1]
        decide
      · rw [hval.1, hval.2]
        decide

/-- C14 (amended): in every state reachable from `NewPool` through operations that run one at a
time and among which no `Tune` sets the capacity below `running`, `running` is at least 0 and,
when the capacity is at least 0, at most the capacity. -/
theorem running_within_capacity (s : PoolState)
    (hr : PoolState.ReachableBy noShrinkBelowRunning s) :
    0 ≤ s.pool.Running ∧ (0 ≤ s.pool.Cap → s.pool.Running ≤ s.pool.Cap) := by
  obtain ⟨size, options, clock, s0, h0, hsteps⟩ := hr
  have hs0 : s0.Sound := PoolState.init_sound size options clock s0 h0
  have hb0 : 0 ≤ s0.pool.capacity → s0.pool.running ≤ s0.pool.capacity := by
    intro h
    have hrun := hs0.running_eq
    have hq : s0.pool.workers.workers = [] ∧ s0.busy = [] := by
      unfold PoolState.init NewPool at h0
      cases hn : newPoolCommon size options clock with
      | error e => simp [hn] at h0
      | ok pc =>
        simp only [hn, Option.some.injEq] at h0
        subst h0
        exact ⟨(newPoolCommon_ok size options clock pc hn).2.2.2.2.2.1, rfl⟩
    rw [hq.1, hq.2] at hrun
    simp only [List.length_nil, Nat.cast_zero, add_zero] at hrun
    rw [hrun]
    exact h
  obtain ⟨hs, hb⟩ := hsteps.within_capacity hs0 hb0
  have hrun := hs.running_eq
  exact ⟨by show 0 ≤ s.pool.running; omega, hb⟩

/-- C14 on the pool that `NewPool(2)` returns, after one submission. -/
theorem running_within_capacity_witness :
    0 ≤ (PoolState.mk (poolCommon.mk 2 1 OPENED 0 NOT_DONE true NOT_DONE true 0
        (Queue.lifo (lifoQueue.mk [] [])) false
        (Options.mk DefaultCleanIntervalTime false 0 false false false) false) [⟨1, 0⟩]).pool.Running ∧
    (0 ≤ (PoolState.mk (poolCommon.mk 2 1 OPENED 0 NOT_DONE true NOT_DONE true 0
        (Queue.lifo (lifoQueue.mk [] [])) false
        (Options.mk DefaultCleanIntervalTime false 0 false false false) false) [⟨1, 0⟩]).pool.Cap →
      (PoolState.mk (poolCommon.mk 2 1 OPENED 0 NOT_DONE true NOT_DONE true 0
        (Queue.lifo (lifoQueue.mk [] [])) false
        (Options.mk DefaultCleanIntervalTime false 0 false false false) false) [⟨1, 0⟩]).pool.Running ≤
      (PoolState.mk (poolCommon.mk 2 1 OPENED 0 NOT_DONE true NOT_DONE true 0
        (Queue.lifo (lifoQueue.mk [] [])) false
        (Options.mk DefaultCleanIntervalTime false 0 false false false) false) [⟨1, 0⟩]).pool.Cap) :=
  running_within_capacity
    (PoolState.mk (poolCommon.mk 2 1 OPENED 0 NOT_DONE true NOT_DONE true 0
        (Queue.lifo (lifoQueue.mk [] [])) false
        (Options.mk DefaultCleanIntervalTime false 0 false false false) false) [⟨1, 0⟩])
    ⟨2, [], 0, (PoolState.mk (poolCommon.mk 2 0 OPENED 0 NOT_DONE true NOT_DONE true 0
        (Queue.lifo (lifoQueue.mk [] [])) false
        (Options.mk DefaultCleanIntervalTime false 0 false false false) false) []),
      by decide,
      PoolState.Steps.tail _ (PoolState.mk (poolCommon.mk 2 0 OPENED 0 NOT_DONE true NOT_DONE true 0
        (Queue.lifo (lifoQueue.mk [] [])) false
        (Options.mk DefaultCleanIntervalTime false 0 false false false) false) []) _
        (PoolOp.submit ⟨1, 0⟩) (PoolState.Steps.refl _)
        (fun size hsz => PoolOp.noConfusion hsz) (by decide)⟩

/-- C15: in every reachable state of the pool, `len()` of the idle queue returns the number of
idle workers, which is at most `running`: `running` is the number of idle workers plus the number
of workers that have been started or detached and have neither gone back to the queue nor
exited. -/
theorem idle_workers_counted_in_running (s : PoolState) (hr : s.Reachable) :
    s.pool.workers.len = some (s.pool.workers.workers.length : Int) ∧
    (s.pool.workers.workers.length : Int) ≤ s.pool.Running ∧
    s.pool.Running = (s.pool.workers.workers.length : Int) + (s.busy.length : Int) := by
  have hs : s.Sound := PoolState.ReachableBy.sound hr
  have hrun := hs.running_eq
  exact ⟨hs.queue_wf.len_spec, by show _ ≤ s.pool.running; omega, hrun⟩

/-- C15 on the pool that `NewPool(2)` returns, after one submission. -/
theorem idle_workers_counted_in_running_witness :
    (PoolState.mk (poolCommon.mk 2 1 OPENED 0 NOT_DONE true NOT_DONE true 0
        (Queue.lifo (lifoQueue.mk [] [])) false
        (Options.mk DefaultCleanIntervalTime false 0 false false false) false) [⟨1, 0⟩]).pool.workers.len =
      some ((PoolState.mk (poolCommon.mk 2 1 OPENED 0 NOT_DONE true NOT_DONE true 0
        (Queue.lifo (lifoQueue.mk [] [])) false
        (Options.mk DefaultCleanIntervalTime false 0 false false false) false) [⟨1, 0⟩]).pool.workers.workers.length : Int) ∧
    ((PoolState.mk (poolCommon.mk 2 1 OPENED 0 NOT_DONE true NOT_DONE true 0
        (Queue.lifo (lifoQueue.mk [] [])) false
        (Options.mk DefaultCleanIntervalTime false 0 false false false) false) [⟨1, 0⟩]).pool.workers.workers.length : Int) ≤
      (PoolState.mk (poolCommon.mk 2 1 OPENED 0 NOT_DONE true NOT_DONE true 0
        (Queue.lifo (lifoQueue.mk [] [])) false
        (Options.mk DefaultCleanIntervalTime false 0 false false false) false) [⟨1, 0⟩]).pool.Running ∧
    (PoolState.mk (poolCommon.mk 2 1 OPENED 0 NOT_DONE true NOT_DONE true 0
        (Queue.lifo (lifoQueue.mk [] [])) false
        (Options.mk DefaultCleanIntervalTime false 0 false false false) false) [⟨1, 0⟩]).pool.Running =
      ((PoolState.mk (poolCommon.mk 2 1 OPENED 0 NOT_DONE true NOT_DONE true 0
        (Queue.lifo (lifoQueue.mk [] [])) false
        (Options.mk DefaultCleanIntervalTime false 0 false false false) false) [⟨1, 0⟩]).pool.workers.workers.length : Int) +
      ((PoolState.mk (poolCommon.mk 2 1 OPENED 0 NOT_DONE true NOT_DONE true 0
        (Queue.lifo (lifoQueue.mk [] [])) false
        (Options.mk DefaultCleanIntervalTime false 0 false false false) false) [⟨1, 0⟩]).busy.length : Int) :=
  idle_workers_counted_in_running
    (PoolState.mk (poolCommon.mk 2 1 OPENED 0 NOT_DONE true NOT_DONE true 0
        (Queue.lifo (lifoQueue.mk [] [])) false
        (Options.mk DefaultCleanIntervalTime false 0 false false false) false) [⟨1, 0⟩])
    ⟨2, [], 0, (PoolState.mk (poolCommon.mk 2 0 OPENED 0 NOT_DONE true NOT_DONE true 0
        (Queue.lifo (lifoQueue.mk [] [])) false
        (Options.mk DefaultCleanIntervalTime false 0 false false false) false) []),
      by decide,
      PoolState.Steps.tail _ (PoolState.mk (poolCommon.mk 2 0 OPENED 0 NOT_DONE true NOT_DONE true 0
        (Queue.lifo (lifoQueue.mk [] [])) false
        (Options.mk DefaultCleanIntervalTime false 0 false false false) false) []) _
        (PoolOp.submit ⟨1, 0⟩) (PoolState.Steps.refl _) trivial (by decide)⟩

/-- C16: on an open pool whose idle queue is empty and whose `running` has reached a bounded
capacity, `Submit` returns `ErrPoolOverload`, leaving the whole pool (`running`, `waiting` and
the queue included) as it was, if and only if `Nonblocking` is set or `MaxBlockingTasks ≠ 0` and
`waiting ≥ MaxBlockingTasks`; in every other case the caller parks on the condition variable and
the only change to the pool is `waiting` incremented by one (the 32-bit counter having room). -/
theorem Submit_overload_iff_may_not_wait (p : poolCommon) (cached : Worker)
    (hopen : p.IsClosed = false) (hq : p.workers.WellFormed) (hempty : p.workers.workers = [])
    (hbounded : p.Cap ≠ -1) (hfull : p.Cap ≤ p.Running)
    (hw0 : -2 ^ 31 ≤ p.waiting) (hw1 : p.waiting + 1 < 2 ^ 31) :
    ((Pool.mk p).Submit cached =
        some (Retrieved.failed PoolError.ErrPoolOverload, Pool.mk p) ↔
      (p.options.Nonblocking = true ∨
        (p.options.MaxBlockingTasks ≠ 0 ∧ p.Waiting ≥ p.options.MaxBlockingTasks))) ∧
    (¬ (p.options.Nonblocking = true ∨
        (p.options.MaxBlockingTasks ≠ 0 ∧ p.Waiting ≥ p.options.MaxBlockingTasks)) →
      (Pool.mk p).Submit cached =
        some (Retrieved.parked, Pool.mk { p with waiting := p.waiting + 1 })) := by
  have hno : ¬ (p.capacity = -1 ∨ p.capacity > p.running) := by
    simp only [poolCommon.Cap, poolCommon.Running] at hbounded hfull
    omega
  have hadd : p.addWaiting 1 = { p with waiting := p.waiting + 1 } := by
    unfold poolCommon.addWaiting
    have h1 : int32 1 = 1 := by decide
    rw [h1, int32_eq_self _ (by omega) hw1]
  have hsub : (Pool.mk p).Submit cached =
      (p.retrieveWorker cached).map (fun r => (r.1, Pool.mk r.2)) := by
    simp only [Pool.Submit, hopen, Bool.false_eq_true, if_false]
  rcases p.retrieveWorker_cases cached hq with
    ⟨w, q', -, -, hl, -, -⟩ | ⟨-, -, ⟨hyes, -⟩ | ⟨-, hc, hr⟩ | ⟨-, hc, hr⟩⟩
  · rw [hempty] at hl
    simp at hl
  · exact absurd hyes hno
  · refine ⟨⟨fun _ => hc, fun _ => by rw [hsub, hr]; rfl⟩, fun h => absurd hc h⟩
  · have hpark : (Pool.mk p).Submit cached =
        some (Retrieved.parked, Pool.mk { p with waiting := p.waiting + 1 }) := by
      rw [hsub, hr, ← hadd]
      rfl
    refine ⟨⟨fun h => ?_, fun h => absurd h hc⟩, fun _ => hpark⟩
    rw [hpark] at h
    simp at h

/-- C16 on a pool of capacity 1 with one running worker and no idle one: under `Nonblocking` the
call fails with `ErrPoolOverload`. -/
theorem Submit_overload_iff_may_not_wait_witness :
    (Pool.mk (poolCommon.mk 1 1 OPENED 0 NOT_DONE true NOT_DONE true 0
        (Queue.lifo (lifoQueue.mk [] [])) false (Options.mk DefaultCleanIntervalTime false 0 true false false)
        false)).Submit ⟨2, 0⟩ =
      some (Retrieved.failed PoolError.ErrPoolOverload,
        Pool.mk (poolCommon.mk 1 1 OPENED 0 NOT_DONE true NOT_DONE true 0
          (Queue.lifo (lifoQueue.mk [] [])) false (Options.mk DefaultCleanIntervalTime false 0 true false false)
          false)) :=
  (Submit_overload_iff_may_not_wait
    (poolCommon.mk 1 1 OPENED 0 NOT_DONE true NOT_DONE true 0
      (Queue.lifo (lifoQueue.mk [] [])) false (Options.mk DefaultCleanIntervalTime false 0 true false false) false)
    ⟨2, 0⟩ (by decide) trivial rfl (by decide) (by decide) (by decide) (by decide)).1.2
    (Or.inl rfl)

/-- C17 (counterexample): on a pool of capacity 10, `Tune(2^31)` is not one of the no-op cases,
and the next `Cap()` returns −2^31, not the size. -/
theorem Tune_wraps_large_size :
    (NewPool 10 [] 0).map (fun p => (p.poolCommon.Tune (2 ^ 31)).Cap) =
      Except.ok (-(2 ^ 31)) := by
  rfl

/-- C17 (amended): `Tune(size)` leaves the pool entirely unchanged when the capacity is −1, when
`size ≤ 0`, when `size` equals the current capacity, or under `PreAlloc`; in every other case the
next `Cap()` returns `size` cut to 32 bits, which is `size` itself when `size < 2^31`, while
`running`, `waiting`, the state, the idle queue and every other field are unchanged. -/
theorem Tune_sets_capacity_to_int32_size (p : poolCommon) (size : Int) :
    ((p.Cap = -1 ∨ size ≤ 0 ∨ size = p.Cap ∨ p.options.PreAlloc = true) → p.Tune size = p) ∧
    (¬ (p.Cap = -1 ∨ size ≤ 0 ∨ size = p.Cap ∨ p.options.PreAlloc = true) →
      p.Tune size = { p with capacity := int32 size } ∧
      (p.Tune size).Cap = int32 size ∧
      (size < 2 ^ 31 → (p.Tune size).Cap = size) ∧
      (p.Tune size).Running = p.Running ∧ (p.Tune size).Waiting = p.Waiting ∧
      (p.Tune size).IsClosed = p.IsClosed ∧ (p.Tune size).workers = p.workers) := by
  constructor
  · intro h
    unfold poolCommon.Tune
    simp only []
    rw [if_pos h]
  · intro h
    have ht : p.Tune size = { p with capacity := int32 size } := by
      unfold poolCommon.Tune
      simp only []
      rw [if_neg h]
    rw [ht]
    refine ⟨rfl, rfl, ?_, rfl, rfl, rfl, rfl⟩
    intro hlt
    show int32 size = size
    exact int32_eq_self size (by omega) hlt

/-- C17 on an open pool of capacity 10 without workers: `Tune(4)` sets the capacity to 4, and
`Tune(0)` changes nothing. -/
theorem Tune_sets_capacity_to_int32_size_witness :
    ((poolCommon.mk 10 0 OPENED 0 NOT_DONE true NOT_DONE true 0 (Queue.lifo (lifoQueue.mk [] []))
        false (Options.mk DefaultCleanIntervalTime false 0 false false false) false).Tune 4).Cap = 4 ∧
    (poolCommon.mk 10 0 OPENED 0 NOT_DONE true NOT_DONE true 0 (Queue.lifo (lifoQueue.mk [] []))
        false (Options.mk DefaultCleanIntervalTime false 0 false false false) false).Tune 0 =
      poolCommon.mk 10 0 OPENED 0 NOT_DONE true NOT_DONE true 0 (Queue.lifo (lifoQueue.mk [] []))
        false (Options.mk DefaultCleanIntervalTime false 0 false false false) false :=
  ⟨((Tune_sets_capacity_to_int32_size
      (poolCommon.mk 10 0 OPENED 0 NOT_DONE true NOT_DONE true 0 (Queue.lifo (lifoQueue.mk [] []))
        false (Options.mk DefaultCleanIntervalTime false 0 false false false) false) 4).2 (by decide)).2.2.1
      (by decide),
    (Tune_sets_capacity_to_int32_size
      (poolCommon.mk 10 0 OPENED 0 NOT_DONE true NOT_DONE true 0 (Queue.lifo (lifoQueue.mk [] []))
        false (Options.mk DefaultCleanIntervalTime false 0 false false false) false) 0).1 (by decide)⟩

/-- C18: on a pool whose idle queue is well formed, a call of `Submit` or of `Invoke`, and its
resumption after a wait, returns or parks. Whenever it returns a non-nil error, the task is
handed to no worker and no worker was started or detached (`running` and the idle queue are
unchanged); whenever it returns nil, the task is sent to exactly one worker. -/
theorem failed_submission_hands_no_task (p : poolCommon) (cached : Worker)
    (hq : p.workers.WellFormed) :
    ∀ call ∈ [((Pool.mk p).Submit cached).map (fun x => (x.1, x.2.poolCommon)),
        ((Pool.mk p).SubmitWake cached).map (fun x => (x.1, x.2.poolCommon)),
        ((GenericPool.mk p).Invoke cached).map (fun x => (x.1, x.2.poolCommon)),
        ((GenericPool.mk p).InvokeWake cached).map (fun x => (x.1, x.2.poolCommon))],
      ∃ r p', call = some (r, p') ∧
        (r.submitted.err ≠ none →
          r.submitted.sentTo = [] ∧ p'.Running = p.Running ∧ p'.workers = p.workers) ∧
        (r.submitted.err = none → r.submitted.parked = false →
          ∃ w, r.submitted.sentTo = [w]) := by
  have hdirect : ∃ r p', (if p.IsClosed = true then
        some (Retrieved.failed PoolError.ErrPoolClosed, p) else p.retrieveWorker cached) =
          some (r, p') ∧
      (r.submitted.err ≠ none →
        r.submitted.sentTo = [] ∧ p'.Running = p.Running ∧ p'.workers = p.workers) ∧
      (r.submitted.err = none → r.submitted.parked = false →
        ∃ w, r.submitted.sentTo = [w]) := by
    split_ifs
    · exact ⟨_, _, rfl, fun _ => ⟨rfl, rfl, rfl⟩, fun h => Option.noConfusion h⟩
    · exact p.retrieveWorker_outcome cached hq
  have hwake : ∃ r p', p.retrieveWorkerWake cached = some (r, p') ∧
      (r.submitted.err ≠ none →
        r.submitted.sentTo = [] ∧ p'.Running = p.Running ∧ p'.workers = p.workers) ∧
      (r.submitted.err = none → r.submitted.parked = false →
        ∃ w, r.submitted.sentTo = [w]) := by
    unfold poolCommon.retrieveWorkerWake
    simp only []
    split_ifs
    · exact ⟨_, _, rfl, fun _ => ⟨rfl, rfl, rfl⟩, fun h => Option.noConfusion h⟩
    · exact (p.addWaiting (-1)).retrieveWorker_outcome cached hq
  have e1 : ((Pool.mk p).Submit cached).map (fun x => (x.1, x.2.poolCommon)) =
      (if p.IsClosed = true then some (Retrieved.failed PoolError.ErrPoolClosed, p)
        else p.retrieveWorker cached) := by
    simp only [Pool.Submit]
    split_ifs
    · rfl
    · cases p.retrieveWorker cached <;> rfl
  have e2 : ((Pool.mk p).SubmitWake cached).map (fun x => (x.1, x.2.poolCommon)) =
      p.retrieveWorkerWake cached := by
    simp only [Pool.SubmitWake]
    cases p.retrieveWorkerWake cached <;> rfl
  have e3 : ((GenericPool.mk p).Invoke cached).map (fun x => (x.1, x.2.poolCommon)) =
      (if p.IsClosed = true then some (Retrieved.failed PoolError.ErrPoolClosed, p)
        else p.retrieveWorker cached) := by
    simp only [GenericPool.Invoke]
    split_ifs
    · rfl
    · cases p.retrieveWorker cached <;> rfl
  have e4 : ((GenericPool.mk p).InvokeWake cached).map (fun x => (x.1, x.2.poolCommon)) =
      p.retrieveWorkerWake cached := by
    simp only [GenericPool.InvokeWake]
    cases p.retrieveWorkerWake cached <;> rfl
  intro call hcall
  simp only [List.mem_cons, List.mem_singleton, List.not_mem_nil, or_false] at hcall
  rcases hcall with h | h | h | h
  · rw [h, e1]; exact hdirect
  · rw [h, e2]; exact hwake
  · rw [h, e3]; exact hdirect
  · rw [h, e4]; exact hwake

/-- C18 on an open pool of capacity 1 with one running worker and no idle one, under
`Nonblocking`, for `Submit` and for `Invoke`. -/
theorem failed_submission_hands_no_task_witness :
    (∃ r p', ((Pool.mk (poolCommon.mk 1 1 OPENED 0 NOT_DONE true NOT_DONE true 0
        (Queue.lifo (lifoQueue.mk [] [])) false
        (Options.mk DefaultCleanIntervalTime false 0 true false false) false)).Submit ⟨2, 0⟩).map (fun x => (x.1, x.2.poolCommon)) = some (r, p') ∧
      (r.submitted.err ≠ none →
        r.submitted.sentTo = [] ∧
        p'.Running = (poolCommon.mk 1 1 OPENED 0 NOT_DONE true NOT_DONE true 0
        (Queue.lifo (lifoQueue.mk [] [])) false
        (Options.mk DefaultCleanIntervalTime false 0 true false false) false).Running ∧
        p'.workers = (poolCommon.mk 1 1 OPENED 0 NOT_DONE true NOT_DONE true 0
        (Queue.lifo (lifoQueue.mk [] [])) false
        (Options.mk DefaultCleanIntervalTime false 0 true false false) false).workers) ∧
      (r.submitted.err = none → r.submitted.parked = false →
        ∃ w, r.submitted.sentTo = [w])) ∧
    (∃ r p', ((GenericPool.mk (poolCommon.mk 1 1 OPENED 0 NOT_DONE true NOT_DONE true 0
        (Queue.lifo (lifoQueue.mk [] [])) false
        (Options.mk DefaultCleanIntervalTime false 0 true false false) false)).Invoke ⟨2, 0⟩).map (fun x => (x.1, x.2.poolCommon)) =
        some (r, p') ∧
      (r.submitted.err ≠ none →
        r.submitted.sentTo = [] ∧
        p'.Running = (poolCommon.mk 1 1 OPENED 0 NOT_DONE true NOT_DONE true 0
        (Queue.lifo (lifoQueue.mk [] [])) false
        (Options.mk DefaultCleanIntervalTime false 0 true false false) false).Running ∧
        p'.workers = (poolCommon.mk 1 1 OPENED 0 NOT_DONE true NOT_DONE true 0
        (Queue.lifo (lifoQueue.mk [] [])) false
        (Options.mk DefaultCleanIntervalTime false 0 true false false) false).workers) ∧
      (r.submitted.err = none → r.submitted.parked = false →
        ∃ w, r.submitted.sentTo = [w])) :=
  ⟨failed_submission_hands_no_task
      (poolCommon.mk 1 1 OPENED 0 NOT_DONE true NOT_DONE true 0
        (Queue.lifo (lifoQueue.mk [] [])) false
        (Options.mk DefaultCleanIntervalTime false 0 true false false) false)
      ⟨2, 0⟩ trivial _ (List.mem_cons_self _ _),
    failed_submission_hands_no_task
      (poolCommon.mk 1 1 OPENED 0 NOT_DONE true NOT_DONE true 0
        (Queue.lifo (lifoQueue.mk [] [])) false
        (Options.mk DefaultCleanIntervalTime false 0 true false false) false)
      ⟨2, 0⟩ trivial _
      (List.mem_cons_of_mem _ (List.mem_cons_of_mem _ (List.mem_cons_self _ _)))⟩

/-- C19: when a task panics with the value `v` inside a worker, the worker recovers the panic:
its run ends without the panic leaving the goroutine, the handler is called exactly once and with
`v` when the pool has a `PanicHandler`, no handler call is made when it has none, and the state of
the pool (open or closed) and its options are what they were. -/
theorem panic_recovered_handler_called_once (p : poolCommon) (w : Worker) (v : Nat) :
    ∃ p', p.workerTask w (TaskEnd.panicked v) =
        some (false, p', if p.options.PanicHandler = true then [v] else []) ∧
      p'.state = p.state ∧ p'.IsClosed = p.IsClosed ∧ p'.options = p.options := by
  obtain ⟨-, h2, -, -, -, h6⟩ := p.workerExit_fields (some v)
  have hc := p.workerExit_calls (some v)
  refine ⟨(p.workerExit (some v)).1, ?_, h2, ?_, h6⟩
  · show some (false, (p.workerExit (some v)).1, (p.workerExit (some v)).2) = _
    rw [hc]
  · unfold poolCommon.IsClosed
    rw [h2]

/-- C20 (counterexample): on a fresh pool of capacity 2, one task is submitted, which starts a
worker and makes `running` 1. When the task returns normally, `running` stays 1 and the worker is
in the idle queue; when the task panics instead, `running` is 0 afterwards and the idle queue is
empty: the worker has not gone back to the queue. -/
theorem panicked_worker_leaves_pool :
    ((PoolState.init 2 [] 0).bind (fun s => s.run [PoolOp.submit ⟨1, 0⟩])).map
        (fun s => (s.pool.Running, s.pool.workers.workers)) = some (1, []) ∧
    ((PoolState.init 2 [] 0).bind (fun s =>
        s.run [PoolOp.submit ⟨1, 0⟩, PoolOp.task ⟨1, 0⟩ TaskEnd.returned])).map
        (fun s => (s.pool.Running, s.pool.workers.workers)) = some (1, [⟨1, 0⟩]) ∧
    ((PoolState.init 2 [] 0).bind (fun s =>
        s.run [PoolOp.submit ⟨1, 0⟩, PoolOp.task ⟨1, 0⟩ (TaskEnd.panicked 7)])).map
        (fun s => (s.pool.Running, s.pool.workers.workers)) = some (0, []) := by
  decide

/-- C20 (amended): after a task has panicked and the panic has been recovered, the goroutine of
the worker ends and the worker does not go back to the idle queue: `running` is one less than
before, the idle queue, the capacity and the state are unchanged. If the pool is open and was
within its capacity (or unbounded), the next `Submit` succeeds, served by a worker of the idle
queue or by a newly started one. -/
theorem panicked_worker_exits (p : poolCommon) (w : Worker) (v : Nat)
    (hrun : 0 < p.running) (hlt : p.running < 2 ^ 31) :
    ∃ p' calls, p.workerTask w (TaskEnd.panicked v) = some (false, p', calls) ∧
      p'.Running = p.Running - 1 ∧ p'.workers = p.workers ∧ p'.Cap = p.Cap ∧
      p'.state = p.state ∧
      (p.state = OPENED → p.workers.WellFormed → (p.capacity = -1 ∨ p.running ≤ p.capacity) →
        ∀ cached, ∃ r p'', (Pool.mk p').Submit cached = some (r, p'') ∧ r.err = none ∧
          ((∃ w', r = Retrieved.detached w' ∧ w' ∈ p.workers.workers) ∨
            (r = Retrieved.spawned cached ∧ p.workers.workers = []))) := by
  obtain ⟨h1, h2, h3, h4, -, -⟩ := p.workerExit_fields (some v)
  have hdec : int32 (p.running - 1) = p.running - 1 := int32_eq_self _ (by omega) (by omega)
  refine ⟨(p.workerExit (some v)).1, (p.workerExit (some v)).2, rfl, h3.trans hdec, h1, h4, h2,
    ?_⟩
  intro ho hq hcap cached
  generalize (p.workerExit (some v)).1 = p' at h1 h2 h3 h4
  have hq' : p'.workers.WellFormed := by rw [h1]; exact hq
  have hnc : p'.IsClosed = false := by
    unfold poolCommon.IsClosed
    rw [h2, ho]
    decide
  simp only [Pool.Submit, hnc, Bool.false_eq_true, if_false]
  rcases p'.retrieveWorker_cases cached hq' with ⟨w', q', -, -, -, hm, hr⟩ | ⟨hemp, -, hr⟩
  · exact ⟨Retrieved.detached w', Pool.mk { p' with workers := q' }, by rw [hr]; rfl, rfl,
      Or.inl ⟨w', rfl, by rw [← h1]; exact hm⟩⟩
  · rcases hr with ⟨-, hr⟩ | ⟨hno, -⟩ | ⟨hno, -⟩
    · exact ⟨Retrieved.spawned cached, Pool.mk p'.incRunning, by rw [hr]; rfl, rfl,
        Or.inr ⟨rfl, by rw [← h1]; exact hemp⟩⟩
    · exfalso
      apply hno
      rw [h4, h3, hdec]
      omega
    · exfalso
      apply hno
      rw [h4, h3, hdec]
      omega

/-- C20 on an open pool of capacity 2 with one running worker and no idle worker: after the
panic `running` is 0, and the next `Submit` starts a new worker. -/
theorem panicked_worker_exits_witness :
    ∃ p' calls,
      (poolCommon.mk 2 1 OPENED 0 NOT_DONE true NOT_DONE true 0 (Queue.lifo (lifoQueue.mk [] []))
        false (Options.mk DefaultCleanIntervalTime false 0 false false false) false).workerTask ⟨1, 0⟩
          (TaskEnd.panicked 7) = some (false, p', calls) ∧
      p'.Running = (poolCommon.mk 2 1 OPENED 0 NOT_DONE true NOT_DONE true 0
        (Queue.lifo (lifoQueue.mk [] [])) false (Options.mk DefaultCleanIntervalTime false 0 false false false)
        false).Running - 1 ∧
      p'.workers = Queue.lifo (lifoQueue.mk [] []) ∧ p'.Cap = 2 ∧ p'.state = OPENED ∧
      ∀ cached, ∃ r p'', (Pool.mk p').Submit cached = some (r, p'') ∧ r.err = none ∧
        ((∃ w', r = Retrieved.detached w' ∧ w' ∈ ([] : List Worker)) ∨
          (r = Retrieved.spawned cached ∧ ([] : List Worker) = [])) := by
  obtain ⟨p', calls, h1, h2, h3, h4, h5, h6⟩ := panicked_worker_exits
    (poolCommon.mk 2 1 OPENED 0 NOT_DONE true NOT_DONE true 0 (Queue.lifo (lifoQueue.mk [] []))
      false (Options.mk DefaultCleanIntervalTime false 0 false false false) false) ⟨1, 0⟩ 7 (by decide) (by decide)
  exact ⟨p', calls, h1, h2, h3, h4, h5, h6 rfl trivial (Or.inr (by decide))⟩

/-! ## Lemmas: the multi-pool -/

/-- What the loop of `next(LeastTasks)` returns: `idx` when no shard that is left runs fewer
workers than `leastTasks`; otherwise the index of the first of the shards left that run the
fewest workers. -/
theorem leastTasksLoop_spec : ∀ (ps : List poolCommon) (i leastTasks idx : Int),
    ((∀ p ∈ ps, ¬ p.Running < leastTasks) ∧ leastTasksLoop ps i leastTasks idx = idx) ∨
    (∃ (k : Nat) (q : poolCommon), ps[k]? = some q ∧
      leastTasksLoop ps i leastTasks idx = i + (k : Int) ∧ q.Running < leastTasks ∧
      (∀ p ∈ ps, q.Running ≤ p.Running) ∧
      (∀ (j : Nat) (p : poolCommon), j < k → ps[j]? = some p → q.Running < p.Running)) := by
  intro ps
  induction ps with
  | nil =>
    intro i leastTasks idx
    left
    exact ⟨fun p hp => absurd hp (List.not_mem_nil p), rfl⟩
  | cons p ps ih =>
    intro i leastTasks idx
    by_cases hlt : p.Running < leastTasks
    · have hstep : leastTasksLoop (p :: ps) i leastTasks idx =
          leastTasksLoop ps (i + 1) p.Running i := by
        simp only [leastTasksLoop, hlt, if_true]
      right
      rcases ih (i + 1) p.Running i with ⟨hnone, hres⟩ | ⟨k, q, hk, hres, hq, hmin, hfirst⟩
      · refine ⟨0, p, by simp, ?_, hlt, ?_, ?_⟩
        · rw [hstep, hres]
          simp
        · intro x hx
          rcases List.mem_cons.mp hx with h | h
          · rw [h]
          · have := hnone x h
            omega
        · intro j x hj
          omega
      · refine ⟨k + 1, q, by simpa using hk, ?_, by omega, ?_, ?_⟩
        · rw [hstep, hres]
          push_cast
          omega
        · intro x hx
          rcases List.mem_cons.mp hx with h | h
          · rw [h]
            omega
          · exact hmin x h
        · intro j x hj hx
          cases j with
          | zero =>
            simp only [List.getElem?_cons_zero, Option.some.injEq] at hx
            rw [← hx]
            exact hq
          | succ j =>
            simp only [List.getElem?_cons_succ] at hx
            exact hfirst j x (by omega) hx
    · have hstep : leastTasksLoop (p :: ps) i leastTasks idx =
          leastTasksLoop ps (i + 1) leastTasks idx := by
        simp only [leastTasksLoop, hlt, if_false]
      rcases ih (i + 1) leastTasks idx with ⟨hnone, hres⟩ | ⟨k, q, hk, hres, hq, hmin, hfirst⟩
      · left
        refine ⟨?_, by rw [hstep, hres]⟩
        intro x hx
        rcases List.mem_cons.mp hx with h | h
        · rw [h]
          exact hlt
        · exact hnone x h
      · right
        refine ⟨k + 1, q, by simpa using hk, ?_, hq, ?_, ?_⟩
        · rw [hstep, hres]
          push_cast
          omega
        · intro x hx
          rcases List.mem_cons.mp hx with h | h
          · rw [h]
            omega
          · exact hmin x h
        · intro j x hj hx
          cases j with
          | zero =>
            simp only [List.getElem?_cons_zero, Option.some.injEq] at hx
            rw [← hx]
            omega
          | succ j =>
            simp only [List.getElem?_cons_succ] at hx
            exact hfirst j x (by omega) hx

/-- On a multi-pool with a shard, `next(LeastTasks)` returns the index of a shard. -/
theorem leastTasksLoop_range (ps : List poolCommon) (h : ps ≠ []) (leastTasks : Int) :
    0 ≤ leastTasksLoop ps 0 leastTasks 0 ∧
    leastTasksLoop ps 0 leastTasks 0 < (ps.length : Int) := by
  have hpos : 0 < ps.length := List.length_pos.mpr h
  rcases leastTasksLoop_spec ps 0 leastTasks 0 with ⟨-, hres⟩ | ⟨k, q, hk, hres, -, -, -⟩
  · rw [hres]
    omega
  · have hkl : k < ps.length := by
      by_contra hn
      rw [List.getElem?_eq_none (by omega)] at hk
      exact Option.noConfusion hk
    rw [hres]
    omega

/-- The sum that a loop `n += f(mp.pools[i])` computes. -/
theorem foldl_add_eq_sum (f : poolCommon → Int) : ∀ (ps : List poolCommon) (a : Int),
    ps.foldl (fun n p => n + f p) a = a + (ps.map f).sum := by
  intro ps
  induction ps with
  | nil => intro a; simp
  | cons p ps ih =>
    intro a
    simp only [List.foldl_cons, List.map_cons, List.sum_cons]
    rw [ih]
    omega

/-- A sum of equal terms. -/
theorem sum_map_const (f : poolCommon → Int) (c : Int) : ∀ (ps : List poolCommon),
    (∀ p ∈ ps, f p = c) → (ps.map f).sum = (ps.length : Int) * c := by
  intro ps
  induction ps with
  | nil => intro _; simp
  | cons p ps ih =>
    intro h
    simp only [List.map_cons, List.sum_cons, List.length_cons]
    rw [ih (fun x hx => h x (List.mem_cons_of_mem _ hx)), h p (List.mem_cons_self _ _)]
    push_cast
    ring

/-- Whether `NewPool` fails does not depend on the clock, and its error is always
`ErrInvalidPoolSize`. -/
theorem NewPool_error_clock (size : Int) (options : List PoolOption) (c c' : Int)
    (e : PoolError) (h : NewPool size options c = Except.error e) :
    e = PoolError.ErrInvalidPoolSize ∧ NewPool size options c' = Except.error e := by
  unfold NewPool newPoolCommon at h ⊢
  simp only [] at h ⊢
  split_ifs at h ⊢ <;>
    exact ⟨(Except.error.inj h).symm, congrArg Except.error (Except.error.inj h)⟩

/-- The loop of `NewMultiPool` fails as soon as `NewPool` does, with the error of `NewPool`, and
otherwise builds `n` shards, each of them a pool that `NewPool` returns. -/
theorem newPoolsLoop_spec (sizePerPool : Int) (options : List PoolOption) (clock : Nat → Int) :
    ∀ (n i : Nat),
      (∀ e, newPoolsLoop sizePerPool options clock n i = Except.error e →
        0 < n ∧ ∀ c, NewPool sizePerPool options c = Except.error e) ∧
      (∀ ps, newPoolsLoop sizePerPool options clock n i = Except.ok ps →
        ps.length = n ∧
        ∀ p ∈ ps, ∃ c pool, NewPool sizePerPool options c = Except.ok pool ∧
          pool.poolCommon = p) := by
  intro n
  induction n with
  | zero =>
    intro i
    constructor
    · intro e h
      exact Except.noConfusion h
    · intro ps h
      have := Except.ok.inj h
      subst this
      exact ⟨rfl, fun p hp => absurd hp (List.not_mem_nil p)⟩
  | succ n ih =>
    intro i
    obtain ⟨ihe, iho⟩ := ih (i + 1)
    cases hp : NewPool sizePerPool options (clock i) with
    | error err =>
      constructor
      · intro e h
        simp only [newPoolsLoop, hp] at h
        have := Except.error.inj h
        subst this
        exact ⟨Nat.succ_pos n, fun c => (NewPool_error_clock _ _ _ c _ hp).2⟩
      · intro ps h
        simp only [newPoolsLoop, hp] at h
        exact Except.noConfusion h
    | ok pool =>
      cases hl : newPoolsLoop sizePerPool options clock n (i + 1) with
      | error err =>
        constructor
        · intro e h
          simp only [newPoolsLoop, hp, hl] at h
          have := Except.error.inj h
          subst this
          exact ⟨Nat.succ_pos n, (ihe _ hl).2⟩
        · intro ps h
          simp only [newPoolsLoop, hp, hl] at h
          exact Except.noConfusion h
      | ok pools =>
        constructor
        · intro e h
          simp only [newPoolsLoop, hp, hl] at h
          exact Except.noConfusion h
        · intro ps h
          simp only [newPoolsLoop, hp, hl] at h
          have := Except.ok.inj h
          subst this
          obtain ⟨h1, h2⟩ := iho pools hl
          refine ⟨by simp [h1], ?_⟩
          intro p hmem
          rcases List.mem_cons.mp hmem with h | h
          · exact ⟨clock i, pool, hp, h.symm⟩
          · exact h2 p h

/-- What a successful `NewMultiPool` builds: `size` shards, each a pool that `NewPool` returns,
the round-robin counter at `MaxUint32`, the state `OPENED` and the strategy asked for, which is
one of the two. -/
theorem NewMultiPool_ok (size sizePerPool lbs : Int) (options : List PoolOption)
    (clock : Nat → Int) (mp : MultiPool)
    (h : NewMultiPool size sizePerPool lbs options clock = Except.ok mp) :
    0 < size ∧ (mp.multiPoolCommon.pools.length : Int) = size ∧
    mp.multiPoolCommon.index = MaxUint32 ∧ mp.multiPoolCommon.state = OPENED ∧
    mp.multiPoolCommon.lbs = lbs ∧ (lbs = RoundRobin ∨ lbs = LeastTasks) ∧
    ∀ p ∈ mp.multiPoolCommon.pools, ∃ c pool, NewPool sizePerPool options c = Except.ok pool ∧
      pool.poolCommon = p := by
  unfold NewMultiPool at h
  by_cases h1 : size ≤ 0
  · rw [if_pos h1] at h
    exact Except.noConfusion h
  rw [if_neg h1] at h
  by_cases h2 : lbs ≠ RoundRobin ∧ lbs ≠ LeastTasks
  · rw [if_pos h2] at h
    exact Except.noConfusion h
  rw [if_neg h2] at h
  · cases hl : newPoolsLoop sizePerPool options clock size.toNat 0 with
    | error err =>
      rw [hl] at h
      exact Except.noConfusion h
    | ok pools =>
      rw [hl] at h
      have := Except.ok.inj h
      subst this
      obtain ⟨hlen, hall⟩ := (newPoolsLoop_spec sizePerPool options clock size.toNat 0).2 pools hl
      refine ⟨by omega, ?_, rfl, rfl, rfl, by tauto, hall⟩
      show (pools.length : Int) = size
      rw [hlen]
      omega

/-- After `k` calls of `next(RoundRobin)` the counter has advanced by `k` modulo `2^32`, and
nothing else has changed. -/
theorem multiPoolCommon.afterNext_RoundRobin (mp : multiPoolCommon)
    (hn : (mp.pools.length : Int) % 2 ^ 32 ≠ 0) (hi0 : 0 ≤ mp.index) (hi1 : mp.index < 2 ^ 32) :
    ∀ k : Nat, mp.afterNext RoundRobin k =
      some { mp with index := (mp.index + (k : Int)) % 2 ^ 32 } := by
  intro k
  induction k with
  | zero =>
    have h : (mp.index + ((0 : Nat) : Int)) % 2 ^ 32 = mp.index := by
      rw [Int.emod_eq_of_lt] <;> omega
    rw [h]
    rfl
  | succ k ih =>
    have h : ((mp.index + (k : Int)) % 2 ^ 32 + 1) % 2 ^ 32 =
        (mp.index + ((k + 1 : Nat) : Int)) % 2 ^ 32 := by
      push_cast
      omega
    simp only [multiPoolCommon.afterNext, ih, Option.some_bind, multiPoolCommon.next, if_true,
      if_neg hn, Option.map_some', h]

/-- The `k`-th call of `next(RoundRobin)` returns the counter, advanced by `k` modulo `2^32`,
modulo the number of shards. -/
theorem multiPoolCommon.nthNext_RoundRobin (mp : multiPoolCommon)
    (hn : (mp.pools.length : Int) % 2 ^ 32 ≠ 0) (hi0 : 0 ≤ mp.index) (hi1 : mp.index < 2 ^ 32)
    (k : Nat) (hk : 1 ≤ k) :
    mp.nthNext RoundRobin k =
      some (((mp.index + (k : Int)) % 2 ^ 32) % ((mp.pools.length : Int) % 2 ^ 32)) := by
  have h : ((mp.index + ((k - 1 : Nat) : Int)) % 2 ^ 32 + 1) % 2 ^ 32 =
      (mp.index + (k : Int)) % 2 ^ 32 := by
    have : ((k - 1 : Nat) : Int) = (k : Int) - 1 := by omega
    rw [this]
    omega
  simp only [multiPoolCommon.nthNext, mp.afterNext_RoundRobin hn hi0 hi1 (k - 1),
    Option.some_bind, multiPoolCommon.next, if_true, if_neg hn, Option.map_some', h]

/-- On a well-formed queue a failed `insert` fails with `ErrQueueIsFull`. -/
theorem Queue.WellFormed.insert_error {q : Queue} (hq : q.WellFormed) (w : Worker)
    (e : PoolError) (q' : Queue) (h : q.insert w = some (some e, q')) :
    e = PoolError.ErrQueueIsFull := by
  cases q with
  | lifo ws =>
    simp only [Queue.insert, lifoQueue.insert, Option.some.injEq, Prod.mk.injEq] at h
    exact Option.noConfusion h.1
  | fifo owq =>
    cases owq with
    | none => exact hq.elim
    | some wq =>
      have hwf : wq.Holds wq.workers := hq
      rcases lt_or_eq_of_le hwf.length_le with hlt | heq
      · obtain ⟨wq', h1, -, -⟩ := hwf.insert_ok w hlt
        simp only [Queue.insert, h1, Option.map_some', Option.some.injEq, Prod.mk.injEq] at h
        exact Option.noConfusion h.1
      · have h1 := hwf.insert_full w heq
        simp only [Queue.insert, h1, Option.map_some', Option.some.injEq, Prod.mk.injEq] at h
        exact h.1.symm

theorem poolCommon.SameFlags.trans {p p1 p2 : poolCommon} (h1 : p.SameFlags p1)
    (h2 : p1.SameFlags p2) : p.SameFlags p2 :=
  ⟨h2.1.trans h1.1, h2.2.1.trans h1.2.1, h2.2.2.1.trans h1.2.2.1, h2.2.2.2.trans h1.2.2.2⟩

theorem poolCommon.retrieveWorker_flags (p : poolCommon) (cached : Worker)
    (r : Retrieved) (p' : poolCommon) (h : p.retrieveWorker cached = some (r, p')) :
    p.SameFlags p' := by
  unfold poolCommon.retrieveWorker at h
  cases hd : p.workers.detach with
  | none => simp [hd] at h
  | some d =>
    obtain ⟨dw, q⟩ := d
    rw [hd] at h
    cases dw with
    | some w =>
      simp only [Option.some.injEq, Prod.mk.injEq] at h
      obtain ⟨-, h2⟩ := h
      subst h2
      exact ⟨rfl, rfl, rfl, rfl⟩
    | none =>
      simp only [poolCommon.Cap, poolCommon.Running] at h
      split_ifs at h <;>
      · simp only [Option.some.injEq, Prod.mk.injEq] at h
        obtain ⟨-, h2⟩ := h
        subst h2
        exact ⟨rfl, rfl, rfl, rfl⟩

theorem Submit_flags (p : poolCommon) (cached : Worker) (wake : Bool)
    (r : Retrieved) (p' : Pool)
    (h : (if wake = true then (Pool.mk p).SubmitWake cached else (Pool.mk p).Submit cached) =
      some (r, p')) :
    p.SameFlags p'.poolCommon := by
  cases wake with
  | false =>
    simp only [Bool.false_eq_true, if_false, Pool.Submit] at h
    split_ifs at h with hc
    · simp only [Option.some.injEq, Prod.mk.injEq] at h
      obtain ⟨-, h2⟩ := h
      subst h2
      exact ⟨rfl, rfl, rfl, rfl⟩
    · cases hr : p.retrieveWorker cached with
      | none => simp [hr] at h
      | some x =>
        simp only [hr, Option.map_some', Option.some.injEq, Prod.mk.injEq] at h
        obtain ⟨-, h2⟩ := h
        subst h2
        exact p.retrieveWorker_flags cached x.1 x.2 hr
  | true =>
    simp only [if_true, Pool.SubmitWake, poolCommon.retrieveWorkerWake] at h
    split_ifs at h with hc
    · simp only [Option.map_some', Option.some.injEq, Prod.mk.injEq] at h
      obtain ⟨-, h2⟩ := h
      subst h2
      exact ⟨rfl, rfl, rfl, rfl⟩
    · cases hr : (p.addWaiting (-1)).retrieveWorker cached with
      | none => simp [hr] at h
      | some x =>
        simp only [hr, Option.map_some', Option.some.injEq, Prod.mk.injEq] at h
        obtain ⟨-, h2⟩ := h
        subst h2
        exact poolCommon.SameFlags.trans ⟨rfl, rfl, rfl, rfl⟩
          ((p.addWaiting (-1)).retrieveWorker_flags cached x.1 x.2 hr)

theorem poolCommon.workerExit_flags (p : poolCommon) (recovered : Option Nat) :
    p.SameFlags (p.workerExit recovered).1 := by
  unfold poolCommon.workerExit poolCommon.onceCloseAllDone poolCommon.decRunning
  simp only []
  split_ifs <;> exact ⟨rfl, rfl, rfl, rfl⟩

theorem poolCommon.revertWorker_flags (p : poolCommon) (w : Worker) (b : Bool)
    (p' : poolCommon) (h : p.revertWorker w = some (b, p')) : p.SameFlags p' := by
  unfold poolCommon.revertWorker poolCommon.revertWorkerStamp at h
  split_ifs at h with hrej
  · simp only [Option.some.injEq, Prod.mk.injEq] at h
    obtain ⟨-, h2⟩ := h
    subst h2
    exact ⟨rfl, rfl, rfl, rfl⟩
  · simp only [poolCommon.revertWorkerLocked] at h
    split_ifs at h with hcl
    · simp only [Option.some.injEq, Prod.mk.injEq] at h
      obtain ⟨-, h2⟩ := h
      subst h2
      exact ⟨rfl, rfl, rfl, rfl⟩
    · cases hi : p.workers.insert (w.setLastUsedTime p.nowTime) with
      | none => simp [hi] at h
      | some r =>
        obtain ⟨e, q⟩ := r
        rw [hi] at h
        cases e with
        | none =>
          simp only [Option.some.injEq, Prod.mk.injEq] at h
          obtain ⟨-, h2⟩ := h
          subst h2
          exact ⟨rfl, rfl, rfl, rfl⟩
        | some err =>
          simp only [Option.some.injEq, Prod.mk.injEq] at h
          obtain ⟨-, h2⟩ := h
          subst h2
          exact ⟨rfl, rfl, rfl, rfl⟩

/-- The events inside a shard leave its state, its cancel functions and its options alone. -/
theorem poolCommon.event_flags (p : poolCommon) (op : PoolOp) (p' : poolCommon)
    (h : p.event op = some p') : p.SameFlags p' := by
  cases op with
  | task w e =>
    cases e with
    | panicked v =>
      simp only [poolCommon.event, poolCommon.workerTask, Option.map_some',
        Option.some.injEq] at h
      subst h
      exact p.workerExit_flags (some v)
    | returned =>
      simp only [poolCommon.event, poolCommon.workerTask] at h
      cases hr : p.revertWorker w with
      | none => simp [hr] at h
      | some x =>
        obtain ⟨b, p1⟩ := x
        have f := p.revertWorker_flags w b p1 hr
        rw [hr] at h
        cases b with
        | true =>
          simp only [Option.map_some', Option.some.injEq] at h
          subst h
          exact f
        | false =>
          simp only [Option.map_some', Option.some.injEq] at h
          subst h
          exact f.trans (p1.workerExit_flags none)
  | stop w =>
    simp only [poolCommon.event, poolCommon.workerStop, Option.some.injEq] at h
    subst h
    exact p.workerExit_flags none
  | purge now =>
    simp only [poolCommon.event, poolCommon.purgeStaleWorkers] at h
    split_ifs at h with hd hc
    · simp only [Option.map_some', Option.some.injEq] at h
      subst h
      exact ⟨rfl, rfl, rfl, rfl⟩
    · cases hr : p.workers.refresh now p.options.ExpiryDuration with
      | none => simp [hr] at h
      | some x =>
        simp only [hr] at h
        cases hf : finishAll x.1 with
        | none => simp [hf] at h
        | some ws =>
          simp only [hf, Option.map_some', Option.some.injEq] at h
          subst h
          exact ⟨rfl, rfl, rfl, rfl⟩
  | tick clock =>
    simp only [poolCommon.event, poolCommon.ticktock, Option.some.injEq] at h
    subst h
    split_ifs <;> exact ⟨rfl, rfl, rfl, rfl⟩
  | submit cached => simp [poolCommon.event] at h
  | wake cached => simp [poolCommon.event] at h
  | tune size => simp [poolCommon.event] at h
  | release => simp [poolCommon.event] at h
  | releaseTimeout => simp [poolCommon.event] at h
  | reboot clock => simp [poolCommon.event] at h

theorem poolCommon.Tune_flags (p : poolCommon) (size : Int) : p.SameFlags (p.Tune size) := by
  unfold poolCommon.Tune
  simp only []
  split_ifs <;> exact ⟨rfl, rfl, rfl, rfl⟩

/-- An open pool whose goroutines run is closed by `ReleaseTimeout`, and by `Release`. -/
theorem poolCommon.ReleaseTimeout_closes (p : poolCommon)
    (r : Option PoolError × List Worker × poolCommon) (h : p.ReleaseTimeout = some r)
    (ho : p.state = OPENED) (ht : p.stopTicktock = true)
    (hp : p.options.DisablePurge = false → p.stopPurge = true) : r.2.2.state = CLOSED := by
  unfold poolCommon.ReleaseTimeout at h
  have hnc : p.IsClosed = false := by
    unfold poolCommon.IsClosed
    rw [ho]
    decide
  have hcond : ¬ (p.IsClosed = true ∨ (p.options.DisablePurge = false ∧ p.stopPurge = false) ∨
      p.stopTicktock = false) := by
    rintro (h1 | ⟨h1, h2⟩ | h1)
    · rw [hnc] at h1
      exact Bool.noConfusion h1
    · rw [hp h1] at h2
      exact Bool.noConfusion h2
    · rw [ht] at h1
      exact Bool.noConfusion h1
  rw [if_neg hcond] at h
  cases hr : p.Release with
  | none => simp [hr] at h
  | some x =>
    obtain ⟨ws, p1⟩ := x
    obtain ⟨-, -, -, -, f5⟩ := p.Release_fields ws p1 hr
    have hc1 : p1.state = CLOSED := by
      rcases f5 with ⟨-, h2⟩ | ⟨h1, -⟩
      · exact h2
      · exact absurd ho h1
    simp only [hr, Option.some.injEq] at h
    subst h
    show (ite _ _ _ : poolCommon).state = CLOSED
    split_ifs
    · rw [p1.onceCloseAllDone_fields.2.2.1]
      exact hc1
    · exact hc1

/-- A closed pool is open after `Reboot`, with its clock goroutine and, unless purging is
disabled, its purge goroutine running. -/
theorem poolCommon.Reboot_opens (p : poolCommon) (clock : Int) (hc : p.state = CLOSED) :
    (p.Reboot clock).state = OPENED ∧ (p.Reboot clock).stopTicktock = true ∧
    ((p.Reboot clock).options.DisablePurge = false → (p.Reboot clock).stopPurge = true) := by
  unfold poolCommon.Reboot
  rw [if_pos hc]
  unfold poolCommon.goTicktock poolCommon.goPurge
  split_ifs with hd
  · refine ⟨rfl, rfl, ?_⟩
    intro h
    rw [h] at hd
    exact Bool.noConfusion hd
  · exact ⟨rfl, rfl, fun _ => rfl⟩

/-- A pool that `NewPool` has just built is open, with its clock goroutine and, unless purging is
disabled, its purge goroutine running. -/
theorem NewPool_flags (size : Int) (options : List PoolOption) (clock : Int) (pool : Pool)
    (h : NewPool size options clock = Except.ok pool) :
    pool.poolCommon.state = OPENED ∧ pool.poolCommon.stopTicktock = true ∧
    (pool.poolCommon.options.DisablePurge = false → pool.poolCommon.stopPurge = true) := by
  have key : ∀ (base : poolCommon), base.state = OPENED →
      (base.goPurge.goTicktock clock).state = OPENED ∧
      (base.goPurge.goTicktock clock).stopTicktock = true ∧
      ((base.goPurge.goTicktock clock).options.DisablePurge = false →
        (base.goPurge.goTicktock clock).stopPurge = true) := by
    intro base hb
    unfold poolCommon.goTicktock poolCommon.goPurge
    split_ifs with hd
    · refine ⟨hb, rfl, ?_⟩
      intro h
      rw [h] at hd
      exact Bool.noConfusion hd
    · exact ⟨hb, rfl, fun _ => rfl⟩
  unfold NewPool newPoolCommon at h
  simp only [] at h
  split_ifs at h <;> first
    | exact Except.noConfusion h
    | (have hp := Except.ok.inj h
       subst hp
       exact key _ rfl)

theorem releaseEach_spec : ∀ (ps ps' : List poolCommon), releaseEach ps = some ps' →
    ps'.length = ps.length ∧ ∀ q ∈ ps', ∃ p ∈ ps, ∃ ws, p.Release = some (ws, q) := by
  intro ps
  induction ps with
  | nil =>
    intro ps' h
    simp only [releaseEach, Option.some.injEq] at h
    subst h
    exact ⟨rfl, fun q hq => absurd hq (List.not_mem_nil q)⟩
  | cons p ps ih =>
    intro ps' h
    simp only [releaseEach] at h
    cases hr : p.Release with
    | none => simp [hr] at h
    | some x =>
      obtain ⟨ws, p1⟩ := x
      cases hl : releaseEach ps with
      | none => simp [hr, hl] at h
      | some rest =>
        simp only [hr, hl, Option.some.injEq] at h
        subst h
        obtain ⟨h1, h2⟩ := ih rest hl
        refine ⟨by simp [h1], ?_⟩
        intro q hq
        rcases List.mem_cons.mp hq with e | e
        · exact ⟨p, List.mem_cons_self _ _, ws, by rw [e]; exact hr⟩
        · obtain ⟨p0, hp0, ws0, h0⟩ := h2 q e
          exact ⟨p0, List.mem_cons_of_mem _ hp0, ws0, h0⟩

theorem releaseTimeoutEach_spec : ∀ (ps : List poolCommon)
    (r : Option PoolError × List poolCommon), releaseTimeoutEach ps = some r →
    r.2.length = ps.length ∧ ∀ q ∈ r.2, ∃ p ∈ ps, ∃ x, p.ReleaseTimeout = some x ∧ x.2.2 = q := by
  intro ps
  induction ps with
  | nil =>
    intro r h
    simp only [releaseTimeoutEach, Option.some.injEq] at h
    subst h
    exact ⟨rfl, fun q hq => absurd hq (List.not_mem_nil q)⟩
  | cons p ps ih =>
    intro r h
    simp only [releaseTimeoutEach] at h
    cases hr : p.ReleaseTimeout with
    | none => simp [hr] at h
    | some x =>
      obtain ⟨e, ws, p1⟩ := x
      cases hl : releaseTimeoutEach ps with
      | none => simp [hr, hl] at h
      | some rest =>
        simp only [hr, hl, Option.some.injEq] at h
        subst h
        obtain ⟨h1, h2⟩ := ih rest hl
        refine ⟨by simp [h1], ?_⟩
        intro q hq
        rcases List.mem_cons.mp hq with e' | e'
        · exact ⟨p, List.mem_cons_self _ _, (e, ws, p1), hr, e'.symm⟩
        · obtain ⟨p0, hp0, x0, h0, h0'⟩ := h2 q e'
          exact ⟨p0, List.mem_cons_of_mem _ hp0, x0, h0, h0'⟩

theorem rebootEach_spec (clock : Nat → Int) : ∀ (ps : List poolCommon) (i : Nat),
    (rebootEach clock ps i).length = ps.length ∧
    ∀ q ∈ rebootEach clock ps i, ∃ p ∈ ps, ∃ c, q = p.Reboot c := by
  intro ps
  induction ps with
  | nil =>
    intro i
    exact ⟨rfl, fun q hq => absurd hq (List.not_mem_nil q)⟩
  | cons p ps ih =>
    intro i
    obtain ⟨h1, h2⟩ := ih (i + 1)
    refine ⟨by simp [rebootEach, h1], ?_⟩
    intro q hq
    simp only [rebootEach] at hq
    rcases List.mem_cons.mp hq with e | e
    · exact ⟨p, List.mem_cons_self _ _, clock i, e⟩
    · obtain ⟨p0, hp0, c, h0⟩ := h2 q e
      exact ⟨p0, List.mem_cons_of_mem _ hp0, c, h0⟩

/-- The method `next` changes nothing but the round-robin counter. -/
theorem multiPoolCommon.next_fields (mp : multiPoolCommon) (lbs : Int) (i : Int)
    (mpc : multiPoolCommon) (h : mp.next lbs = some (i, mpc)) :
    mpc.pools = mp.pools ∧ mpc.state = mp.state ∧ mpc.lbs = mp.lbs := by
  unfold multiPoolCommon.next at h
  simp only [] at h
  split_ifs at h <;>
  · simp only [Option.some.injEq, Prod.mk.injEq] at h
    obtain ⟨-, h2⟩ := h
    subst h2
    exact ⟨rfl, rfl, rfl⟩

/-- What a shard submission does to the multi-pool: the shard is replaced by what its `Submit`
leaves. -/
theorem MultiPool.submitAt_spec (mp : MultiPool) (i : Int) (cached : Worker) (wake : Bool)
    (r : Retrieved) (mp' : MultiPool) (h : mp.submitAt i cached wake = some (r, mp')) :
    ∃ p p', index? mp.multiPoolCommon.pools i = some p ∧
      (if wake = true then (Pool.mk p).SubmitWake cached else (Pool.mk p).Submit cached) =
        some (r, p') ∧
      assign? mp.multiPoolCommon.pools i p'.poolCommon = some mp'.multiPoolCommon.pools ∧
      mp'.multiPoolCommon.state = mp.multiPoolCommon.state ∧
      mp'.multiPoolCommon.lbs = mp.multiPoolCommon.lbs ∧
      mp'.multiPoolCommon.index = mp.multiPoolCommon.index := by
  unfold MultiPool.submitAt at h
  cases hi : index? mp.multiPoolCommon.pools i with
  | none => simp [hi] at h
  | some p =>
    simp only [hi] at h
    cases hs : (if wake = true then (Pool.mk p).SubmitWake cached
        else (Pool.mk p).Submit cached) with
    | none => simp [hs] at h
    | some x =>
      obtain ⟨r1, p'⟩ := x
      simp only [hs] at h
      cases ha : assign? mp.multiPoolCommon.pools i p'.poolCommon with
      | none => simp [ha] at h
      | some ps =>
        simp only [ha, Option.map_some', Option.some.injEq, Prod.mk.injEq] at h
        obtain ⟨h1, h2⟩ := h
        subst h1 h2
        exact ⟨p, p', rfl, hs, ha, rfl, rfl, rfl⟩

/-- Replacing a shard by a pool with the same state, cancel functions and options keeps the
multi-pool and its shards in agreement. -/
theorem MultiPool.Coherent.set_shard {mp : MultiPool} (hc : mp.Coherent) (i : Int)
    (p p' : poolCommon) (ps : List poolCommon) (mp' : MultiPool)
    (hi : index? mp.multiPoolCommon.pools i = some p) (hf : p.SameFlags p')
    (ha : assign? mp.multiPoolCommon.pools i p' = some ps)
    (hps : mp'.multiPoolCommon.pools = ps)
    (hst : mp'.multiPoolCommon.state = mp.multiPoolCommon.state) : mp'.Coherent := by
  have hmem : p ∈ mp.multiPoolCommon.pools := by
    unfold index? at hi
    split_ifs at hi
    exact List.mem_iff_getElem?.mpr ⟨_, hi⟩
  unfold assign? at ha
  split_ifs at ha with hr
  simp only [Option.some.injEq] at ha
  refine ⟨by rw [hst]; exact hc.state_ok, ?_, ?_⟩
  · rw [hps, ← ha]
    intro h0
    have hl := congrArg List.length h0
    simp only [List.length_set, List.length_nil] at hl
    exact hc.nonempty (List.length_eq_zero.mp hl)
  · intro q hq
    rw [hps, ← ha] at hq
    rw [hst]
    rcases List.mem_or_eq_of_mem_set hq with h | h
    · exact hc.shards q h
    · obtain ⟨f1, f2, f3, f4⟩ := hf
      obtain ⟨g1, g2⟩ := hc.shards p hmem
      subst h
      refine ⟨f1.trans g1, ?_⟩
      intro ho
      rw [f1] at ho
      rw [f3, f2, f4]
      exact g2 ho

theorem MultiPool.Coherent.submitAt {mp : MultiPool} (hc : mp.Coherent) (i : Int)
    (cached : Worker) (wake : Bool) (r : Retrieved) (mp' : MultiPool)
    (h : mp.submitAt i cached wake = some (r, mp')) : mp'.Coherent := by
  obtain ⟨p, p', hi, hs, ha, hst, -, -⟩ := mp.submitAt_spec i cached wake r mp' h
  exact hc.set_shard i p p'.poolCommon _ mp' hi (Submit_flags p cached wake r p' hs) ha rfl hst

theorem coherent_next {mp : MultiPool} (hc : mp.Coherent) (lbs : Int) (i : Int)
    (mpc : multiPoolCommon) (h : mp.multiPoolCommon.next lbs = some (i, mpc)) :
    (MultiPool.mk mpc).Coherent := by
  obtain ⟨h1, h2, -⟩ := mp.multiPoolCommon.next_fields lbs i mpc h
  refine ⟨?_, ?_, ?_⟩
  · show mpc.state = OPENED ∨ mpc.state = CLOSED
    rw [h2]
    exact hc.state_ok
  · show mpc.pools ≠ []
    rw [h1]
    exact hc.nonempty
  · show ∀ p ∈ mpc.pools, p.state = mpc.state ∧ _
    rw [h1, h2]
    exact hc.shards

theorem MultiPool.Coherent.afterFirst {mp : MultiPool} (hc : mp.Coherent) (cached : Worker)
    (i : Int) (r : Retrieved) (out : MultiSubmitted) (mp' : MultiPool)
    (h : mp.afterFirst cached i r = some (out, mp')) : mp'.Coherent := by
  unfold MultiPool.afterFirst at h
  split_ifs at h with h1 h2 h3
  · simp only [Option.some.injEq, Prod.mk.injEq] at h
    rw [← h.2]
    exact hc
  · simp only [Option.some.injEq, Prod.mk.injEq] at h
    rw [← h.2]
    exact hc
  · cases hn : mp.multiPoolCommon.next LeastTasks with
    | none => simp [hn] at h
    | some x =>
      obtain ⟨j, mpc⟩ := x
      simp only [hn] at h
      cases hs : (MultiPool.mk mpc).submitAt j cached false with
      | none => simp [hs] at h
      | some y =>
        obtain ⟨r2, mp2⟩ := y
        simp only [hs, Option.some.injEq, Prod.mk.injEq] at h
        rw [← h.2]
        exact (coherent_next hc LeastTasks j mpc hn).submitAt j cached false r2 mp2 hs
  · simp only [Option.some.injEq, Prod.mk.injEq] at h
    rw [← h.2]
    exact hc

/-- Every step keeps the multi-pool and its shards in agreement. -/
theorem MultiPool.Coherent.step_coherent {mp : MultiPool} (hc : mp.Coherent) (op : MultiOp)
    (mp' : MultiPool) (h : mp.step op = some mp') : mp'.Coherent := by
  cases op with
  | submit cached =>
    simp only [MultiPool.step, MultiPool.Submit] at h
    split_ifs at h with hcl
    · simp only [Option.map_some', Option.some.injEq] at h
      rw [← h]
      exact hc
    · cases hn : mp.multiPoolCommon.next mp.multiPoolCommon.lbs with
      | none => simp [hn] at h
      | some x =>
        obtain ⟨i, mpc⟩ := x
        simp only [hn] at h
        cases hs : (MultiPool.mk mpc).submitAt i cached false with
        | none => simp [hs] at h
        | some y =>
          obtain ⟨r, mp1⟩ := y
          simp only [hs] at h
          cases ha : mp1.afterFirst cached i r with
          | none => simp [ha] at h
          | some z =>
            simp only [ha, Option.map_some', Option.some.injEq] at h
            rw [← h]
            exact ((coherent_next hc _ i mpc hn).submitAt i cached false r mp1 hs).afterFirst
              cached i r z.1 z.2 ha
  | submitWake i cached =>
    simp only [MultiPool.step, MultiPool.SubmitWake] at h
    cases hs : mp.submitAt i cached true with
    | none => simp [hs] at h
    | some y =>
      obtain ⟨r, mp1⟩ := y
      simp only [hs] at h
      cases ha : mp1.afterFirst cached i r with
      | none => simp [ha] at h
      | some z =>
        simp only [ha, Option.map_some', Option.some.injEq] at h
        rw [← h]
        exact (hc.submitAt i cached true r mp1 hs).afterFirst cached i r z.1 z.2 ha
  | retryWake j cached =>
    simp only [MultiPool.step, MultiPool.RetryWake] at h
    cases hs : mp.submitAt j cached true with
    | none => simp [hs] at h
    | some y =>
      simp only [hs, Option.map_some', Option.some.injEq] at h
      rw [← h]
      exact hc.submitAt j cached true y.1 y.2 hs
  | tune size =>
    simp only [MultiPool.step, Option.some.injEq] at h
    rw [← h]
    refine ⟨hc.state_ok, ?_, ?_⟩
    · show mp.multiPoolCommon.pools.map _ ≠ []
      intro h0
      exact hc.nonempty (List.map_eq_nil_iff.mp h0)
    · intro q hq
      obtain ⟨p, hp, hpq⟩ := List.mem_map.mp hq
      obtain ⟨f1, f2, f3, f4⟩ := p.Tune_flags size
      obtain ⟨g1, g2⟩ := hc.shards p hp
      subst hpq
      refine ⟨f1.trans g1, ?_⟩
      intro ho
      rw [f1] at ho
      rw [f3, f2, f4]
      exact g2 ho
  | release =>
    simp only [MultiPool.step, multiPoolCommon.Release] at h
    split_ifs at h with ho
    · cases hr : releaseEach mp.multiPoolCommon.pools with
      | none => simp [hr] at h
      | some ps =>
        simp only [hr, Option.map_some', Option.some.injEq] at h
        rw [← h]
        obtain ⟨hl, hall⟩ := releaseEach_spec _ ps hr
        refine ⟨Or.inr rfl, ?_, ?_⟩
        · show ps ≠ []
          intro h0
          rw [h0] at hl
          exact hc.nonempty (List.length_eq_zero.mp hl.symm)
        · intro q hq
          obtain ⟨p, hp, ws, hrel⟩ := hall q hq
          obtain ⟨-, -, -, -, f5⟩ := p.Release_fields ws q hrel
          have hqc : q.state = CLOSED := by
            rcases f5 with ⟨-, h2⟩ | ⟨h1, -⟩
            · exact h2
            · exact absurd ((hc.shards p hp).1.trans ho) h1
          exact ⟨hqc, fun hopen => absurd (hqc.symm.trans hopen) (by decide)⟩
    · simp only [Option.map_some', Option.some.injEq] at h
      rw [← h]
      exact hc
  | releaseTimeout =>
    simp only [MultiPool.step, multiPoolCommon.ReleaseTimeout] at h
    split_ifs at h with ho
    · cases hr : releaseTimeoutEach mp.multiPoolCommon.pools with
      | none => simp [hr] at h
      | some x =>
        simp only [hr, Option.map_some', Option.some.injEq] at h
        rw [← h]
        obtain ⟨hl, hall⟩ := releaseTimeoutEach_spec _ x hr
        refine ⟨Or.inr rfl, ?_, ?_⟩
        · show x.2 ≠ []
          intro h0
          rw [h0] at hl
          exact hc.nonempty (List.length_eq_zero.mp hl.symm)
        · intro q hq
          obtain ⟨p, hp, y, hrel, hy⟩ := hall q hq
          obtain ⟨g1, g2⟩ := hc.shards p hp
          have hpo : p.state = OPENED := g1.trans ho
          obtain ⟨g3, g4⟩ := g2 hpo
          have hqc : q.state = CLOSED := by
            rw [← hy]
            exact p.ReleaseTimeout_closes y hrel hpo g3 g4
          exact ⟨hqc, fun hopen => absurd (hqc.symm.trans hopen) (by decide)⟩
    · simp only [Option.map_some', Option.some.injEq] at h
      rw [← h]
      exact hc
  | reboot clock =>
    simp only [MultiPool.step, Option.some.injEq, multiPoolCommon.Reboot] at h
    rw [← h]
    split_ifs with hcl
    · obtain ⟨hl, hall⟩ := rebootEach_spec clock mp.multiPoolCommon.pools 0
      refine ⟨Or.inl rfl, ?_, ?_⟩
      · show rebootEach clock mp.multiPoolCommon.pools 0 ≠ []
        intro h0
        rw [h0] at hl
        exact hc.nonempty (List.length_eq_zero.mp hl.symm)
      · intro q hq
        obtain ⟨p, hp, c, hqp⟩ := hall q hq
        obtain ⟨r1, r2, r3⟩ := p.Reboot_opens c ((hc.shards p hp).1.trans hcl)
        subst hqp
        exact ⟨r1, fun _ => ⟨r2, r3⟩⟩
    · exact hc
  | shard i op =>
    simp only [MultiPool.step] at h
    cases hi : index? mp.multiPoolCommon.pools i with
    | none => simp [hi] at h
    | some p =>
      simp only [hi] at h
      cases he : p.event op with
      | none => simp [he] at h
      | some p' =>
        simp only [he] at h
        cases ha : assign? mp.multiPoolCommon.pools i p' with
        | none => simp [ha] at h
        | some ps =>
          simp only [ha, Option.map_some', Option.some.injEq] at h
          rw [← h]
          exact hc.set_shard i p p' ps _ hi (p.event_flags op p' he) ha rfl rfl

/-- A multi-pool that `NewMultiPool` has just built and its shards are in agreement. -/
theorem NewMultiPool_coherent (size sizePerPool lbs : Int) (options : List PoolOption)
    (clock : Nat → Int) (mp : MultiPool)
    (h : NewMultiPool size sizePerPool lbs options clock = Except.ok mp) : mp.Coherent := by
  obtain ⟨hpos, hlen, -, hst, -, -, hall⟩ :=
    NewMultiPool_ok size sizePerPool lbs options clock mp h
  refine ⟨Or.inl hst, ?_, ?_⟩
  · intro h0
    rw [h0] at hlen
    simp at hlen
    omega
  · intro p hp
    obtain ⟨c, pool, hpool, hpp⟩ := hall p hp
    obtain ⟨f1, f2, f3⟩ := NewPool_flags sizePerPool options c pool hpool
    subst hpp
    exact ⟨f1.trans hst.symm, fun _ => ⟨f2, f3⟩⟩

/-- In every state reached by operations that run one at a time the multi-pool and its shards
are in agreement. -/
theorem MultiPool.SeqReachable.coherent {mp : MultiPool} (h : mp.SeqReachable) :
    mp.Coherent := by
  obtain ⟨size, sizePerPool, lbs, options, clock, mp0, h0, hsteps⟩ := h
  have hc0 := NewMultiPool_coherent size sizePerPool lbs options clock mp0 h0
  induction hsteps with
  | refl => exact hc0
  | tail mp1 mp2 op _ hstep ih => exact ih.step_coherent op mp2 hstep

/-- The method `Release` of a multi-pool is its compare-and-swap followed, when the swap took
place, by the loop that releases the shards. -/
theorem multiPoolCommon.Release_eq_swap_shards (mp : multiPoolCommon) :
    mp.Release = if mp.ReleaseSwap.1 = true then mp.ReleaseSwap.2.ReleaseShards
      else some mp.ReleaseSwap.2 := by
  unfold multiPoolCommon.Release multiPoolCommon.ReleaseSwap multiPoolCommon.ReleaseShards
  split_ifs with h <;> first | rfl | simp_all

/-- On a pool whose idle queue is well formed, `Submit` returns or parks, and leaves the idle
queue well formed. -/
theorem Submit_returns (p : poolCommon) (cached : Worker) (hq : p.workers.WellFormed) :
    ∃ r p', (Pool.mk p).Submit cached = some (r, p') ∧ p'.poolCommon.workers.WellFormed := by
  unfold Pool.Submit
  split_ifs with hc
  · exact ⟨Retrieved.failed PoolError.ErrPoolClosed, Pool.mk p, rfl, hq⟩
  · rcases p.retrieveWorker_cases cached hq with
      ⟨w, q', -, hq', -, -, hr⟩ | ⟨-, -, ⟨-, hr⟩ | ⟨-, -, hr⟩ | ⟨-, -, hr⟩⟩
    · exact ⟨Retrieved.detached w, Pool.mk { p with workers := q' }, by rw [hr]; rfl, hq'⟩
    · exact ⟨Retrieved.spawned cached, Pool.mk p.incRunning, by rw [hr]; rfl, hq⟩
    · exact ⟨Retrieved.failed PoolError.ErrPoolOverload, Pool.mk p, by rw [hr]; rfl, hq⟩
    · exact ⟨Retrieved.parked, Pool.mk (p.addWaiting 1), by rw [hr]; rfl, hq⟩

/-- On a well-formed multi-pool `next` returns the index of a shard, for either strategy. -/
theorem multiPoolCommon.WellFormed.next_spec {mp : multiPoolCommon} (hw : mp.WellFormed)
    (lbs : Int) (hl : lbs = RoundRobin ∨ lbs = LeastTasks) :
    ∃ i mpc, mp.next lbs = some (i, mpc) ∧ 0 ≤ i ∧ i < (mp.pools.length : Int) ∧
      mpc.pools = mp.pools ∧ mpc.state = mp.state ∧ mpc.lbs = mp.lbs := by
  have hpos := hw.length_pos
  have hlt := hw.length_lt
  have hmod : (mp.pools.length : Int) % 2 ^ 32 = (mp.pools.length : Int) :=
    Int.emod_eq_of_lt (by omega) hlt
  rcases hl with h | h
  · subst h
    refine ⟨((mp.index + 1) % 2 ^ 32) % ((mp.pools.length : Int) % 2 ^ 32),
      { mp with index := (mp.index + 1) % 2 ^ 32 }, ?_, ?_, ?_, rfl, rfl, rfl⟩
    · unfold multiPoolCommon.next
      simp only []
      rw [if_pos trivial, if_neg (by rw [hmod]; omega)]
    · rw [hmod]
      exact Int.emod_nonneg _ (by omega)
    · rw [hmod]
      exact Int.emod_lt_of_pos _ (by omega)
  · subst h
    have hne : mp.pools ≠ [] := List.length_pos.mp hpos
    obtain ⟨h0, h1⟩ := leastTasksLoop_range mp.pools hne MaxInt
    refine ⟨leastTasksLoop mp.pools 0 MaxInt 0, mp, ?_, h0, h1, rfl, rfl, rfl⟩
    unfold multiPoolCommon.next
    rw [if_neg (by decide), if_pos rfl]

/-- On a well-formed multi-pool a shard submission at the index of a shard returns or parks, and
leaves the multi-pool well formed. -/
theorem MultiPool.submitAt_returns (mp : MultiPool) (hw : mp.multiPoolCommon.WellFormed)
    (i : Int) (h0 : 0 ≤ i) (h1 : i < (mp.multiPoolCommon.pools.length : Int))
    (cached : Worker) :
    ∃ p r p' mp', index? mp.multiPoolCommon.pools i = some p ∧
      (Pool.mk p).Submit cached = some (r, p') ∧
      mp.submitAt i cached false = some (r, mp') ∧
      mp'.multiPoolCommon.WellFormed ∧
      mp'.multiPoolCommon.lbs = mp.multiPoolCommon.lbs := by
  have hlt : i.toNat < mp.multiPoolCommon.pools.length := by omega
  have hi : index? mp.multiPoolCommon.pools i =
      some (mp.multiPoolCommon.pools.get ⟨i.toNat, hlt⟩) := by
    rw [index?_of_nonneg _ _ h0]
    exact List.getElem?_eq_getElem hlt
  have hmem : mp.multiPoolCommon.pools.get ⟨i.toNat, hlt⟩ ∈ mp.multiPoolCommon.pools :=
    List.get_mem _ _ _
  obtain ⟨r, p', hs, hq'⟩ := Submit_returns _ cached (hw.queues _ hmem)
  have ha := assign?_eq mp.multiPoolCommon.pools i p'.poolCommon h0 h1
  refine ⟨_, r, p', { multiPoolCommon := { mp.multiPoolCommon with
    pools := mp.multiPoolCommon.pools.set i.toNat p'.poolCommon } }, hi, hs, ?_, ?_, rfl⟩
  · simp only [MultiPool.submitAt, hi, Bool.false_eq_true, if_false, hs, ha, Option.map_some']
  · refine ⟨?_, ?_, hw.lbs_ok, ?_⟩
    · show 0 < (mp.multiPoolCommon.pools.set i.toNat p'.poolCommon).length
      rw [List.length_set]
      exact hw.length_pos
    · show (((mp.multiPoolCommon.pools.set i.toNat p'.poolCommon).length : Nat) : Int) < 2 ^ 32
      rw [List.length_set]
      exact hw.length_lt
    · intro q hq
      rcases List.mem_or_eq_of_mem_set hq with h | h
      · exact hw.queues q h
      · rw [h]
        exact hq'

/-! ## Claims on the multi-pool and on the return of a worker -/

/-- C21: `ReleaseTimeout` on a closed pool returns `ErrPoolClosed` at once, tells no worker to
exit and leaves the pool as it is; `ReleaseTimeout` on a closed multi-pool returns
`ErrPoolClosed` at once and leaves the multi-pool, its shards included, as it is. -/
theorem ReleaseTimeout_on_closed_pool (p : poolCommon) (mp : multiPoolCommon)
    (hp : p.IsClosed = true) (hmp : mp.IsClosed = true) :
    p.ReleaseTimeout = some (some PoolError.ErrPoolClosed, [], p) ∧
    mp.ReleaseTimeout = some (some PoolError.ErrPoolClosed, mp) := by
  constructor
  · unfold poolCommon.ReleaseTimeout
    rw [if_pos (Or.inl hp)]
  · unfold multiPoolCommon.ReleaseTimeout
    have h : mp.state = CLOSED := by
      simpa [multiPoolCommon.IsClosed] using hmp
    rw [if_neg (by rw [h]; decide)]

/-- C21 on a closed pool of capacity 1 and on the closed multi-pool that has it as its only
shard. -/
theorem ReleaseTimeout_on_closed_pool_witness :
    (poolCommon.mk 1 0 CLOSED 0 NOT_DONE false NOT_DONE false 0 (Queue.lifo (lifoQueue.mk [] []))
        false (Options.mk DefaultCleanIntervalTime false 0 false false false)
        false).ReleaseTimeout =
      some (some PoolError.ErrPoolClosed, [],
        poolCommon.mk 1 0 CLOSED 0 NOT_DONE false NOT_DONE false 0
          (Queue.lifo (lifoQueue.mk [] [])) false
          (Options.mk DefaultCleanIntervalTime false 0 false false false) false) ∧
    (multiPoolCommon.mk [poolCommon.mk 1 0 CLOSED 0 NOT_DONE false NOT_DONE false 0
        (Queue.lifo (lifoQueue.mk [] [])) false
        (Options.mk DefaultCleanIntervalTime false 0 false false false) false]
        0 CLOSED RoundRobin).ReleaseTimeout =
      some (some PoolError.ErrPoolClosed,
        multiPoolCommon.mk [poolCommon.mk 1 0 CLOSED 0 NOT_DONE false NOT_DONE false 0
          (Queue.lifo (lifoQueue.mk [] [])) false
          (Options.mk DefaultCleanIntervalTime false 0 false false false) false]
          0 CLOSED RoundRobin) :=
  ReleaseTimeout_on_closed_pool
    (poolCommon.mk 1 0 CLOSED 0 NOT_DONE false NOT_DONE false 0 (Queue.lifo (lifoQueue.mk [] []))
      false (Options.mk DefaultCleanIntervalTime false 0 false false false) false)
    (multiPoolCommon.mk [poolCommon.mk 1 0 CLOSED 0 NOT_DONE false NOT_DONE false 0
      (Queue.lifo (lifoQueue.mk [] [])) false
      (Options.mk DefaultCleanIntervalTime false 0 false false false) false]
      0 CLOSED RoundRobin)
    (by decide) (by decide)

/-- C22: `NewMultiPool(size, sizePerPool, lbs)` fails with `ErrInvalidPoolSize` whenever
`size ≤ 0`; with `ErrInvalidLoadBalancingStrategy` whenever `size > 0` and `lbs` is neither
`RoundRobin` nor `LeastTasks`; and otherwise it fails exactly when `NewPool(sizePerPool)` with the
same options fails, and then with the error of `NewPool`. -/
theorem NewMultiPool_errors (size sizePerPool lbs : Int) (options : List PoolOption)
    (clock : Nat → Int) :
    (size ≤ 0 →
      NewMultiPool size sizePerPool lbs options clock =
        Except.error PoolError.ErrInvalidPoolSize) ∧
    (0 < size → lbs ≠ RoundRobin → lbs ≠ LeastTasks →
      NewMultiPool size sizePerPool lbs options clock =
        Except.error PoolError.ErrInvalidLoadBalancingStrategy) ∧
    (0 < size → (lbs = RoundRobin ∨ lbs = LeastTasks) →
      ∀ c, ((∃ e, NewMultiPool size sizePerPool lbs options clock = Except.error e) ↔
          ∃ e, NewPool sizePerPool options c = Except.error e) ∧
        ∀ e, NewMultiPool size sizePerPool lbs options clock = Except.error e →
          NewPool sizePerPool options c = Except.error e) := by
  refine ⟨?_, ?_, ?_⟩
  · intro h
    unfold NewMultiPool
    rw [if_pos h]
  · intro h h1 h2
    unfold NewMultiPool
    rw [if_neg (by omega), if_pos ⟨h1, h2⟩]
  · intro h hl c
    have hnot : ¬ (lbs ≠ RoundRobin ∧ lbs ≠ LeastTasks) := by tauto
    have hloop := newPoolsLoop_spec sizePerPool options clock size.toNat 0
    have hfail : ∀ e, NewMultiPool size sizePerPool lbs options clock = Except.error e →
        NewPool sizePerPool options c = Except.error e := by
      intro e he
      unfold NewMultiPool at he
      rw [if_neg (by omega), if_neg hnot] at he
      cases hl' : newPoolsLoop sizePerPool options clock size.toNat 0 with
      | error err =>
        rw [hl'] at he
        have := Except.error.inj he
        subst this
        exact (hloop.1 err hl').2 c
      | ok pools =>
        rw [hl'] at he
        exact Except.noConfusion he
    refine ⟨⟨fun ⟨e, he⟩ => ⟨e, hfail e he⟩, ?_⟩, hfail⟩
    rintro ⟨e, he⟩
    cases hm : NewMultiPool size sizePerPool lbs options clock with
    | error err => exact ⟨err, rfl⟩
    | ok mp =>
      exfalso
      obtain ⟨-, hlen, -, -, -, -, hall⟩ :=
        NewMultiPool_ok size sizePerPool lbs options clock mp hm
      have hpos : 0 < mp.multiPoolCommon.pools.length := by omega
      obtain ⟨p, hp⟩ := List.exists_mem_of_length_pos hpos
      obtain ⟨c', pool, hpool, -⟩ := hall p hp
      have := (NewPool_error_clock sizePerPool options c c' e he).2
      rw [hpool] at this
      exact Except.noConfusion this

/-- C22 at the sizes of `TestNewMultiPool_Error`: 10 shards of size 0. -/
theorem NewMultiPool_errors_witness :
    ((∃ e, NewMultiPool 10 0 RoundRobin [] (fun _ => 0) = Except.error e) ↔
        ∃ e, NewPool 0 [] 0 = Except.error e) ∧
      ∀ e, NewMultiPool 10 0 RoundRobin [] (fun _ => 0) = Except.error e →
        NewPool 0 [] 0 = Except.error e :=
  (NewMultiPool_errors 10 0 RoundRobin [] (fun _ => 0)).2.2 (by decide) (Or.inl rfl) 0

/-- C23 (counterexample): on the multi-pool of 3 shards that `NewMultiPool(3, 1, RoundRobin)`
returns, the call number `2^32` of `next(RoundRobin)` returns 0 and so does the call number
`2^32 + 1`, where the 32-bit counter has wrapped: the latter is neither `(k - 1) mod 3`, which is
1, nor the choice before it plus 1 modulo 3. -/
theorem next_RoundRobin_wraps_at_uint32 :
    ∃ mp, NewMultiPool 3 1 RoundRobin [] (fun _ => 0) = Except.ok mp ∧
      mp.multiPoolCommon.nthNext RoundRobin (2 ^ 32) = some 0 ∧
      mp.multiPoolCommon.nthNext RoundRobin (2 ^ 32 + 1) = some 0 ∧
      (((2 ^ 32 + 1 : Nat) : Int) - 1) % 3 = 1 := by
  refine ⟨_, rfl, ?_, ?_, by norm_num⟩
  · rw [multiPoolCommon.nthNext_RoundRobin _ (by decide) (by decide) (by decide) _ (by norm_num)]
    rfl
  · rw [multiPoolCommon.nthNext_RoundRobin _ (by decide) (by decide) (by decide) _ (by norm_num)]
    rfl

/-- C23 (amended): on a freshly constructed multi-pool of `N < 2^32` shards, for every `k ≥ 1`
the `k`-th call of `next(RoundRobin)` returns `((k - 1) mod 2^32) mod N`. Up to the call number
`2^32` this is `(k - 1) mod N`, so the first choice is shard 0, and before the call number `2^32`
every choice is followed by that choice plus 1 modulo `N`. -/
theorem next_RoundRobin_kth_choice (size sizePerPool lbs : Int) (options : List PoolOption)
    (clock : Nat → Int) (mp : MultiPool)
    (h : NewMultiPool size sizePerPool lbs options clock = Except.ok mp)
    (hsize : size < 2 ^ 32) (k : Nat) (hk : 1 ≤ k) :
    mp.multiPoolCommon.nthNext RoundRobin k = some ((((k : Int) - 1) % 2 ^ 32) % size) ∧
    ((k : Int) ≤ 2 ^ 32 →
      mp.multiPoolCommon.nthNext RoundRobin k = some (((k : Int) - 1) % size)) ∧
    ((k : Int) < 2 ^ 32 →
      ∃ c, mp.multiPoolCommon.nthNext RoundRobin k = some c ∧
        mp.multiPoolCommon.nthNext RoundRobin (k + 1) = some ((c + 1) % size)) := by
  obtain ⟨hpos, hlen, hidx, -, -, -, -⟩ := NewMultiPool_ok size sizePerPool lbs options clock mp h
  have hmod : (mp.multiPoolCommon.pools.length : Int) % 2 ^ 32 = size := by
    rw [hlen]
    exact Int.emod_eq_of_lt (by omega) hsize
  have hn : (mp.multiPoolCommon.pools.length : Int) % 2 ^ 32 ≠ 0 := by omega
  have hi0 : 0 ≤ mp.multiPoolCommon.index := by rw [hidx]; decide
  have hi1 : mp.multiPoolCommon.index < 2 ^ 32 := by rw [hidx]; decide
  have hform : ∀ j : Nat, 1 ≤ j →
      mp.multiPoolCommon.nthNext RoundRobin j = some ((((j : Int) - 1) % 2 ^ 32) % size) := by
    intro j hj
    rw [mp.multiPoolCommon.nthNext_RoundRobin hn hi0 hi1 j hj, hmod, hidx]
    have : (MaxUint32 + (j : Int)) % 2 ^ 32 = ((j : Int) - 1) % 2 ^ 32 := by
      unfold MaxUint32
      omega
    rw [this]
  refine ⟨hform k hk, ?_, ?_⟩
  · intro hle
    rw [hform k hk, Int.emod_eq_of_lt (a := (k : Int) - 1) (by omega) (by omega)]
  · intro hlt
    refine ⟨((k : Int) - 1) % size, ?_, ?_⟩
    · rw [hform k hk, Int.emod_eq_of_lt (a := (k : Int) - 1) (by omega) (by omega)]
    · rw [hform (k + 1) (by omega)]
      have h1 : (((k + 1 : Nat) : Int) - 1) % 2 ^ 32 = (k : Int) := by
        push_cast
        rw [Int.emod_eq_of_lt] <;> omega
      rw [h1, Int.emod_add_emod]
      congr 2
      omega

/-- C23 on the multi-pool of `TestMultiPool_RoundRobin` (2 shards), at the third call, which
returns 0. -/
theorem next_RoundRobin_kth_choice_witness :
    ∃ mp, NewMultiPool 2 10 RoundRobin [] (fun _ => 0) = Except.ok mp ∧
      mp.multiPoolCommon.nthNext RoundRobin 3 = some ((((3 : Nat) : Int) - 1) % 2 ^ 32 % 2) ∧
      ((((3 : Nat) : Int)) ≤ 2 ^ 32 →
        mp.multiPoolCommon.nthNext RoundRobin 3 = some ((((3 : Nat) : Int) - 1) % 2)) ∧
      ((((3 : Nat) : Int)) < 2 ^ 32 →
        ∃ c, mp.multiPoolCommon.nthNext RoundRobin 3 = some c ∧
          mp.multiPoolCommon.nthNext RoundRobin (3 + 1) = some ((c + 1) % 2)) :=
  ⟨_, rfl, next_RoundRobin_kth_choice 2 10 RoundRobin [] (fun _ => 0) _ rfl (by decide) 3
    (by decide)⟩

/-- C24: on a multi-pool with at least one shard, `next(LeastTasks)` returns the index `k` of a
shard and changes nothing; no shard has a smaller `Running()` than shard `k`, and every shard
before it has a strictly greater one. (The values of `Running()` are Go integers, at most
`math.MaxInt`.) -/
theorem next_LeastTasks_lowest_minimal (mp : multiPoolCommon) (hne : mp.pools ≠ [])
    (hint : ∀ p ∈ mp.pools, p.Running ≤ MaxInt) :
    ∃ (k : Nat) (q : poolCommon), mp.pools[k]? = some q ∧
      mp.next LeastTasks = some ((k : Int), mp) ∧
      (∀ p ∈ mp.pools, q.Running ≤ p.Running) ∧
      (∀ (j : Nat) (p : poolCommon), j < k → mp.pools[j]? = some p → q.Running < p.Running) := by
  have hnext : mp.next LeastTasks = some (leastTasksLoop mp.pools 0 MaxInt 0, mp) := by
    unfold multiPoolCommon.next
    rw [if_neg (by decide), if_pos rfl]
  rcases leastTasksLoop_spec mp.pools 0 MaxInt 0 with
    ⟨hnone, hres⟩ | ⟨k, q, hk, hres, -, hmin, hfirst⟩
  · obtain ⟨q, rest, hq⟩ := List.exists_cons_of_ne_nil hne
    have hall : ∀ p ∈ mp.pools, p.Running = MaxInt := by
      intro p hp
      have h1 := hnone p hp
      have h2 := hint p hp
      omega
    refine ⟨0, q, by rw [hq]; simp, by rw [hnext, hres]; rfl, ?_, ?_⟩
    · intro p hp
      rw [hall p hp, hall q (by rw [hq]; exact List.mem_cons_self _ _)]
    · intro j p hj
      omega
  · exact ⟨k, q, hk, by rw [hnext, hres]; simp, hmin, hfirst⟩

/-- C24 on three shards that run 2, 1 and 1 workers: the choice is shard 1. -/
theorem next_LeastTasks_lowest_minimal_witness :
    ∃ (k : Nat) (q : poolCommon),
      [poolCommon.mk 5 2 OPENED 0 NOT_DONE true NOT_DONE true 0 (Queue.lifo (lifoQueue.mk [] []))
          false (Options.mk DefaultCleanIntervalTime false 0 false false false) false,
        poolCommon.mk 5 1 OPENED 0 NOT_DONE true NOT_DONE true 0 (Queue.lifo (lifoQueue.mk [] []))
          false (Options.mk DefaultCleanIntervalTime false 0 false false false) false,
        poolCommon.mk 5 1 OPENED 0 NOT_DONE true NOT_DONE true 0 (Queue.lifo (lifoQueue.mk [] []))
          false (Options.mk DefaultCleanIntervalTime false 0 false false false) false][k]? =
        some q ∧
      (multiPoolCommon.mk
        [poolCommon.mk 5 2 OPENED 0 NOT_DONE true NOT_DONE true 0 (Queue.lifo (lifoQueue.mk [] []))
          false (Options.mk DefaultCleanIntervalTime false 0 false false false) false,
        poolCommon.mk 5 1 OPENED 0 NOT_DONE true NOT_DONE true 0 (Queue.lifo (lifoQueue.mk [] []))
          false (Options.mk DefaultCleanIntervalTime false 0 false false false) false,
        poolCommon.mk 5 1 OPENED 0 NOT_DONE true NOT_DONE true 0 (Queue.lifo (lifoQueue.mk [] []))
          false (Options.mk DefaultCleanIntervalTime false 0 false false false) false]
        MaxUint32 OPENED LeastTasks).next LeastTasks =
        some ((k : Int), multiPoolCommon.mk
          [poolCommon.mk 5 2 OPENED 0 NOT_DONE true NOT_DONE true 0
            (Queue.lifo (lifoQueue.mk [] [])) false
            (Options.mk DefaultCleanIntervalTime false 0 false false false) false,
          poolCommon.mk 5 1 OPENED 0 NOT_DONE true NOT_DONE true 0
            (Queue.lifo (lifoQueue.mk [] [])) false
            (Options.mk DefaultCleanIntervalTime false 0 false false false) false,
          poolCommon.mk 5 1 OPENED 0 NOT_DONE true NOT_DONE true 0
            (Queue.lifo (lifoQueue.mk [] [])) false
            (Options.mk DefaultCleanIntervalTime false 0 false false false) false]
          MaxUint32 OPENED LeastTasks) ∧
      (∀ p ∈ [poolCommon.mk 5 2 OPENED 0 NOT_DONE true NOT_DONE true 0
            (Queue.lifo (lifoQueue.mk [] [])) false
            (Options.mk DefaultCleanIntervalTime false 0 false false false) false,
          poolCommon.mk 5 1 OPENED 0 NOT_DONE true NOT_DONE true 0
            (Queue.lifo (lifoQueue.mk [] [])) false
            (Options.mk DefaultCleanIntervalTime false 0 false false false) false,
          poolCommon.mk 5 1 OPENED 0 NOT_DONE true NOT_DONE true 0
            (Queue.lifo (lifoQueue.mk [] [])) false
            (Options.mk DefaultCleanIntervalTime false 0 false false false) false],
        q.Running ≤ p.Running) ∧
      (∀ (j : Nat) (p : poolCommon), j < k →
        [poolCommon.mk 5 2 OPENED 0 NOT_DONE true NOT_DONE true 0
            (Queue.lifo (lifoQueue.mk [] [])) false
            (Options.mk DefaultCleanIntervalTime false 0 false false false) false,
          poolCommon.mk 5 1 OPENED 0 NOT_DONE true NOT_DONE true 0
            (Queue.lifo (lifoQueue.mk [] [])) false
            (Options.mk DefaultCleanIntervalTime false 0 false false false) false,
          poolCommon.mk 5 1 OPENED 0 NOT_DONE true NOT_DONE true 0
            (Queue.lifo (lifoQueue.mk [] [])) false
            (Options.mk DefaultCleanIntervalTime false 0 false false false) false][j]? =
          some p → q.Running < p.Running) :=
  next_LeastTasks_lowest_minimal
    (multiPoolCommon.mk
      [poolCommon.mk 5 2 OPENED 0 NOT_DONE true NOT_DONE true 0 (Queue.lifo (lifoQueue.mk [] []))
        false (Options.mk DefaultCleanIntervalTime false 0 false false false) false,
      poolCommon.mk 5 1 OPENED 0 NOT_DONE true NOT_DONE true 0 (Queue.lifo (lifoQueue.mk [] []))
        false (Options.mk DefaultCleanIntervalTime false 0 false false false) false,
      poolCommon.mk 5 1 OPENED 0 NOT_DONE true NOT_DONE true 0 (Queue.lifo (lifoQueue.mk [] []))
        false (Options.mk DefaultCleanIntervalTime false 0 false false false) false]
      MaxUint32 OPENED LeastTasks)
    (by decide) (by decide)

/-- C25: on an open multi-pool (with a shard, one of the two strategies and well-formed idle
queues) `Submit` returns or parks, after at most two shard submissions. The first goes to the
shard that `next` chooses under the configured strategy. When it returns nil, or parks, no other
submission is made and nil is what `Submit` returns. When it returns `ErrPoolOverload` and the
strategy is round-robin, exactly one more submission is made, to the shard that
`next(LeastTasks)` then chooses, and what it returns is returned. Every other error, and
`ErrPoolOverload` under the least-loaded strategy, is returned without another submission. -/
theorem MultiPool_Submit_retries_once (mp : MultiPool) (cached : Worker)
    (hw : mp.multiPoolCommon.WellFormed) (ho : mp.multiPoolCommon.IsClosed = false) :
    ∃ i mpc p r p1 mp1 out mp',
      mp.multiPoolCommon.next mp.multiPoolCommon.lbs = some (i, mpc) ∧
      index? mpc.pools i = some p ∧ (Pool.mk p).Submit cached = some (r, p1) ∧
      (MultiPool.mk mpc).submitAt i cached false = some (r, mp1) ∧
      mp.Submit cached = some (out, mp') ∧
      out.calls.length ≤ 2 ∧
      (r.err = none →
        out = ⟨none, [(i, r)], decide (r = Retrieved.parked)⟩ ∧ mp' = mp1) ∧
      (r.err = some PoolError.ErrPoolOverload → mp.multiPoolCommon.lbs = RoundRobin →
        ∃ j mpc2 p2 r2 p3, mp1.multiPoolCommon.next LeastTasks = some (j, mpc2) ∧
          index? mpc2.pools j = some p2 ∧ (Pool.mk p2).Submit cached = some (r2, p3) ∧
          out = ⟨r2.err, [(i, r), (j, r2)], decide (r2 = Retrieved.parked)⟩) ∧
      (r.err ≠ none →
        ¬ (r.err = some PoolError.ErrPoolOverload ∧ mp.multiPoolCommon.lbs = RoundRobin) →
        out = ⟨r.err, [(i, r)], false⟩ ∧ mp' = mp1) := by
  obtain ⟨i, mpc, hn, hi0, hi1, hpools, hstate, hlbs⟩ := hw.next_spec _ hw.lbs_ok
  have hwc : (MultiPool.mk mpc).multiPoolCommon.WellFormed :=
    ⟨by show 0 < mpc.pools.length; rw [hpools]; exact hw.length_pos,
     by show (mpc.pools.length : Int) < 2 ^ 32; rw [hpools]; exact hw.length_lt,
     by show mpc.lbs = RoundRobin ∨ mpc.lbs = LeastTasks; rw [hlbs]; exact hw.lbs_ok,
     by show ∀ p ∈ mpc.pools, p.workers.WellFormed; rw [hpools]; exact hw.queues⟩
  obtain ⟨p, r, p1, mp1, hidx, hsub, hat, hw1, hlbs1⟩ :=
    (MultiPool.mk mpc).submitAt_returns hwc i hi0 (by
      show i < (mpc.pools.length : Int)
      rw [hpools]
      exact hi1) cached
  have hlbs1' : mp1.multiPoolCommon.lbs = mp.multiPoolCommon.lbs := hlbs1.trans hlbs
  have hsubmit : mp.Submit cached = mp1.afterFirst cached i r := by
    simp only [MultiPool.Submit, ho, Bool.false_eq_true, if_false, hn, hat]
  by_cases hpark : r = Retrieved.parked
  · subst hpark
    refine ⟨i, mpc, p, Retrieved.parked, p1, mp1,
      ⟨none, [(i, Retrieved.parked)], true⟩, mp1, hn, hidx, hsub, hat, ?_, by simp,
      fun _ => ⟨rfl, rfl⟩, fun h => Option.noConfusion h, fun h => absurd rfl h⟩
    rw [hsubmit]
    simp [MultiPool.afterFirst]
  by_cases hnil : r.err = none
  · refine ⟨i, mpc, p, r, p1, mp1, ⟨none, [(i, r)], false⟩, mp1, hn, hidx, hsub, hat, ?_,
      by simp, fun _ => ⟨by simp [hpark], rfl⟩, ?_, fun h => absurd hnil h⟩
    · rw [hsubmit]
      simp [MultiPool.afterFirst, hpark, hnil]
    · intro h
      rw [hnil] at h
      exact Option.noConfusion h
  by_cases hretry : r.err = some PoolError.ErrPoolOverload ∧ mp.multiPoolCommon.lbs = RoundRobin
  · obtain ⟨j, mpc2, hn2, hj0, hj1, hpools2, hstate2, hlbs2⟩ :=
      hw1.next_spec LeastTasks (Or.inr rfl)
    have hwc2 : (MultiPool.mk mpc2).multiPoolCommon.WellFormed :=
      ⟨by show 0 < mpc2.pools.length; rw [hpools2]; exact hw1.length_pos,
       by show (mpc2.pools.length : Int) < 2 ^ 32; rw [hpools2]; exact hw1.length_lt,
       by show mpc2.lbs = RoundRobin ∨ mpc2.lbs = LeastTasks; rw [hlbs2]; exact hw1.lbs_ok,
       by show ∀ p ∈ mpc2.pools, p.workers.WellFormed; rw [hpools2]; exact hw1.queues⟩
    obtain ⟨p2, r2, p3, mp2, hidx2, hsub2, hat2, -, -⟩ :=
      (MultiPool.mk mpc2).submitAt_returns hwc2 j hj0 (by
        show j < (mpc2.pools.length : Int)
        rw [hpools2]
        exact hj1) cached
    refine ⟨i, mpc, p, r, p1, mp1,
      ⟨r2.err, [(i, r), (j, r2)], decide (r2 = Retrieved.parked)⟩, mp2, hn, hidx, hsub, hat,
      ?_, by simp, fun h => absurd h hnil,
      fun _ _ => ⟨j, mpc2, p2, r2, p3, hn2, hidx2, hsub2, rfl⟩, fun _ h => absurd hretry h⟩
    rw [hsubmit]
    have hcond : r.err = some PoolError.ErrPoolOverload ∧
        mp1.multiPoolCommon.lbs = RoundRobin := ⟨hretry.1, hlbs1'.trans hretry.2⟩
    simp only [MultiPool.afterFirst, if_neg hpark, if_neg hnil, if_pos hcond, hn2, hat2]
  · refine ⟨i, mpc, p, r, p1, mp1, ⟨r.err, [(i, r)], false⟩, mp1, hn, hidx, hsub, hat, ?_,
      by simp, fun h => absurd h hnil, fun h1 h2 => absurd ⟨h1, h2⟩ hretry,
      fun _ _ => ⟨rfl, rfl⟩⟩
    rw [hsubmit]
    have hcond : ¬ (r.err = some PoolError.ErrPoolOverload ∧
        mp1.multiPoolCommon.lbs = RoundRobin) := by
      rintro ⟨h1, h2⟩
      exact hretry ⟨h1, hlbs1'.symm.trans h2⟩
    simp only [MultiPool.afterFirst, if_neg hpark, if_neg hnil, if_neg hcond]

/-- C25 on a multi-pool of two shards of capacity 1 under `Nonblocking`, each running one
worker, with the round-robin strategy. -/
theorem MultiPool_Submit_retries_once_witness :
    ∃ mp : MultiPool,
      mp = MultiPool.mk (multiPoolCommon.mk
        [poolCommon.mk 1 1 OPENED 0 NOT_DONE true NOT_DONE true 0
          (Queue.lifo (lifoQueue.mk [] [])) false
          (Options.mk DefaultCleanIntervalTime false 0 true false false) false,
        poolCommon.mk 1 1 OPENED 0 NOT_DONE true NOT_DONE true 0
          (Queue.lifo (lifoQueue.mk [] [])) false
          (Options.mk DefaultCleanIntervalTime false 0 true false false) false]
        1 OPENED RoundRobin) ∧
      ∃ i mpc p r p1 mp1 out mp',
        mp.multiPoolCommon.next mp.multiPoolCommon.lbs = some (i, mpc) ∧
        index? mpc.pools i = some p ∧ (Pool.mk p).Submit ⟨3, 0⟩ = some (r, p1) ∧
        (MultiPool.mk mpc).submitAt i ⟨3, 0⟩ false = some (r, mp1) ∧
        mp.Submit ⟨3, 0⟩ = some (out, mp') ∧
        out.calls.length ≤ 2 ∧
        (r.err = none →
          out = ⟨none, [(i, r)], decide (r = Retrieved.parked)⟩ ∧ mp' = mp1) ∧
        (r.err = some PoolError.ErrPoolOverload → mp.multiPoolCommon.lbs = RoundRobin →
          ∃ j mpc2 p2 r2 p3, mp1.multiPoolCommon.next LeastTasks = some (j, mpc2) ∧
            index? mpc2.pools j = some p2 ∧ (Pool.mk p2).Submit ⟨3, 0⟩ = some (r2, p3) ∧
            out = ⟨r2.err, [(i, r), (j, r2)], decide (r2 = Retrieved.parked)⟩) ∧
        (r.err ≠ none →
          ¬ (r.err = some PoolError.ErrPoolOverload ∧ mp.multiPoolCommon.lbs = RoundRobin) →
          out = ⟨r.err, [(i, r)], false⟩ ∧ mp' = mp1) :=
  ⟨_, rfl, MultiPool_Submit_retries_once _ ⟨3, 0⟩
    ⟨by decide, by decide, Or.inl rfl, fun p hp => by
      simp only [List.mem_cons, List.mem_singleton, List.not_mem_nil, or_false] at hp
      rcases hp with h | h <;> (subst h; trivial)⟩
    (by decide)⟩

/-- C26 (counterexample): on the multi-pool that `NewMultiPool(2, 1, RoundRobin)` returns without
options, the first two calls of `Submit` start a worker on shard 0 and on shard 1. While both
tasks run, the third call chooses shard 0, whose `Submit` neither fails nor returns: without
`Nonblocking` and without `MaxBlockingTasks` the caller parks on the condition variable of
shard 0. No error is returned and no retry is made. -/
theorem MultiPool_third_Submit_parks :
    ((MultiPool.init 2 1 RoundRobin [] (fun _ => 0)).bind (fun mp =>
        mp.run [MultiOp.submit ⟨1, 0⟩, MultiOp.submit ⟨2, 0⟩])).bind (fun mp =>
          (mp.Submit ⟨3, 0⟩).map (fun r =>
            (mp.multiPoolCommon.pools.map poolCommon.Running, r.1))) =
      some ([1, 1], ⟨none, [(0, Retrieved.parked)], true⟩) := by
  decide

/-- C26 (amended): on the multi-pool that `NewMultiPool(2, 1, RoundRobin, WithNonblocking(true))`
returns, the first two calls of `Submit` start a worker on shard 0 and on shard 1. While both
tasks run, the third call chooses shard 0 under round-robin and gets `ErrPoolOverload`, retries
on the shard that the least-loaded policy chooses (shard 0 again, both shards running one
worker), gets `ErrPoolOverload` again and returns it. -/
theorem MultiPool_third_Submit_overload :
    ((MultiPool.init 2 1 RoundRobin [WithNonblocking true] (fun _ => 0)).bind (fun mp =>
        mp.run [MultiOp.submit ⟨1, 0⟩, MultiOp.submit ⟨2, 0⟩])).bind (fun mp =>
          (mp.Submit ⟨3, 0⟩).map (fun r =>
            (mp.multiPoolCommon.pools.map poolCommon.Running, r.1))) =
      some ([1, 1], ⟨some PoolError.ErrPoolOverload,
        [(0, Retrieved.failed PoolError.ErrPoolOverload),
         (0, Retrieved.failed PoolError.ErrPoolOverload)], false⟩) := by
  decide

/-- C27 (counterexample): the multi-pool that `NewMultiPool(2, 2^31, RoundRobin)` returns has
`Cap()` equal to `-2^32`, not to `2 × 2^31`; and on the multi-pool that
`NewMultiPool(2, 1, RoundRobin)` returns, whose shards are bounded and not preallocated, `Cap()`
after `Tune(2^31)` is `-2^32` as well. -/
theorem MultiPool_Cap_wraps_large_size :
    (NewMultiPool 2 (2 ^ 31) RoundRobin [] (fun _ => 0)).map
        (fun mp => mp.multiPoolCommon.Cap) = Except.ok (-(2 ^ 32)) ∧
    (NewMultiPool 2 1 RoundRobin [] (fun _ => 0)).map
        (fun mp => (mp.multiPoolCommon.Cap, (mp.multiPoolCommon.Tune (2 ^ 31)).Cap)) =
      Except.ok (2, -(2 ^ 32)) :=
  ⟨rfl, rfl⟩

/-- C27 (amended): for a multi-pool, `Running()`, `Free()`, `Waiting()` and `Cap()` are the sums
of the same observation over the shards. A fresh multi-pool of `N` shards of size `s < 2^31` has
`Cap() = N × s`; and after `Tune(n)` with `0 < n < 2^31` on shards that are bounded and not
preallocated, `Cap() = N × n`. -/
theorem MultiPool_aggregates_sum (mp : multiPoolCommon) (n : Int) (hn0 : 0 < n)
    (hn1 : n < 2 ^ 31)
    (hb : ∀ p ∈ mp.pools, p.Cap ≠ -1 ∧ p.options.PreAlloc = false) :
    mp.Running = (mp.pools.map poolCommon.Running).sum ∧
    mp.Free = (mp.pools.map poolCommon.Free).sum ∧
    mp.Waiting = (mp.pools.map poolCommon.Waiting).sum ∧
    mp.Cap = (mp.pools.map poolCommon.Cap).sum ∧
    (mp.Tune n).Cap = (mp.pools.length : Int) * n ∧
    (∀ size s lbs options clock (m : MultiPool),
      NewMultiPool size s lbs options clock = Except.ok m → s < 2 ^ 31 →
      (m.multiPoolCommon.pools.length : Int) = size ∧ m.multiPoolCommon.Cap = size * s) := by
  have hsum : ∀ (f : poolCommon → Int) (ps : List poolCommon),
      ps.foldl (fun a p => a + f p) 0 = (ps.map f).sum := by
    intro f ps
    rw [foldl_add_eq_sum f ps 0]
    omega
  refine ⟨hsum _ _, hsum _ _, hsum _ _, hsum _ _, ?_, ?_⟩
  · show (mp.pools.map (fun p => p.Tune n)).foldl (fun a p => a + p.Cap) 0 = _
    rw [hsum, List.map_map]
    rw [sum_map_const _ n]
    · intro p hp
      obtain ⟨h1, h2⟩ := hb p hp
      show (p.Tune n).Cap = n
      unfold poolCommon.Tune
      simp only []
      split_ifs with hnoop
      · rcases hnoop with h | h | h | h
        · exact absurd h h1
        · omega
        · exact h.symm
        · rw [h2] at h
          exact Bool.noConfusion h
      · exact int32_eq_self n (by omega) hn1
  · intro size s lbs options clock m hm hs
    obtain ⟨hpos, hlen, -, -, -, -, hall⟩ := NewMultiPool_ok size s lbs options clock m hm
    refine ⟨hlen, ?_⟩
    show m.multiPoolCommon.pools.foldl (fun a p => a + p.Cap) 0 = _
    rw [hsum, sum_map_const _ s, hlen]
    intro p hp
    obtain ⟨c, pool, hpool, hpp⟩ := hall p hp
    subst hpp
    unfold NewPool at hpool
    cases hc : newPoolCommon s options c with
    | error e =>
      rw [hc] at hpool
      exact Except.noConfusion hpool
    | ok pc =>
      rw [hc] at hpool
      have := Except.ok.inj hpool
      subst this
      obtain ⟨-, -, -, hcap, -, -, -, -, -, -, -, hsz⟩ := newPoolCommon_ok s options c pc hc
      show pc.capacity = s
      rw [hcap]
      exact int32_eq_self s (by omega) hs

/-- C27 on two shards of capacity 1 that run 1 and 0 workers, with `Tune(4)`. -/
theorem MultiPool_aggregates_sum_witness :
    (multiPoolCommon.mk
      [poolCommon.mk 1 1 OPENED 0 NOT_DONE true NOT_DONE true 0 (Queue.lifo (lifoQueue.mk [] []))
        false (Options.mk DefaultCleanIntervalTime false 0 false false false) false,
      poolCommon.mk 1 0 OPENED 0 NOT_DONE true NOT_DONE true 0 (Queue.lifo (lifoQueue.mk [] []))
        false (Options.mk DefaultCleanIntervalTime false 0 false false false) false]
      MaxUint32 OPENED RoundRobin).Running = ([1, 0] : List Int).sum ∧
    ((multiPoolCommon.mk
      [poolCommon.mk 1 1 OPENED 0 NOT_DONE true NOT_DONE true 0 (Queue.lifo (lifoQueue.mk [] []))
        false (Options.mk DefaultCleanIntervalTime false 0 false false false) false,
      poolCommon.mk 1 0 OPENED 0 NOT_DONE true NOT_DONE true 0 (Queue.lifo (lifoQueue.mk [] []))
        false (Options.mk DefaultCleanIntervalTime false 0 false false false) false]
      MaxUint32 OPENED RoundRobin).Tune 4).Cap = ((2 : Nat) : Int) * 4 :=
  ⟨(MultiPool_aggregates_sum
      (multiPoolCommon.mk
        [poolCommon.mk 1 1 OPENED 0 NOT_DONE true NOT_DONE true 0
          (Queue.lifo (lifoQueue.mk [] [])) false
          (Options.mk DefaultCleanIntervalTime false 0 false false false) false,
        poolCommon.mk 1 0 OPENED 0 NOT_DONE true NOT_DONE true 0
          (Queue.lifo (lifoQueue.mk [] [])) false
          (Options.mk DefaultCleanIntervalTime false 0 false false false) false]
        MaxUint32 OPENED RoundRobin) 4 (by decide) (by decide) (by decide)).1,
    (MultiPool_aggregates_sum
      (multiPoolCommon.mk
        [poolCommon.mk 1 1 OPENED 0 NOT_DONE true NOT_DONE true 0
          (Queue.lifo (lifoQueue.mk [] [])) false
          (Options.mk DefaultCleanIntervalTime false 0 false false false) false,
        poolCommon.mk 1 0 OPENED 0 NOT_DONE true NOT_DONE true 0
          (Queue.lifo (lifoQueue.mk [] [])) false
          (Options.mk DefaultCleanIntervalTime false 0 false false false) false]
        MaxUint32 OPENED RoundRobin) 4 (by decide) (by decide) (by decide)).2.2.2.2.1⟩

/-- When the operations of a multi-pool run one at a time: in every state that a multi-pool built
by `NewMultiPool` reaches through `Submit` and its resumptions, `Tune`, `Release`,
`ReleaseTimeout`, `Reboot` and the events inside its shards, each taken as one step, `IsClosed()`
of the multi-pool is true if and only if every shard is closed. -/
theorem MultiPool_IsClosed_iff_shards_closed (mp : MultiPool) (hr : mp.SeqReachable) :
    mp.multiPoolCommon.IsClosed = true ↔
      ∀ p ∈ mp.multiPoolCommon.pools, p.IsClosed = true := by
  have hc := MultiPool.SeqReachable.coherent hr
  constructor
  · intro h p hp
    have hs : mp.multiPoolCommon.state = CLOSED := by
      simpa [multiPoolCommon.IsClosed] using h
    simp [poolCommon.IsClosed, (hc.shards p hp).1, hs]
  · intro h
    obtain ⟨p, rest, hp⟩ := List.exists_cons_of_ne_nil hc.nonempty
    have hmem : p ∈ mp.multiPoolCommon.pools := by
      rw [hp]
      exact List.mem_cons_self _ _
    have hps : p.state = CLOSED := by
      simpa [poolCommon.IsClosed] using h p hmem
    simp [multiPoolCommon.IsClosed, ← (hc.shards p hmem).1, hps]

/-- C28 fails on the code: `Release` and `Reboot` of a multi-pool swap its state first and loop
over the shards afterwards, without a lock. In the schedule `releaseRebootRun` the swap of
`Release` closes the multi-pool, `Reboot` opens it again while the shards are still open, and
the loop of `Release` then closes both shards: afterwards `IsClosed()` of the multi-pool is
false although every shard is closed. -/
theorem Release_Reboot_race_opens_closed_shards :
    releaseRebootRun.map (fun mp => (mp.IsClosed, mp.pools.map poolCommon.IsClosed)) =
      some (false, [true, true]) := by
  decide

/-- C29: on a pool whose idle queue is well formed, `revertWorker(w)` returns. It returns false
and leaves the pool as it is when the pool is closed or when `Cap() > 0` and
`Running() > Cap()`. Otherwise the worker is stamped with the cached clock and either it is
appended to the idle queue, nothing else changes and the result is true, or the queue reports
`ErrQueueIsFull`, the pool is left as it is and the result is false. A pool that is found closed
once the lock is taken gets no worker inserted either. -/
theorem revertWorker_returns_false_or_inserts (p : poolCommon) (w : Worker)
    (hq : p.workers.WellFormed) :
    (((p.Cap > 0 ∧ p.Running > p.Cap) ∨ p.IsClosed = true) →
      p.revertWorker w = some (false, p)) ∧
    (¬ ((p.Cap > 0 ∧ p.Running > p.Cap) ∨ p.IsClosed = true) →
      ∃ r q', p.workers.insert (w.setLastUsedTime p.nowTime) = some (r, q') ∧
        (r = none →
          p.revertWorker w = some (true, { p with workers := q' }) ∧
          q'.workers = p.workers.workers ++ [w.setLastUsedTime p.nowTime]) ∧
        (r ≠ none →
          r = some PoolError.ErrQueueIsFull ∧ p.revertWorker w = some (false, p))) ∧
    (∀ (p2 : poolCommon) (w2 : Worker), p2.IsClosed = true →
      p2.revertWorkerLocked w2 = some (false, p2)) := by
  refine ⟨?_, ?_, ?_⟩
  · intro h
    simp only [poolCommon.revertWorker, poolCommon.revertWorkerStamp, if_pos h]
  · intro h
    have hopen : p.IsClosed = false := by
      cases hc : p.IsClosed with
      | false => rfl
      | true => exact absurd (Or.inr hc) h
    have hstamp : p.revertWorkerStamp w = some (w.setLastUsedTime p.nowTime) := by
      unfold poolCommon.revertWorkerStamp
      rw [if_neg h]
    obtain ⟨r, q', hi, -, hnone, hsome⟩ := hq.insert_spec (w.setLastUsedTime p.nowTime)
    refine ⟨r, q', hi, ?_, ?_⟩
    · intro hr
      subst hr
      refine ⟨?_, hnone rfl⟩
      simp only [poolCommon.revertWorker, hstamp, poolCommon.revertWorkerLocked, hopen,
        Bool.false_eq_true, if_false, hi]
    · intro hr
      have hqq := hsome hr
      subst hqq
      cases r with
      | none => exact absurd rfl hr
      | some e =>
        have he := hq.insert_error _ e _ hi
        subst he
        refine ⟨rfl, ?_⟩
        simp only [poolCommon.revertWorker, hstamp, poolCommon.revertWorkerLocked, hopen,
          Bool.false_eq_true, if_false, hi]
  · intro p2 w2 hc
    simp only [poolCommon.revertWorkerLocked, hc, if_true]

/-- C29 on an open pool of capacity 2 with one running worker, which is handed back at the cached
time 7. -/
theorem revertWorker_returns_false_or_inserts_witness :
    ∃ r q', (Queue.lifo (lifoQueue.mk [] [])).insert
        ((⟨1, 0⟩ : Worker).setLastUsedTime 7) = some (r, q') ∧
      (r = none →
        (poolCommon.mk 2 1 OPENED 0 NOT_DONE true NOT_DONE true 7
          (Queue.lifo (lifoQueue.mk [] [])) false
          (Options.mk DefaultCleanIntervalTime false 0 false false false) false).revertWorker
            ⟨1, 0⟩ =
          some (true, poolCommon.mk 2 1 OPENED 0 NOT_DONE true NOT_DONE true 7 q' false
            (Options.mk DefaultCleanIntervalTime false 0 false false false) false) ∧
        q'.workers = [] ++ [(⟨1, 0⟩ : Worker).setLastUsedTime 7]) ∧
      (r ≠ none →
        r = some PoolError.ErrQueueIsFull ∧
        (poolCommon.mk 2 1 OPENED 0 NOT_DONE true NOT_DONE true 7
          (Queue.lifo (lifoQueue.mk [] [])) false
          (Options.mk DefaultCleanIntervalTime false 0 false false false) false).revertWorker
            ⟨1, 0⟩ =
          some (false, poolCommon.mk 2 1 OPENED 0 NOT_DONE true NOT_DONE true 7
            (Queue.lifo (lifoQueue.mk [] [])) false
            (Options.mk DefaultCleanIntervalTime false 0 false false false) false)) :=
  (revertWorker_returns_false_or_inserts
    (poolCommon.mk 2 1 OPENED 0 NOT_DONE true NOT_DONE true 7
      (Queue.lifo (lifoQueue.mk [] [])) false
      (Options.mk DefaultCleanIntervalTime false 0 false false false) false)
    ⟨1, 0⟩ trivial).2.1 (by decide)

/-- C30 fails on the code: `NewMultiPool` starts the round-robin counter at `MaxUint32`, so that
the first choice is shard 0, but `Reboot` stores 0 into it, so that the first choice after
`Release` and `Reboot` is shard 1 whenever there are at least 2 shards. On the multi-pool that
`NewMultiPool(2, 1, RoundRobin)` returns, the first choice after construction is 0; after
`Release`, the first choice after the `Reboot` of the code is 1, whereas it is 0 after a `Reboot`
that puts the counter back to its value at construction. -/
theorem Reboot_round_robin_starts_at_shard_one :
    ∃ mp mp1, NewMultiPool 2 1 RoundRobin [] (fun _ => 0) = Except.ok mp ∧
      mp.multiPoolCommon.index = MaxUint32 ∧
      mp.multiPoolCommon.nthNext RoundRobin 1 = some 0 ∧
      mp.multiPoolCommon.Release = some mp1 ∧
      (mp1.Reboot (fun _ => 5)).index = 0 ∧
      (mp1.Reboot (fun _ => 5)).nthNext RoundRobin 1 = some 1 ∧
      (mp1.RebootSpec (fun _ => 5)).nthNext RoundRobin 1 = some 0 :=
  ⟨_, _, rfl, rfl, rfl, rfl, rfl, rfl, rfl⟩
